import Mathlib

/-!
# Discretised probability distributions (Tigon `IDistribution`)

A shallow embedding of `src/core/distributions/IDistribution.cpp` and
`src/core/distributions/LinearDistribution.cpp`.

Modelling conventions

* `qreal` is modelled by `ℚ` (exact arithmetic).  Every theorem that depends on
  the value of a quotient carries hypotheses under which its denominator is
  non-zero.  The section *Binary64 arithmetic and 32-bit integers* is the
  exception: `generateEquallySpacedZ` truncates a quotient of `double`s to `int`,
  so the number of grid points depends on the rounding of that quotient, and the
  section repeats the grid generation with every operation rounded to binary64
  and `int` of 32 bits.
* `QVector<qreal>` is modelled by `List ℚ`.  An element access outside the
  vector is a fault (`Fault.outOfRange`), so the mutating operations live in
  `Run = Except Fault`.
* `calculateCDF` is recursive without a structural measure; it takes a fuel
  argument, one unit per activation (`Fault.outOfFuel` when it is exhausted).
* The three interpolator caches are rebound from the tables at every use
  (`defineXY`), hence carry no state of their own and are not stored.
* Virtual calls (`generateZ`, `generatePDF`) dispatch on `m_type`, which every
  constructor sets to the tag of its own class.
* The constants of the `Tigon` namespace, the class `LinearInterpolator` and the
  function `conv` are declared outside the modelled sources; they appear as the
  parameters `Constants` and `Environment`.  So are the sign function `sgn` of the
  utilities, the random source `TRAND.randUni()` and the library function `sqrt`, which
  are parameters of the operations that call them.
* In the operations that take another distribution, the receiver and `other` are two
  objects; each such operation returns the states of both.
* Where the language leaves the order of evaluation open, the order of the two
  interpolator arguments `zSamples()`, `pdf()` is a parameter
  (`Environment.argsInOrder`); the operands of `i.peekPrevious() == i.next()` in
  `defineZ` are read left to right.
-/

namespace Tigon

/-- Reasons for which a run of the modelled code yields no state. -/
inductive Fault where
  | outOfRange
  | outOfFuel
  deriving DecidableEq

/-- Computations that may fault. -/
abbrev Run (α : Type) : Type := Except Fault α

/-- Constants of the `Tigon` namespace used by the distributions. -/
structure Constants where
  DistMinInterval : ℚ
  DistMinNSamples : Int
  DistNSamples : Int
  DistConvNSamples : Int
  DistMultNSamples : Int
  Lowest : ℚ
  Highest : ℚ

/-- Tags of the concrete distribution classes. -/
inductive DistributionType where
  | GenericDistType
  | LinearDistType
  deriving DecidableEq

/-- Data members of `IDistribution`, with the `m_ascend` member that
`LinearDistribution` adds (unused while `m_type` is `GenericDistType`). -/
structure IDistribution where
  m_type : DistributionType
  m_dz : ℚ
  m_lb : ℚ
  m_ub : ℚ
  m_z : List ℚ
  m_pdf : List ℚ
  m_cdf : List ℚ
  m_nSamples : Int
  m_ascend : Bool

/-! ## `QVector` primitives -/

namespace QVector

/-- `v[i]` as an rvalue. -/
def read (v : List ℚ) (i : Nat) : Run ℚ :=
  match v[i]? with
  | some x => .ok x
  | none => .error .outOfRange

/-- `v[i] = x`. -/
def write (v : List ℚ) (i : Nat) (x : ℚ) : Run (List ℚ) :=
  if i < v.length then .ok (v.set i x) else .error .outOfRange

/-- `v.first()`. -/
def first (v : List ℚ) : Run ℚ := read v 0

/-- `v.last()`. -/
def last (v : List ℚ) : Run ℚ :=
  if v.length = 0 then .error .outOfRange else read v (v.length - 1)

/-- `v.fill(x, size)`: a negative size keeps the current size. -/
def fill (v : List ℚ) (x : ℚ) (size : Int) : List ℚ :=
  List.replicate (if size < 0 then v.length else size.toNat) x

/-- `QVector<qreal>(size)` and `QVector<qreal>(size, x)`; a negative size is a fault. -/
def create (size : Int) (x : ℚ) : Run (List ℚ) :=
  if size < 0 then .error .outOfRange else .ok (List.replicate size.toNat x)

/-- `v.resize(size)`: truncates or pads with zeros; a negative size is a fault. -/
def resize (v : List ℚ) (size : Int) : Run (List ℚ) :=
  if size < 0 then .error .outOfRange
  else .ok (v.take size.toNat ++ List.replicate (size.toNat - v.length) 0)

end QVector

/-- The loop `for (int i = start; i < start + count; i++) body`. -/
def forLoop {σ : Type} (body : Nat → σ → Run σ) : Nat → Nat → σ → Run σ
  | _, 0, s => .ok s
  | i, k + 1, s =>
    match body i s with
    | .ok s' => forLoop body (i + 1) k s'
    | .error e => .error e

/-- Entry `i` of a table, `0` beyond its end. -/
def nth (v : List ℚ) (i : Nat) : ℚ := (v[i]?).getD 0

/-- The conversion `(int)x` of an exact value: truncation towards zero, into an unbounded
integer (`Binary64.toInt32` is the conversion into the `int` of 32 bits). -/
def toInt (x : ℚ) : Int := if 0 ≤ x then ⌊x⌋ else ⌈x⌉

/-! ## Collaborators that are not among the modelled sources -/

/-- Modelled from the spec: the class `LinearInterpolator` (`tigon/Utils/LinearInterpolator.h`)
is not among the sources.  Following section 6 of the specification, `interpolate xs ys x`
is the piecewise-linear interpolation of the table `(xs, ys)` between the two nearest
entries, clamped to the nearest edge value outside the table range. -/
def LinearInterpolator.interpolate : List ℚ → List ℚ → ℚ → ℚ
  | x0 :: x1 :: xs, y0 :: y1 :: ys, x =>
    if x ≤ x0 then y0
    else if x ≤ x1 then y0 + (y1 - y0) * (x - x0) / (x1 - x0)
    else LinearInterpolator.interpolate (x1 :: xs) (y1 :: ys) x
  | _, y0 :: _, _ => y0
  | _, [], _ => 0

/-- Modelled from the spec: the function `conv` (`tigon/Utils/TigonUtils.h`) is not among
the sources.  Following section 4.1 of the specification it is the discrete convolution of
two vectors, of length `|a| + |b| - 1`: entry `k` is the sum of `a[i] * b[k - i]`. -/
def conv (a b : List ℚ) : List ℚ :=
  (List.range (a.length + b.length - 1)).map
    (fun k => ((List.range (k + 1)).map (fun i => nth a i * nth b (k - i))).sum)

/-- What the modelled sources leave open: the collaborators declared elsewhere (the
evaluation of a `LinearInterpolator` bound to the tables `(xs, ys)`, and the function `conv`
of the utilities), and whether the compiler evaluates the arguments of a call in the order
in which they are written. -/
structure Environment where
  interpolate : List ℚ → List ℚ → ℚ → ℚ
  conv : List ℚ → List ℚ → List ℚ
  argsInOrder : Bool

/-- Modelled from the spec: the collaborators `LinearInterpolator` and `conv`, which are not
among the sources, as sections 4.1 and 6 of the specification describe them. -/
def specified (argsInOrder : Bool) : Environment :=
  { interpolate := LinearInterpolator.interpolate, conv := conv, argsInOrder := argsInOrder }

/-! ## Constructors -/

namespace IDistribution

/-- `IDistribution::IDistribution()`. -/
def new (c : Constants) : IDistribution :=
  { m_type := .GenericDistType
    m_nSamples := 0
    m_lb := 0
    m_ub := 1
    m_dz := (1 - 0) / ((c.DistMinNSamples : ℚ) - 1)
    m_z := []
    m_pdf := []
    m_cdf := []
    m_ascend := true }

/-! ## Grid and table generation -/

/-- `IDistribution::defineResolution`. -/
def defineResolution (d : IDistribution) (dz : ℚ) : IDistribution :=
  if dz > 0 then
    { d with m_dz := (d.m_ub - d.m_lb) / (⌈(d.m_ub - d.m_lb) / dz⌉ : ℚ) }
  else d

/-- `IDistribution::generateEquallySpacedZ`, with the exact quotient
(`Binary64.generateEquallySpacedZ` rounds it). -/
def generateEquallySpacedZ (d : IDistribution) : Run IDistribution := do
  let n : Int := toInt ((d.m_ub - d.m_lb) / d.m_dz) + 1
  let z ← QVector.resize d.m_z n
  let (z, _) ← forLoop
    (fun i (s : List ℚ × ℚ) => do
      let z ← QVector.write s.1 i s.2
      pure (z, s.2 + d.m_dz))
    0 (z.length - 1) (z, d.m_lb)
  if z.length = 0 then throw .outOfRange
  let z ← QVector.write z (z.length - 1) d.m_ub
  pure { d with m_nSamples := n, m_z := z }

/-- `generateZ` (virtual): both `IDistribution::generateZ` and
`LinearDistribution::generateZ` call `generateEquallySpacedZ`. -/
def generateZ (d : IDistribution) : Run IDistribution :=
  match d.m_type with
  | .GenericDistType => generateEquallySpacedZ d
  | .LinearDistType => generateEquallySpacedZ d

/-- `IDistribution::zSamples`: the state after the call; the returned vector is its `m_z`. -/
def zSamples (d : IDistribution) : Run IDistribution :=
  if d.m_z.isEmpty then generateZ d else pure d

/-- `IDistribution::generatePDF`: the uniform density. -/
def generatePDFGeneric (d : IDistribution) : IDistribution :=
  { d with m_pdf := QVector.fill d.m_pdf (1 / (d.m_ub - d.m_lb)) d.m_nSamples }

/-- `LinearDistribution::generatePDF`: the triangular density. -/
def generatePDFLinear (d : IDistribution) : Run IDistribution := do
  let d ← if d.m_z.isEmpty then generateZ d else pure d
  let maxProbability : ℚ := 2 / (d.m_ub - d.m_lb)
  let pdf ← QVector.create d.m_nSamples 0
  let pdf ← forLoop
    (fun i (pdf : List ℚ) => do
      let zi ← QVector.read d.m_z i
      if d.m_ascend then
        QVector.write pdf i (maxProbability * (zi - d.m_lb) / (d.m_ub - d.m_lb))
      else
        QVector.write pdf i (maxProbability * (d.m_ub - zi) / (d.m_ub - d.m_lb)))
    0 d.m_nSamples.toNat pdf
  pure { d with m_pdf := pdf }

/-- `generatePDF` (virtual). -/
def generatePDF (d : IDistribution) : Run IDistribution :=
  match d.m_type with
  | .GenericDistType => pure (generatePDFGeneric d)
  | .LinearDistType => generatePDFLinear d

/-- The integration loop of `calculateCDF`:
`m_cdf[i+1] = m_cdf[i] + (m_pdf[i] + m_pdf[i+1])/2 * (m_z[i+1] - m_z[i])`. -/
def cdfStep (z pdf : List ℚ) (i : Nat) (cdf : List ℚ) : Run (List ℚ) := do
  let cur ← QVector.read pdf i
  let next ← QVector.read pdf (i + 1)
  let ci ← QVector.read cdf i
  let z1 ← QVector.read z (i + 1)
  let z0 ← QVector.read z i
  QVector.write cdf (i + 1) (ci + (cur + next) / 2 * (z1 - z0))

/-- The normalising loop of `calculateCDF`: `m_pdf[i] /= factor; m_cdf[i] /= factor`. -/
def normStep (factor : ℚ) (i : Nat) (s : List ℚ × List ℚ) : Run (List ℚ × List ℚ) := do
  let p ← QVector.read s.1 i
  let pdf ← QVector.write s.1 i (p / factor)
  let c ← QVector.read s.2 i
  let cdf ← QVector.write s.2 i (c / factor)
  pure (pdf, cdf)

/-- `IDistribution::calculateCDF`; `fuel` bounds the number of activations. -/
def calculateCDF : Nat → IDistribution → Run IDistribution
  | 0, _ => .error .outOfFuel
  | fuel + 1, d => do
    let d ← if d.m_pdf.isEmpty then generatePDF d else pure d
    let cdf := QVector.fill d.m_cdf 0 d.m_nSamples
    let cdf ← forLoop (cdfStep d.m_z d.m_pdf) 0 (d.m_nSamples - 1).toNat cdf
    let d := { d with m_cdf := cdf }
    let factor ← QVector.last d.m_cdf
    if factor = 1 then
      pure d
    else if factor = 0 then
      let probability : ℚ := 1 / (d.m_ub - d.m_lb)
      let pdf ← QVector.create d.m_nSamples probability
      calculateCDF fuel { d with m_pdf := pdf }
    else do
      let (pdf, cdf) ← forLoop (normStep factor) 0 d.m_cdf.length (d.m_pdf, d.m_cdf)
      pure { d with m_pdf := pdf, m_cdf := cdf }

/-- `IDistribution::normalise`. -/
def normalise (fuel : Nat) (d : IDistribution) : Run IDistribution :=
  if d.m_pdf.isEmpty then pure d else calculateCDF fuel d

/-- The guard that opens `IDistribution::defineBoundaries`: the pair `(lb, ub)` after
`if(lb >= ub) { ... }`. -/
def widened (c : Constants) (lb ub : ℚ) : ℚ × ℚ :=
  if lb ≥ ub then
    if lb = 0 then (lb, c.DistMinInterval)
    else if lb > 0 then (lb, lb * (1 + c.DistMinInterval))
    else (ub * (1 + c.DistMinInterval), ub)
  else (lb, ub)

/-- `IDistribution::defineBoundaries`.  The rescaling loop reads `m_lb` after it has been
assigned the new lower bound. -/
def defineBoundaries (c : Constants) (fuel : Nat) (d : IDistribution) (lb ub : ℚ) :
    Run IDistribution := do
  let (lb, ub) := widened c lb ub
  let oldRange := d.m_ub - d.m_lb
  let newRange := ub - lb
  let ratio := newRange / oldRange
  let d := { d with m_lb := lb, m_ub := ub }
  let d := defineResolution d (d.m_dz * ratio)
  let z ←
    if !d.m_z.isEmpty then
      forLoop
        (fun i (z : List ℚ) => do
          let zi ← QVector.read z i
          QVector.write z i (lb + ratio * (zi - d.m_lb)))
        0 d.m_nSamples.toNat d.m_z
    else pure d.m_z
  let d := { d with m_z := z }
  if !d.m_pdf.isEmpty then normalise fuel d else pure d

/-- `IDistribution::IDistribution(qreal value)`. -/
def ofValue (c : Constants) (fuel : Nat) (value : ℚ) : Run IDistribution :=
  defineBoundaries c fuel (new c) value value

/-- The iterator loop of `IDistribution::defineZ`: an element equal to the element kept
before it is removed (the comparison `i.peekPrevious() == i.next()` is read left to right). -/
def removeRepeated : List ℚ → List ℚ
  | [] => []
  | [a] => [a]
  | a :: b :: rest =>
    if a = b then removeRepeated (a :: rest) else a :: removeRepeated (b :: rest)

/-- `IDistribution::defineZ`; `std::sort` is the sorting function of the library. -/
def defineZ (c : Constants) (fuel : Nat) (d : IDistribution) (z : List ℚ) :
    Run IDistribution := do
  let z := removeRepeated (z.insertionSort (· ≤ ·))
  let d := if d.m_pdf.length ≠ z.length then { d with m_pdf := [] } else d
  if z.length ≥ 2 then
    let lb ← QVector.first z
    let ub ← QVector.last z
    pure { d with m_z := z, m_lb := lb, m_ub := ub, m_nSamples := z.length }
  else
    let d := { d with m_z := [], m_nSamples := 0 }
    let z0 ← QVector.read z 0
    defineBoundaries c fuel d z0 z0

/-! ## Queries -/

/-- `IDistribution::pdf()`: the state after the call; the returned vector is its `m_pdf`. -/
def pdf (d : IDistribution) : Run IDistribution :=
  if d.m_pdf.isEmpty || (d.m_pdf.length : Int) ≠ d.m_nSamples then generatePDF d else pure d

/-- `IDistribution::pdf(qreal z)`: the value and the state after the call.  The two
arguments `zSamples()` and `pdf()` of the interpolator are evaluated in either order. -/
def pdfAt (k : Environment) (d : IDistribution) (z : ℚ) : Run (ℚ × IDistribution) := do
  let d ← if d.m_pdf.isEmpty || (d.m_pdf.length : Int) ≠ d.m_nSamples then generatePDF d
    else pure d
  if z < d.m_lb || z > d.m_ub then
    pure (0, d)
  else if k.argsInOrder then do
    let d ← zSamples d
    let xs := d.m_z
    let d ← pdf d
    pure (k.interpolate xs d.m_pdf z, d)
  else do
    let d ← pdf d
    let ys := d.m_pdf
    let d ← zSamples d
    pure (k.interpolate d.m_z ys z, d)

/-! ## Arithmetic -/

/-- `IDistribution::negate`. -/
def negate (fuel : Nat) (d : IDistribution) : Run IDistribution :=
  let d := { d with m_ub := -d.m_lb, m_lb := -d.m_ub }
  if d.m_z.isEmpty then pure d
  else do
    let newZ ← QVector.create d.m_nSamples 0
    let newZ ← forLoop
      (fun i (v : List ℚ) => do
        let x ← QVector.read d.m_z (d.m_nSamples.toNat - 1 - i)
        QVector.write v i (-x))
      0 d.m_nSamples.toNat newZ
    let d := { d with m_z := newZ }
    if d.m_pdf.isEmpty then pure d
    else do
      let newPdf ← QVector.create d.m_nSamples 0
      let newPdf ← forLoop
        (fun i (v : List ℚ) => do
          let x ← QVector.read d.m_pdf (d.m_nSamples.toNat - 1 - i)
          QVector.write v i x)
        0 d.m_nSamples.toNat newPdf
      calculateCDF fuel { d with m_pdf := newPdf }

/-- `IDistribution::add(qreal num)`. -/
def add (fuel : Nat) (d : IDistribution) (num : ℚ) : Run IDistribution :=
  let d := { d with m_ub := d.m_ub + num, m_lb := d.m_lb + num }
  if d.m_z.isEmpty then pure d
  else do
    let z ← forLoop
      (fun i (z : List ℚ) => do
        let zi ← QVector.read z i
        QVector.write z i (zi + num))
      0 d.m_nSamples.toNat d.m_z
    let d := { d with m_z := z }
    if !d.m_pdf.isEmpty then calculateCDF fuel d else pure d

/-- `IDistribution::subtract(qreal num)`. -/
def subtract (fuel : Nat) (d : IDistribution) (num : ℚ) : Run IDistribution :=
  add fuel d (-num)

/-- `IDistribution::multiply(qreal num)`. -/
def multiply (c : Constants) (fuel : Nat) (d : IDistribution) (num : ℚ) :
    Run IDistribution :=
  if num = 0 then
    normalise fuel
      { d with
        m_lb := 0
        m_ub := c.DistMinInterval
        m_dz := c.DistMinInterval / ((c.DistMinNSamples : ℚ) - 1)
        m_z := [0, (0 + c.DistMinInterval) / 2, c.DistMinInterval]
        m_pdf := QVector.fill d.m_pdf 1 2 }
  else do
    let (d, num) ← if num < 0 then (do let d ← negate fuel d; pure (d, -num)) else pure (d, num)
    let d := { d with m_ub := d.m_ub * num, m_lb := d.m_lb * num }
    if d.m_z.isEmpty then pure d
    else do
      let z ← forLoop
        (fun i (z : List ℚ) => do
          let zi ← QVector.read z i
          QVector.write z i (zi * num))
        0 d.m_nSamples.toNat d.m_z
      let d := { d with m_z := z }
      if !d.m_pdf.isEmpty then calculateCDF fuel d else pure d

/-- The loops of `add(other)`, `multiply(other)`, ... that fill a vector of `n` evenly
distributed samples: `v[i] = zz; zz += dz` for `i < n - 1`, then `v[n-1] = ub`. -/
def evenSamples (n : Int) (lb dz ub : ℚ) : Run (List ℚ) := do
  let z ← QVector.create n 0
  let (z, _) ← forLoop
    (fun i (s : List ℚ × ℚ) => do
      let z ← QVector.write s.1 i s.2
      pure (z, s.2 + dz))
    0 (n - 1).toNat (z, lb)
  QVector.write z (n - 1).toNat ub

/-- The loops of `add(other)` that resample a density at evenly distributed points:
`v[i] = pdf(zz); zz += dz` for `i < n - 1`, then `v[n-1] = pdf(ub)`. -/
def resample (k : Environment) (d : IDistribution) (n : Int) (lb dz ub : ℚ) :
    Run (List ℚ × IDistribution) := do
  let v ← QVector.create n 0
  let (v, _, d) ← forLoop
    (fun i (s : List ℚ × ℚ × IDistribution) => do
      let (p, d') ← pdfAt k s.2.2 s.2.1
      let v ← QVector.write s.1 i p
      pure (v, s.2.1 + dz, d'))
    0 (n - 1).toNat (v, lb, d)
  let (p, d) ← pdfAt k d ub
  let v ← QVector.write v (n - 1).toNat p
  pure (v, d)

/-- `IDistribution::add(const IDistributionSPtr other)`: the states of the receiver and of
`other` after the call. -/
def addDistribution (k : Environment) (c : Constants) (fuel : Nat)
    (d other : IDistribution) : Run (IDistribution × IDistribution) := do
  let lbO := other.m_lb
  let ubO := other.m_ub
  let lb := d.m_lb + lbO
  let ub := d.m_ub + ubO
  let dz := max (d.m_ub - d.m_lb) (ubO - lbO) / (c.DistConvNSamples : ℚ)
  let nSampT : Int := toInt ((d.m_ub - d.m_lb) / dz) + 1
  let nSampO : Int := toInt ((ubO - lbO) / dz) + 1
  let nSamples : Int := nSampT + nSampO - 1
  let dz := (ub - lb) / ((nSamples : ℚ) - 1)
  let dzT := (d.m_ub - d.m_lb) / ((nSampT : ℚ) - 1)
  let dzO := (ubO - lbO) / ((nSampO : ℚ) - 1)
  let z ← evenSamples nSamples lb dz ub
  let (pdfT, d) ← resample k d nSampT d.m_lb dzT d.m_ub
  let (pdfO, other) ← resample k other nSampO lbO dzO ubO
  let d := { d with
    m_pdf := k.conv pdfT pdfO, m_z := z, m_ub := ub, m_lb := lb, m_dz := dz,
    m_nSamples := nSamples }
  let d ← normalise fuel d
  pure (d, other)

end IDistribution

namespace IDistribution

/-! ## Further queries -/

/-- `IDistribution::cdf()`: the state after the call; the returned vector is its `m_cdf`. -/
def cdf (fuel : Nat) (d : IDistribution) : Run IDistribution :=
  if d.m_cdf.isEmpty || (d.m_cdf.length : Int) ≠ d.m_nSamples then calculateCDF fuel d
  else pure d

/-- The loop of `IDistribution::mean`:
`sum += (m_pdf[i]*m_z[i] + m_pdf[i+1]*m_z[i+1])/2 * (m_z[i+1] - m_z[i])`. -/
def meanStep (z pdf : List ℚ) (i : Nat) (sum : ℚ) : Run ℚ := do
  let pi ← QVector.read pdf i
  let zi ← QVector.read z i
  let cur := pi * zi
  let pn ← QVector.read pdf (i + 1)
  let zn ← QVector.read z (i + 1)
  let next := pn * zn
  pure (sum + (cur + next) / 2 * (zn - zi))

/-- `IDistribution::mean`: the value and the state after the call. -/
def mean (fuel : Nat) (d : IDistribution) : Run (ℚ × IDistribution) := do
  let d ← if d.m_pdf.isEmpty then calculateCDF fuel d else pure d
  let sum ← forLoop (meanStep d.m_z d.m_pdf) 0 (d.m_nSamples - 1).toNat 0
  pure (sum, d)

/-- The loop of `IDistribution::variance`:
`sum += (m_pdf[i]*m_z[i]*m_z[i] + m_pdf[i+1]*m_z[i+1]*m_z[i+1])/2 * (m_z[i+1] - m_z[i])`. -/
def varianceStep (z pdf : List ℚ) (i : Nat) (sum : ℚ) : Run ℚ := do
  let pi ← QVector.read pdf i
  let zi ← QVector.read z i
  let cur := pi * zi * zi
  let pn ← QVector.read pdf (i + 1)
  let zn ← QVector.read z (i + 1)
  let next := pn * zn * zn
  pure (sum + (cur + next) / 2 * (zn - zi))

/-- `IDistribution::variance`: the value and the state after the call. -/
def variance (fuel : Nat) (d : IDistribution) : Run (ℚ × IDistribution) := do
  let (m, d) ← mean fuel d
  let sum ← forLoop (varianceStep d.m_z d.m_pdf) 0 (d.m_nSamples - 1).toNat 0
  pure (sum - m * m, d)

/-- `IDistribution::percentile`: the value and the state after the call.  The two arguments
`cdf()` and `zSamples()` of the interpolator are evaluated in either order. -/
def percentile (k : Environment) (fuel : Nat) (d : IDistribution) (p : ℚ) :
    Run (ℚ × IDistribution) := do
  let d ← if d.m_cdf.isEmpty || (d.m_cdf.length : Int) ≠ d.m_nSamples then calculateCDF fuel d
    else pure d
  if p ≥ 1 then
    pure (d.m_ub, d)
  else if p ≤ 0 then
    pure (d.m_lb, d)
  else if k.argsInOrder then do
    let d ← cdf fuel d
    let xs := d.m_cdf
    let d ← zSamples d
    pure (k.interpolate xs d.m_z p, d)
  else do
    let d ← zSamples d
    let ys := d.m_z
    let d ← cdf fuel d
    pure (k.interpolate d.m_cdf ys p, d)

/-- `IDistribution::cdf(qreal z)`: the value and the state after the call.  The two
arguments `zSamples()` and `cdf()` of the interpolator are evaluated in either order. -/
def cdfAt (k : Environment) (fuel : Nat) (d : IDistribution) (z : ℚ) :
    Run (ℚ × IDistribution) := do
  let d ← if d.m_cdf.isEmpty || (d.m_cdf.length : Int) ≠ d.m_nSamples then calculateCDF fuel d
    else pure d
  if z ≤ d.m_lb then
    pure (0, d)
  else if z ≥ d.m_ub then
    pure (1, d)
  else if k.argsInOrder then do
    let d ← zSamples d
    let xs := d.m_z
    let d ← cdf fuel d
    pure (k.interpolate xs d.m_cdf z, d)
  else do
    let d ← cdf fuel d
    let ys := d.m_cdf
    let d ← zSamples d
    pure (k.interpolate d.m_z ys z, d)

/-! ## Arithmetic between distributions

The receiver and `other` are modelled as two objects: each operation returns the states of
both after the call. -/

/-- `IDistribution::subtract(const IDistributionSPtr other)`: `negate` runs on a clone of
`other`, which is then handed to `add`. -/
def subtractDistribution (k : Environment) (c : Constants) (fuel : Nat)
    (d other : IDistribution) : Run (IDistribution × IDistribution) := do
  let minusOther ← negate fuel other
  let (d, _) ← addDistribution k c fuel d minusOther
  pure (d, other)

/-- The guarded update of `multiply(other)`: with `zo = z[i]/zt`, when
`zo >= lbO && zo <= ubO`, `newPDF[i] += pdf(zt) * other->pdf(zo) / qAbs(zt)`, followed by
`/ 2.0` in the two near-zero cases (`halved`). -/
def productTerm (k : Environment) (lbO ubO : ℚ) (z : List ℚ) (i : Nat) (zt : ℚ)
    (halved : Bool) (s : List ℚ × IDistribution × IDistribution) :
    Run (List ℚ × IDistribution × IDistribution) := do
  let zi ← QVector.read z i
  let zo := zi / zt
  if zo ≥ lbO && zo ≤ ubO then do
    let (p, d) ← pdfAt k s.2.1 zt
    let (q, other) ← pdfAt k s.2.2 zo
    let acc ← QVector.read s.1 i
    let v ← QVector.write s.1 i
      (if halved then acc + p * q / |zt| / 2 else acc + p * q / |zt|)
    pure (v, d, other)
  else pure s

/-- The body of the inner loop of `multiply(other)`: the sample `zt = zT[j]` of the receiver
contributes to `newPDF[i]`, split between `-dzT/2` and `dzT/2` when `qAbs(zt) < dzT/2`. -/
def productStep (k : Environment) (lbO ubO dzT : ℚ) (z zT : List ℚ) (i j : Nat)
    (s : List ℚ × IDistribution × IDistribution) :
    Run (List ℚ × IDistribution × IDistribution) := do
  let zt ← QVector.read zT j
  if |zt| ≥ dzT / 2 then
    productTerm k lbO ubO z i zt false s
  else do
    let s ← productTerm k lbO ubO z i (-dzT / 2) true s
    productTerm k lbO ubO z i (dzT / 2) true s

/-- The body of the outer loop of `multiply(other)`: the inner loop over `j`, then
`newPDF[i] *= dzT`. -/
def productRow (k : Environment) (lbO ubO dzT : ℚ) (z zT : List ℚ) (count : Nat) (i : Nat)
    (s : List ℚ × IDistribution × IDistribution) :
    Run (List ℚ × IDistribution × IDistribution) := do
  let s ← forLoop (productStep k lbO ubO dzT z zT i) 0 count s
  let acc ← QVector.read s.1 i
  let v ← QVector.write s.1 i (acc * dzT)
  pure (v, s.2.1, s.2.2)

/-- `IDistribution::multiply(const IDistributionSPtr other)`: the states of the receiver and
of `other` after the call. -/
def multiplyDistribution (k : Environment) (c : Constants) (fuel : Nat)
    (d other : IDistribution) : Run (IDistribution × IDistribution) := do
  let lbO := other.m_lb
  let ubO := other.m_ub
  let lb := min (d.m_lb * lbO) (min (d.m_lb * ubO) (min (d.m_ub * lbO) (d.m_ub * ubO)))
  let ub := max (d.m_lb * lbO) (max (d.m_lb * ubO) (max (d.m_ub * lbO) (d.m_ub * ubO)))
  let nSamples : Int := c.DistMultNSamples
  let dz := (ub - lb) / ((nSamples : ℚ) - 1)
  let dzT := (d.m_ub - d.m_lb) / ((nSamples : ℚ) - 1)
  let z ← evenSamples nSamples lb dz ub
  let zT ← evenSamples nSamples d.m_lb dzT d.m_ub
  let newPDF ← QVector.create nSamples 0
  let (newPDF, d, other) ← forLoop (productRow k lbO ubO dzT z zT nSamples.toNat)
    0 nSamples.toNat (newPDF, d, other)
  let d := { d with
    m_pdf := newPDF, m_z := z, m_ub := ub, m_lb := lb, m_dz := dz, m_nSamples := nSamples }
  let d ← normalise fuel d
  pure (d, other)

/-- The replacement bounds of `divide(other)` when the support of the divisor contains or
touches zero; `sgn` is the sign function of the utilities. -/
def divideFallback (sgn : ℚ → Int) (c : Constants) (lbT ubT lbO ubO : ℚ) : ℚ × ℚ :=
  if sgn lbT ≠ sgn ubT || sgn lbO ≠ sgn ubO then (c.Lowest, c.Highest)
  else if lbO = 0 then
    if lbT ≥ 0 then (0, c.Highest) else (c.Lowest, 0)
  else
    if lbT ≥ 0 then (c.Lowest, 0) else (0, c.Highest)

/-- The body of the inner loop of `divide(other)`: with `zo = zO[j]` and `zt = z[i]*zo`,
when `zt >= m_lb && zt <= m_ub`, `newPDF[i] += other->pdf(zo) * pdf(zt) * qAbs(zo)`. -/
def quotientStep (k : Environment) (lbT ubT : ℚ) (z zO : List ℚ) (i j : Nat)
    (s : List ℚ × IDistribution × IDistribution) :
    Run (List ℚ × IDistribution × IDistribution) := do
  let zo ← QVector.read zO j
  let zi ← QVector.read z i
  let zt := zi * zo
  if zt ≥ lbT && zt ≤ ubT then do
    let (q, other) ← pdfAt k s.2.2 zo
    let (p, d) ← pdfAt k s.2.1 zt
    let acc ← QVector.read s.1 i
    let v ← QVector.write s.1 i (acc + q * p * |zo|)
    pure (v, d, other)
  else pure s

/-- The body of the outer loop of `divide(other)`: the inner loop over `j`, then
`newPDF[i] *= dzO`. -/
def quotientRow (k : Environment) (lbT ubT dzO : ℚ) (z zO : List ℚ) (count : Nat) (i : Nat)
    (s : List ℚ × IDistribution × IDistribution) :
    Run (List ℚ × IDistribution × IDistribution) := do
  let s ← forLoop (quotientStep k lbT ubT z zO i) 0 count s
  let acc ← QVector.read s.1 i
  let v ← QVector.write s.1 i (acc * dzO)
  pure (v, s.2.1, s.2.2)

/-- `IDistribution::divide(const IDistributionSPtr other)`: the states of the receiver and
of `other` after the call; `sgn` is the sign function of the utilities. -/
def divideDistribution (k : Environment) (sgn : ℚ → Int) (c : Constants) (fuel : Nat)
    (d other : IDistribution) : Run (IDistribution × IDistribution) := do
  let lbO := other.m_lb
  let ubO := other.m_ub
  if sgn lbO ≠ sgn ubO || lbO = 0 || ubO = 0 then do
    let (lb, ub) := divideFallback sgn c d.m_lb d.m_ub lbO ubO
    let d ← defineBoundaries c fuel d lb ub
    let d ← generateEquallySpacedZ d
    let d := generatePDFGeneric d
    pure (d, other)
  else do
    let lb := min (d.m_lb / lbO) (min (d.m_lb / ubO) (min (d.m_ub / lbO) (d.m_ub / ubO)))
    let ub := max (d.m_lb / lbO) (max (d.m_lb / ubO) (max (d.m_ub / lbO) (d.m_ub / ubO)))
    let nSamples : Int := c.DistMultNSamples
    let dz := (ub - lb) / ((nSamples : ℚ) - 1)
    let dzO := (ubO - lbO) / ((nSamples : ℚ) - 1)
    let z ← evenSamples nSamples lb dz ub
    let zO ← evenSamples nSamples lbO dzO ubO
    let newPDF ← QVector.create nSamples 0
    let (newPDF, d, other) ← forLoop (quotientRow k d.m_lb d.m_ub dzO z zO nSamples.toNat)
      0 nSamples.toNat (newPDF, d, other)
    let d := { d with
      m_pdf := newPDF, m_z := z, m_ub := ub, m_lb := lb, m_dz := dz, m_nSamples := nSamples }
    let d ← normalise fuel d
    pure (d, other)

/-- The replacement bounds of `reciprocal()` when the support contains or touches zero. -/
def reciprocalFallback (sgn : ℚ → Int) (c : Constants) (lbT ubT : ℚ) : ℚ × ℚ :=
  if sgn lbT ≠ sgn ubT then (c.Lowest, c.Highest)
  else if lbT = 0 then (0, c.Highest)
  else (c.Lowest, 0)

/-- The body of the loop of `reciprocal()`: with `zt = 1/z[i]`,
`newPDF[i] = pdf(zt) * qAbs(zt*zt)`. -/
def reciprocalStep (k : Environment) (z : List ℚ) (i : Nat) (s : List ℚ × IDistribution) :
    Run (List ℚ × IDistribution) := do
  let zi ← QVector.read z i
  let zt := 1 / zi
  let (p, d) ← pdfAt k s.2 zt
  let v ← QVector.write s.1 i (p * |zt * zt|)
  pure (v, d)

/-- `IDistribution::reciprocal`; `sgn` is the sign function of the utilities. -/
def reciprocal (k : Environment) (sgn : ℚ → Int) (c : Constants) (fuel : Nat)
    (d : IDistribution) : Run IDistribution := do
  if sgn d.m_lb ≠ sgn d.m_ub || d.m_lb = 0 || d.m_ub = 0 then do
    let (lb, ub) := reciprocalFallback sgn c d.m_lb d.m_ub
    let d ← defineBoundaries c fuel d lb ub
    let d ← generateEquallySpacedZ d
    pure (generatePDFGeneric d)
  else do
    let lb := 1 / d.m_ub
    let ub := 1 / d.m_lb
    let nSamples : Int := c.DistMultNSamples
    let dz := (ub - lb) / ((nSamples : ℚ) - 1)
    let z ← evenSamples nSamples lb dz ub
    let newPDF ← QVector.create nSamples 0
    let (newPDF, d) ← forLoop (reciprocalStep k z) 0 nSamples.toNat (newPDF, d)
    let d := { d with
      m_pdf := newPDF, m_z := z, m_ub := ub, m_lb := lb, m_dz := dz, m_nSamples := nSamples }
    normalise fuel d

end IDistribution

/-! ## The linear variant -/

/-- `LinearDistribution::sample`: `r` is the value drawn by `TRAND.randUni()` and `sqrt` the
square root of the mathematical library, over an ordered field `K` that holds the bounds. -/
def LinearDistribution.sample {K : Type} [Field K] (sqrt : K → K) (d : IDistribution)
    (r : K) : K :=
  if d.m_ascend then (d.m_lb : K) + sqrt r * ((d.m_ub : K) - (d.m_lb : K))
  else (d.m_ub : K) - sqrt (1 - r) * ((d.m_ub : K) - (d.m_lb : K))

/-- `LinearDistribution::LinearDistribution()`: the base constructor, then the class tag,
the resolution and the direction. -/
def LinearDistribution.new (c : Constants) : IDistribution :=
  let d := { IDistribution.new c with m_type := .LinearDistType }
  let d := IDistribution.defineResolution d ((d.m_ub - d.m_lb) / ((c.DistNSamples : ℚ) - 1))
  { d with m_ascend := true }

/-- `LinearDistribution::LinearDistribution(double lb, double ub)`. -/
def LinearDistribution.ofBounds (c : Constants) (fuel : Nat) (lb ub : ℚ) :
    Run IDistribution := do
  let d := { IDistribution.new c with m_type := .LinearDistType }
  let d ← IDistribution.defineBoundaries c fuel d lb ub
  let d := IDistribution.defineResolution d ((d.m_ub - d.m_lb) / ((c.DistNSamples : ℚ) - 1))
  pure { d with m_ascend := true }

/-- `LinearDistribution::LinearDistribution(QVector<double> parameters)`.  The operands of
`&&` are evaluated left to right, the right one only when the left one holds. -/
def LinearDistribution.ofParameters (c : Constants) (fuel : Nat) (parameters : List ℚ) :
    Run IDistribution := do
  let d := { IDistribution.new c with m_type := .LinearDistType }
  let (lb, ub, ascend) ←
    if parameters.length > 0 then do
      let lb ← QVector.read parameters 0
      let second ←
        if parameters.length > 1 then do
          let p1 ← QVector.read parameters 1
          pure (decide (p1 > lb))
        else pure false
      if second then do
        let ub ← QVector.read parameters 1
        let third ←
          if parameters.length < 3 then do
            let p2 ← QVector.read parameters 2
            pure (decide (p2 ≤ 0))
          else pure false
        pure (lb, ub, if third then false else true)
      else pure (lb, lb + c.DistMinInterval, true)
    else pure ((0 : ℚ), (1 : ℚ), true)
  IDistribution.defineBoundaries c fuel { d with m_ascend := ascend } lb ub

/-- `LinearDistribution::defineAscend`; the virtual `generatePDF` is the one of the class of
the object. -/
def LinearDistribution.defineAscend (d : IDistribution) (a : Bool) : Run IDistribution :=
  let oldDir := d.m_ascend
  let d := { d with m_ascend := a }
  if d.m_ascend ≠ oldDir && !d.m_pdf.isEmpty then IDistribution.generatePDF d else pure d

/-- `LinearDistribution::parameters`: `lowerBound()`, `upperBound()`, `(double)isAscend()`. -/
def LinearDistribution.parameters (d : IDistribution) : List ℚ :=
  [d.m_lb, d.m_ub, if d.m_ascend then 1 else 0]

/-! ## Binary64 arithmetic and 32-bit integers

`qreal` is `double` and `int` has 32 bits.  `generateEquallySpacedZ` converts a quotient of
two `double`s to `int` by truncation, so the number of grid points depends on the rounding
of that quotient.  This section repeats `defineResolution`, `generateEquallySpacedZ`,
`generateZ` and `zSamples` with every operation on `double`s rounded and the `int`
expressions wrapped. -/

namespace Binary64

/-- The power `2^k` for an integer exponent. -/
def pow2 (k : Int) : ℚ := if 0 ≤ k then (2 : ℚ) ^ k.toNat else 1 / (2 : ℚ) ^ (-k).toNat

/-- The number of binary digits of `n`, counted by halving `n` at most `fuel` times. -/
def bitLength : Nat → Nat → Nat
  | 0, _ => 0
  | fuel + 1, n => if n = 0 then 0 else bitLength fuel (n / 2) + 1

/-- The binary exponent of a positive number `a`, that is the `e` with
`2^e ≤ a < 2^(e+1)`: the difference of the digit counts of numerator and denominator, or
one less. -/
def exponent (a : ℚ) : Int :=
  let e : Int := (bitLength a.num.natAbs a.num.natAbs : Int) - (bitLength a.den a.den : Int)
  if a < pow2 e then e - 1 else e

/-- Rounding to the nearest integer, a tie going to the even one. -/
def roundHalfEven (m : ℚ) : Int :=
  if m - (⌊m⌋ : ℚ) < 1 / 2 then ⌊m⌋
  else if 1 / 2 < m - (⌊m⌋ : ℚ) then ⌊m⌋ + 1
  else if ⌊m⌋ % 2 = 0 then ⌊m⌋ else ⌊m⌋ + 1

/-- The binary64 number nearest to `x`: a significand of 53 bits, a tie going to the even
significand.  The range of the exponent is not modelled. -/
def round (x : ℚ) : ℚ :=
  if x = 0 then 0
  else
    (if x < 0 then -1 else 1) *
      ((roundHalfEven (|x| / pow2 (exponent |x| - 52)) : ℚ) * pow2 (exponent |x| - 52))

/-- The sum of two `double`s. -/
def add (a b : ℚ) : ℚ := round (a + b)

/-- The difference of two `double`s. -/
def sub (a b : ℚ) : ℚ := round (a - b)

/-- The quotient of two `double`s. -/
def div (a b : ℚ) : ℚ := round (a / b)

/-- The conversion `(int)x` to an `int` of 32 bits: truncation towards zero.  Beyond the
range of `int` the language leaves the result open; the value taken is the one that the
conversion instruction of x86-64 produces, the least `int`. -/
def toInt32 (x : ℚ) : Int :=
  if -2147483648 ≤ toInt x ∧ toInt x ≤ 2147483647 then toInt x else -2147483648

/-- The value of an `int` expression of mathematical value `n`: wrapped to 32 bits. -/
def wrap32 (n : Int) : Int := (n + 2147483648) % 4294967296 - 2147483648

/-- `IDistribution::defineResolution`, in binary64; `ceil` returns a whole `double`. -/
def defineResolution (d : IDistribution) (dz : ℚ) : IDistribution :=
  if dz > 0 then
    { d with m_dz := div (sub d.m_ub d.m_lb) (⌈div (sub d.m_ub d.m_lb) dz⌉ : ℚ) }
  else d

/-- `IDistribution::generateEquallySpacedZ`, in binary64 and with `int` of 32 bits. -/
def generateEquallySpacedZ (d : IDistribution) : Run IDistribution := do
  let n : Int := wrap32 (toInt32 (div (sub d.m_ub d.m_lb) d.m_dz) + 1)
  let z ← QVector.resize d.m_z n
  let (z, _) ← forLoop
    (fun i (s : List ℚ × ℚ) => do
      let z ← QVector.write s.1 i s.2
      pure (z, add s.2 d.m_dz))
    0 (z.length - 1) (z, d.m_lb)
  if z.length = 0 then throw .outOfRange
  let z ← QVector.write z (z.length - 1) d.m_ub
  pure { d with m_nSamples := n, m_z := z }

/-- `generateZ` (virtual), in binary64: both classes call `generateEquallySpacedZ`. -/
def generateZ (d : IDistribution) : Run IDistribution :=
  match d.m_type with
  | .GenericDistType => generateEquallySpacedZ d
  | .LinearDistType => generateEquallySpacedZ d

/-- `IDistribution::zSamples`, in binary64: the state after the call. -/
def zSamples (d : IDistribution) : Run IDistribution :=
  if d.m_z.isEmpty then generateZ d else pure d

end Binary64

open IDistribution

/-! ## Specification-level notions -/

/-- Trapezoidal integral of the table `pdf` over the first `k` intervals of the grid `z`. -/
def trapz (z pdf : List ℚ) : Nat → ℚ
  | 0 => 0
  | k + 1 => trapz z pdf k + (nth pdf k + nth pdf (k + 1)) / 2 * (nth z (k + 1) - nth z k)

/-- Trapezoidal integral of the table `pdf` over the whole grid `z`. -/
def integral (z pdf : List ℚ) : ℚ := trapz z pdf (z.length - 1)

/-- Tables of `d` divided by the raw integral over the first `n` grid points. -/
def scaledTables (d : IDistribution) (n : Nat) : IDistribution :=
  { d with
    m_pdf := d.m_pdf.map (· / trapz d.m_z d.m_pdf (n - 1))
    m_cdf := ((List.range n).map (trapz d.m_z d.m_pdf)).map (· / trapz d.m_z d.m_pdf (n - 1)) }

/-- State in which `calculateCDF` re-enters itself after a zero raw integral. -/
def uniformReset (d : IDistribution) (n : Nat) : IDistribution :=
  { d with
    m_pdf := List.replicate n (1 / (d.m_ub - d.m_lb))
    m_cdf := (List.range n).map (trapz d.m_z d.m_pdf) }

/-- A generic distribution on `[0, 1]` with a three-point grid and an all-zero density table. -/
def zeroTableState : IDistribution :=
  { m_type := .GenericDistType, m_dz := 1 / 2, m_lb := 0, m_ub := 1, m_z := [0, 1 / 2, 1],
    m_pdf := [0, 0, 0], m_cdf := [], m_nSamples := 3, m_ascend := true }

/-- The grid that `generateEquallySpacedZ` is meant to build: `n - 1` points spaced by `dz`
from `lb`, followed by `ub`. -/
def equallySpaced (lb dz ub : ℚ) (n : Nat) : List ℚ :=
  (List.range (n - 1)).map (fun (i : Nat) => lb + (i : ℚ) * dz) ++ [ub]

/-- The state of `defineBoundaries` when it reaches the final renormalisation. -/
def rescaled (c : Constants) (d : IDistribution) (lb ub : ℚ) : IDistribution :=
  { defineResolution { d with m_lb := (widened c lb ub).1, m_ub := (widened c lb ub).2 }
      (d.m_dz * (((widened c lb ub).2 - (widened c lb ub).1) / (d.m_ub - d.m_lb))) with
    m_z := d.m_z.map (fun zi => (widened c lb ub).1 +
      ((widened c lb ub).2 - (widened c lb ub).1) / (d.m_ub - d.m_lb) *
        (zi - (widened c lb ub).1)) }

/-- Well-formed states: `lowerBound < upperBound`; the grid is either not generated or holds
`m_nSamples ≥ 2` strictly increasing points; the PDF table is either not generated or aligned
with a generated grid. -/
def WellFormed (d : IDistribution) : Prop :=
  d.m_lb < d.m_ub ∧
  (d.m_z = [] ∨
    ((d.m_z.length : Int) = d.m_nSamples ∧ 2 ≤ d.m_z.length ∧ d.m_z.Sorted (· < ·))) ∧
  (d.m_pdf = [] ∨ (d.m_z ≠ [] ∧ d.m_pdf.length = d.m_z.length))

/-- The bounds that the specification prescribes after `defineBoundaries(lb, ub)`. -/
def BoundsAsSpecified (c : Constants) (lb ub : ℚ) (d : IDistribution) : Prop :=
  d.m_lb < d.m_ub ∧
  (lb < ub → d.m_lb = lb ∧ d.m_ub = ub) ∧
  (ub ≤ lb → lb = 0 → d.m_lb = 0 ∧ d.m_ub = c.DistMinInterval) ∧
  (ub ≤ lb → 0 < lb → d.m_lb = lb ∧ d.m_ub = lb * (1 + c.DistMinInterval)) ∧
  (ub ≤ lb → lb < 0 → d.m_lb = ub * (1 + c.DistMinInterval) ∧ d.m_ub = ub)

/-- A generic distribution on `[0, 1]` with the grid `0, 1/2, 1` and no density table. -/
def gridState : IDistribution :=
  { m_type := .GenericDistType, m_dz := 1 / 2, m_lb := 0, m_ub := 1, m_z := [0, 1 / 2, 1],
    m_pdf := [], m_cdf := [], m_nSamples := 3, m_ascend := true }

/-- The state that `calculateCDF` returns on tables aligned with `n` grid points. -/
def normalisedState (d : IDistribution) (n : Nat) : IDistribution :=
  if trapz d.m_z d.m_pdf (n - 1) = 0 then scaledTables (uniformReset d n) n
  else scaledTables d n

/-- Constants used to instantiate the theorems. -/
def sampleConstants : Constants :=
  { DistMinInterval := 1 / 1000, DistMinNSamples := 3, DistNSamples := 5,
    DistConvNSamples := 4, DistMultNSamples := 5, Lowest := -1000000, Highest := 1000000 }

/-- The grid after `negate`: reversed and negated. -/
def negatedGrid (z : List ℚ) : List ℚ :=
  (List.range z.length).map (fun i => -nth z (z.length - 1 - i))

/-- A table after `negate`: reversed. -/
def reversedTable (p : List ℚ) : List ℚ :=
  (List.range p.length).map (fun i => nth p (p.length - 1 - i))

/-- The state after `negate` on aligned tables. -/
def negated (d : IDistribution) : IDistribution :=
  { d with
    m_ub := -d.m_lb, m_lb := -d.m_ub, m_z := negatedGrid d.m_z,
    m_pdf := reversedTable d.m_pdf }

/-- A generic distribution on `[0, 1]` with the grid `0, 1/2, 1` and the uniform density. -/
def uniformState : IDistribution :=
  { m_type := .GenericDistType, m_dz := 1 / 2, m_lb := 0, m_ub := 1, m_z := [0, 1 / 2, 1],
    m_pdf := [1, 1, 1], m_cdf := [0, 1 / 2, 1], m_nSamples := 3, m_ascend := true }

/-- The state after the scaling part of `multiply(num)` on aligned tables. -/
def scaled (d : IDistribution) (num : ℚ) : IDistribution :=
  { d with m_ub := d.m_ub * num, m_lb := d.m_lb * num, m_z := d.m_z.map (· * num) }

/-- States on which the queries run: `lowerBound < upperBound`, and either nothing has been
generated yet (empty tables, sample count `0`, positive resolution) or the grid is populated
and aligned with the sample count, the PDF table being absent or aligned with the grid. -/
def Ready (d : IDistribution) : Prop :=
  d.m_lb < d.m_ub ∧
  ((d.m_z = [] ∧ d.m_pdf = [] ∧ d.m_nSamples = 0 ∧ 0 < d.m_dz) ∨
   ((d.m_z.length : Int) = d.m_nSamples ∧ 1 ≤ d.m_z.length ∧
     (d.m_pdf = [] ∨ d.m_pdf.length = d.m_z.length)))

/-- Grid and PDF table are populated and aligned with the sample count. -/
def Full (d : IDistribution) : Prop :=
  d.m_lb < d.m_ub ∧ (d.m_z.length : Int) = d.m_nSamples ∧ 1 ≤ d.m_z.length ∧
    d.m_pdf.length = d.m_z.length

/-- The second state has the class and the support of the first. -/
def SameSupport (d d' : IDistribution) : Prop :=
  d'.m_type = d.m_type ∧ d'.m_lb = d.m_lb ∧ d'.m_ub = d.m_ub

/-- The PDF table is absent or holds the uniform density at every grid point. -/
def UniformTable (d : IDistribution) : Prop :=
  d.m_pdf = [] ∨ d.m_pdf = List.replicate d.m_z.length (1 / (d.m_ub - d.m_lb))

/-- The resolution that `add(other)` chooses for the convolution:
`max(receiver range, other range) / DistConvNSamples`. -/
def convStep (c : Constants) (d other : IDistribution) : ℚ :=
  max (d.m_ub - d.m_lb) (other.m_ub - other.m_lb) / (c.DistConvNSamples : ℚ)

/-- The number of samples `floor(range / dz) + 1` taken over a range at spacing `dz`. -/
def sampleCount (range dz : ℚ) : Int := ⌊range / dz⌋ + 1

/-- The state of `add(other)` when it reaches the final renormalisation. -/
def convolved (d other : IDistribution) (table : List ℚ) (m : Nat) : IDistribution :=
  { d with
    m_pdf := table
    m_z := equallySpaced (d.m_lb + other.m_lb)
      ((d.m_ub + other.m_ub - (d.m_lb + other.m_lb)) / ((m : ℚ) - 1))
      (d.m_ub + other.m_ub) m
    m_ub := d.m_ub + other.m_ub
    m_lb := d.m_lb + other.m_lb
    m_dz := (d.m_ub + other.m_ub - (d.m_lb + other.m_lb)) / ((m : ℚ) - 1)
    m_nSamples := m }

/-- The convolution of two all-ones vectors of length `N + 1`: entry `k` is
`min(k, 2N - k) + 1`. -/
def tent (N k : Nat) : ℚ := if k ≤ N then (k : ℚ) + 1 else 2 * (N : ℚ) - (k : ℚ) + 1

/-- A generic distribution on `[0, 1]` in a ready state whose PDF table is absent or
uniform. -/
def UniformOnUnit (d : IDistribution) : Prop :=
  Ready d ∧ d.m_type = .GenericDistType ∧ UniformTable d ∧ d.m_lb = 0 ∧ d.m_ub = 1

/-- The receiver of `a.add(b)` for two uniform distributions on `[0, 1]` when it reaches
the final renormalisation. -/
def tentState (d : IDistribution) (N : Nat) : IDistribution :=
  { d with
    m_pdf := conv (List.replicate (N + 1) 1) (List.replicate (N + 1) 1)
    m_z := equallySpaced 0 (1 / (N : ℚ)) 2 (2 * N + 1)
    m_ub := 2
    m_lb := 0
    m_dz := 1 / (N : ℚ)
    m_nSamples := ((2 * N + 1 : Nat) : Int) }

/-! ## Further specification-level notions -/

/-- A generic distribution on `[0, 1]` with the two-point grid `0, 1` and the uniform
density. -/
def twoPointState : IDistribution :=
  { m_type := .GenericDistType, m_dz := 1, m_lb := 0, m_ub := 1, m_z := [0, 1],
    m_pdf := [1, 1], m_cdf := [0, 1], m_nSamples := 2, m_ascend := true }

/-- The three-valued sign of a number: `(0 < x) - (x < 0)`. -/
def signum (x : ℚ) : Int := (if 0 < x then 1 else 0) - (if x < 0 then 1 else 0)

/-- The uniform density over `[lb, ub]` tabulated on an equally spaced grid from `lb` to
`ub`, at the stored resolution. -/
def UniformOn (lb ub : ℚ) (d : IDistribution) : Prop :=
  d.m_lb = lb ∧ d.m_ub = ub ∧ ∃ n : Nat, 2 ≤ n ∧ d.m_nSamples = n ∧
    d.m_z = equallySpaced lb d.m_dz ub n ∧ d.m_pdf = List.replicate n (1 / (ub - lb))

/-- Everything but the grid, the PDF table and the sample count is the same in both states. -/
def SameButTables (d d' : IDistribution) : Prop :=
  d'.m_type = d.m_type ∧ d'.m_dz = d.m_dz ∧ d'.m_lb = d.m_lb ∧ d'.m_ub = d.m_ub ∧
    d'.m_cdf = d.m_cdf ∧ d'.m_ascend = d.m_ascend

/-- What the queries `pdf(z)` leave of a ready state `o`: a ready state `s` that is `o`
itself, or the state in which the accessor `o.zSamples()` leaves `o`, or the state in which
`o.zSamples()` followed by `o.pdf()` leaves it. -/
def Kept (o s : IDistribution) : Prop :=
  Ready o ∧ Ready s ∧
    (s = o ∨ zSamples o = .ok s ∨ ∃ g, zSamples o = .ok g ∧ pdf g = .ok s)

/-- Invariant of the quadrature loops of `multiply(other)` and `divide(other)`: the new table
keeps its length, and the two operands are as the queries `pdf(z)` leave them. -/
def QuadratureInv (d other : IDistribution) (n : Nat)
    (s : List ℚ × IDistribution × IDistribution) : Prop :=
  s.1.length = n ∧ Kept d s.2.1 ∧ Kept other s.2.2

/-- The least of the four corner products of the supports `[a, b]` and `[c, d]`. -/
def cornerMin (a b c d : ℚ) : ℚ := min (a * c) (min (a * d) (min (b * c) (b * d)))

/-- The greatest of the four corner products of the supports `[a, b]` and `[c, d]`. -/
def cornerMax (a b c d : ℚ) : ℚ := max (a * c) (max (a * d) (max (b * c) (b * d)))

/-- The receiver when `multiply(other)`, `divide(other)` or `reciprocal()` reaches the final
renormalisation: the new table on `n` evenly distributed points from `lo` to `hi`. -/
def regridded (d : IDistribution) (table : List ℚ) (lo hi : ℚ) (n : Nat) : IDistribution :=
  { d with
    m_pdf := table
    m_z := equallySpaced lo ((hi - lo) / ((n : ℚ) - 1)) hi n
    m_ub := hi
    m_lb := lo
    m_dz := (hi - lo) / ((n : ℚ) - 1)
    m_nSamples := n }

/-- The uniform density on `[0, 10]` over the grid `0, 5, 10`. -/
def tenState : IDistribution :=
  { m_type := .GenericDistType, m_dz := 5, m_lb := 0, m_ub := 10, m_z := [0, 5, 10],
    m_pdf := [1 / 10, 1 / 10, 1 / 10], m_cdf := [], m_nSamples := 3, m_ascend := true }

/-- The triangular density on `[lb, ub]`: `2*(x - lb)/(ub - lb)^2` when ascending,
`2*(ub - x)/(ub - lb)^2` when descending. -/
def triangularDensity (lb ub : ℚ) (ascend : Bool) (x : ℚ) : ℚ :=
  if ascend then 2 * (x - lb) / (ub - lb) ^ 2 else 2 * (ub - x) / (ub - lb) ^ 2

/-- A linear distribution, ascending on `[0, 1]`, with the unevenly spaced grid
`0, 1/4, 1` and no density table. -/
def linearState : IDistribution :=
  { m_type := .LinearDistType, m_dz := 1 / 4, m_lb := 0, m_ub := 1, m_z := [0, 1 / 4, 1],
    m_pdf := [], m_cdf := [], m_nSamples := 3, m_ascend := true }

/-- The cumulative distribution function of the triangular density on `[lb, ub]`:
`((x - lb)/(ub - lb))^2` when ascending, `1 - ((ub - x)/(ub - lb))^2` when descending. -/
def triangularCDF {K : Type} [Field K] (lb ub : K) (ascend : Bool) (x : K) : K :=
  if ascend then ((x - lb) / (ub - lb)) ^ 2 else 1 - ((ub - x) / (ub - lb)) ^ 2

/-- A generic distribution on which nothing has been generated yet: empty grid, PDF and CDF
tables, sample count `0` (as after construction, or after `defineBoundaries` on such a
state). -/
def Unpopulated (d : IDistribution) : Prop :=
  d.m_type = .GenericDistType ∧ d.m_z = [] ∧ d.m_pdf = [] ∧ d.m_cdf = [] ∧ d.m_nSamples = 0

/-- The resolution invariant: the resolution is positive and divides the range into a
positive whole number of intervals. -/
def Snapped (d : IDistribution) : Prop :=
  0 < d.m_dz ∧ ∃ m : Int, 1 ≤ m ∧ (d.m_ub - d.m_lb) / d.m_dz = (m : ℚ)

/-- The state of a freshly constructed distribution after `multiply(1/3)`. -/
def thirdState : IDistribution :=
  { new sampleConstants with m_ub := 1 * (1 / 3), m_lb := 0 * (1 / 3) }

/-- A linear distribution, ascending on `[0, 1]`, with the grid `0, 1/2, 1`, its triangular
density and the cumulative trapezoidal integral of that density. -/
def rampState : IDistribution :=
  { m_type := .LinearDistType, m_dz := 1 / 2, m_lb := 0, m_ub := 1, m_z := [0, 1 / 2, 1],
    m_pdf := [0, 1, 2], m_cdf := [0, 1 / 4, 1], m_nSamples := 3, m_ascend := true }

/-- The run `r` returns a value on which the test `p` succeeds. -/
def returnsWith {α : Type} (r : Run α) (p : α → Bool) : Bool :=
  match r with
  | .ok a => p a
  | .error _ => false

/-- The fault with which the run `r` stops, if it does. -/
def faultOf {α : Type} (r : Run α) : Option Fault :=
  match r with
  | .ok _ => none
  | .error e => some e

/-- The two states have the same data members. -/
def sameState (a b : IDistribution) : Bool :=
  decide (a.m_type = b.m_type ∧ a.m_dz = b.m_dz ∧ a.m_lb = b.m_lb ∧ a.m_ub = b.m_ub ∧
    a.m_z = b.m_z ∧ a.m_pdf = b.m_pdf ∧ a.m_cdf = b.m_cdf ∧ a.m_nSamples = b.m_nSamples ∧
    a.m_ascend = b.m_ascend)

/-! ## Basic facts about the primitives -/

@[simp] theorem bind_ok {α β : Type} (a : α) (f : α → Run β) :
    (Except.ok a >>= f) = f a := rfl

@[simp] theorem bind_error {α β : Type} (e : Fault) (f : α → Run β) :
    ((Except.error e : Run α) >>= f) = Except.error e := rfl

@[simp] theorem pure_eq_ok {α : Type} (a : α) : (pure a : Run α) = Except.ok a := rfl

theorem nth_of_lt {v : List ℚ} {i : Nat} (h : i < v.length) : nth v i = v[i] := by
  simp [nth, List.getElem?_eq_getElem h]

theorem nth_of_le {v : List ℚ} {i : Nat} (h : v.length ≤ i) : nth v i = 0 := by
  simp [nth, List.getElem?_eq_none h]

theorem read_ok {v : List ℚ} {i : Nat} (h : i < v.length) :
    QVector.read v i = .ok (nth v i) := by
  simp [QVector.read, nth, List.getElem?_eq_getElem h]

theorem write_ok {v : List ℚ} {i : Nat} (h : i < v.length) (x : ℚ) :
    QVector.write v i x = .ok (v.set i x) := by
  simp [QVector.write, h]

theorem nth_set (v : List ℚ) (i j : Nat) (x : ℚ) :
    nth (v.set i x) j = if i = j ∧ i < v.length then x else nth v j := by
  simp only [nth, List.getElem?_set]
  by_cases h : i = j
  · subst h
    by_cases h2 : i < v.length
    · simp [h2]
    · simp [h2, List.getElem?_eq_none (not_lt.mp h2)]
  · simp [h]

theorem nth_replicate (n i : Nat) (x : ℚ) :
    nth (List.replicate n x) i = if i < n then x else 0 := by
  by_cases h : i < n <;> simp [nth, List.getElem?_replicate, h]

theorem nth_map_range (n i : Nat) (f : Nat → ℚ) :
    nth ((List.range n).map f) i = if i < n then f i else 0 := by
  by_cases h : i < n
  · simp [nth, h, List.getElem?_range h]
  · simp [nth, h, List.getElem?_eq_none (show (List.range n).length ≤ i by simp; omega)]

theorem nth_map_div (v : List ℚ) (f : ℚ) (i : Nat) :
    nth (v.map (· / f)) i = nth v i / f := by
  by_cases h : i < v.length
  · simp [nth, h, List.getElem?_eq_getElem h]
  · simp [nth, h, List.getElem?_eq_none (not_lt.mp h)]

theorem ext_nth {v w : List ℚ} (hl : v.length = w.length)
    (h : ∀ i, i < v.length → nth v i = nth w i) : v = w := by
  apply List.ext_getElem hl
  intro i h1 h2
  have := h i h1
  rwa [nth_of_lt h1, nth_of_lt h2] at this

theorem forLoop_inv {σ : Type} (body : Nat → σ → Run σ) (Inv : Nat → σ → Prop) :
    ∀ (k i : Nat) (s : σ), Inv i s →
      (∀ j t, i ≤ j → j < i + k → Inv j t → ∃ t', body j t = .ok t' ∧ Inv (j + 1) t') →
      ∃ s', forLoop body i k s = .ok s' ∧ Inv (i + k) s' := by
  intro k
  induction k with
  | zero => intro i s h0 _; exact ⟨s, rfl, h0⟩
  | succ k ih =>
    intro i s h0 hstep
    obtain ⟨t, ht, hinv⟩ := hstep i s le_rfl (by omega) h0
    obtain ⟨s', hs', hinv'⟩ := ih (i + 1) t hinv
      (fun j u h1 h2 hu => hstep j u (by omega) (by omega) hu)
    refine ⟨s', ?_, ?_⟩
    · simp [forLoop, ht, hs']
    · have : i + (k + 1) = i + 1 + k := by omega
      rw [this]; exact hinv'

theorem of_returnsWith {α : Type} {r : Run α} {p : α → Bool} (h : returnsWith r p = true) :
    ∃ a, r = .ok a ∧ p a = true := by
  cases r with
  | error e => simp [returnsWith] at h
  | ok a => exact ⟨a, rfl, h⟩

theorem of_faultOf {α : Type} {r : Run α} {e : Fault} (h : faultOf r = some e) :
    r = .error e := by
  cases r with
  | error e' =>
    simp only [faultOf, Option.some.injEq] at h
    rw [h]
  | ok a => simp [faultOf] at h

/-! ## `calculateCDF` -/

/-- The integration loop computes the partial trapezoidal sums. -/
theorem cdfLoop_eq (z pdf : List ℚ) (n : Nat) (hn : 1 ≤ n) (hz : n ≤ z.length)
    (hp : n ≤ pdf.length) :
    forLoop (cdfStep z pdf) 0 (n - 1) (List.replicate n 0)
      = .ok ((List.range n).map (trapz z pdf)) := by
  obtain ⟨s, hs, hlen, hval⟩ := forLoop_inv (cdfStep z pdf)
    (fun j (cdf : List ℚ) => cdf.length = n ∧ ∀ t, t ≤ j → nth cdf t = trapz z pdf t)
    (n - 1) 0 (List.replicate n 0)
    ⟨by simp, by
      intro t ht
      have : t = 0 := by omega
      subst this
      simp [nth_replicate, trapz]⟩
    (by
      rintro j cdf - hj ⟨hlen, hval⟩
      refine ⟨cdf.set (j + 1) (trapz z pdf (j + 1)), ?_, by simpa using hlen, ?_⟩
      · have h1 : j < pdf.length := by omega
        have h2 : j + 1 < pdf.length := by omega
        have h3 : j < cdf.length := by omega
        have h4 : j + 1 < z.length := by omega
        have h5 : j < z.length := by omega
        have h6 : j + 1 < cdf.length := by omega
        simp [cdfStep, read_ok h1, read_ok h2, read_ok h3, read_ok h4, read_ok h5,
          write_ok h6, hval j le_rfl, trapz]
      · intro t ht
        rw [nth_set]
        by_cases h : j + 1 = t
        · subst h; simp; intro; omega
        · simp [h]; exact hval t (by omega))
  rw [hs]
  congr 1
  apply ext_nth (by simp [hlen])
  intro i hi
  rw [nth_map_range, if_pos (by omega)]
  exact hval i (by omega)

/-- The normalising loop divides both tables by the factor. -/
theorem normLoop_eq (f : ℚ) (pdf cdf : List ℚ) (h : pdf.length = cdf.length) :
    forLoop (normStep f) 0 cdf.length (pdf, cdf)
      = .ok (pdf.map (· / f), cdf.map (· / f)) := by
  obtain ⟨s, hs, hl1, hl2, hv⟩ := forLoop_inv (normStep f)
    (fun j (s : List ℚ × List ℚ) => s.1.length = pdf.length ∧ s.2.length = cdf.length ∧
      ∀ t, (nth s.1 t = if t < j then nth pdf t / f else nth pdf t) ∧
           (nth s.2 t = if t < j then nth cdf t / f else nth cdf t))
    cdf.length 0 (pdf, cdf) ⟨rfl, rfl, by simp⟩
    (by
      rintro j ⟨p, c⟩ - hj ⟨hl1, hl2, hv⟩
      simp only at hl1 hl2 hv
      refine ⟨(p.set j (nth pdf j / f), c.set j (nth cdf j / f)), ?_, by simpa using hl1,
        by simpa using hl2, ?_⟩
      · have h1 : j < p.length := by omega
        have h2 : j < c.length := by omega
        have e1 := (hv j).1
        have e2 := (hv j).2
        simp at e1 e2
        simp [normStep, read_ok h1, read_ok h2, write_ok h1, write_ok h2, e1, e2]
      · intro t
        simp only [nth_set]
        by_cases h : j = t
        · subst h
          simp; constructor <;> intro <;> omega
        · have := hv t
          by_cases h' : t < j
          · simp [h, h', this, show t < j + 1 by omega]
          · simp [h, h', this, show ¬ t < j + 1 by omega])
  rw [hs]
  congr 1
  have e1 : s.1 = pdf.map (· / f) := by
    apply ext_nth (by simp [hl1])
    intro i hi
    rw [(hv i).1, nth_map_div, if_pos (by omega)]
  have e2 : s.2 = cdf.map (· / f) := by
    apply ext_nth (by simp [hl2])
    intro i hi
    rw [(hv i).2, nth_map_div, if_pos (by omega)]
  rw [← e1, ← e2]

theorem last_map_range (n : Nat) (hn : 1 ≤ n) (f : Nat → ℚ) :
    QVector.last ((List.range n).map f) = .ok (f (n - 1)) := by
  have h : n - 1 < ((List.range n).map f).length := by simp; omega
  simp only [QVector.last]
  rw [if_neg (by simp; omega)]
  simp only [List.length_map, List.length_range] at h ⊢
  rw [read_ok (by simpa using h), nth_map_range, if_pos h]

theorem fill_eq (v : List ℚ) (x : ℚ) (n : Nat) :
    QVector.fill v x (n : Int) = List.replicate n x := by
  simp [QVector.fill]

theorem create_eq (x : ℚ) (n : Nat) :
    QVector.create (n : Int) x = .ok (List.replicate n x) := by
  simp [QVector.create]

/-- One activation of `calculateCDF` on aligned, non-empty tables whose raw integral is
non-zero: both tables are divided by the raw integral. -/
theorem calculateCDF_of_ne_zero (fuel : Nat) (d : IDistribution) (n : Nat) (hn : 1 ≤ n)
    (hN : d.m_nSamples = n) (hz : n ≤ d.m_z.length) (hp : d.m_pdf.length = n)
    (hF : trapz d.m_z d.m_pdf (n - 1) ≠ 0) :
    calculateCDF (fuel + 1) d = .ok (scaledTables d n) := by
  have hne : d.m_pdf.isEmpty = false := by
    cases hpd : d.m_pdf with
    | nil => rw [hpd] at hp; simp at hp; omega
    | cons a l => rfl
  have hcnt : ((n : Int) - 1).toNat = n - 1 := by omega
  unfold calculateCDF
  simp only [hne, hN, fill_eq, hcnt, Bool.false_eq_true, if_false, pure_eq_ok, bind_ok,
    cdfLoop_eq d.m_z d.m_pdf n hn hz (le_of_eq hp.symm), last_map_range n hn]
  by_cases h1 : trapz d.m_z d.m_pdf (n - 1) = 1
  · simp [h1, scaledTables, hN]
  · rw [if_neg h1, if_neg hF]
    have hl : d.m_pdf.length = ((List.range n).map (trapz d.m_z d.m_pdf)).length := by
      simp [hp]
    have := normLoop_eq (trapz d.m_z d.m_pdf (n - 1)) d.m_pdf _ hl
    simp only [this, bind_ok, scaledTables, hN]

/-- One activation of `calculateCDF` on aligned, non-empty tables whose raw integral is
zero: the density is reset to the uniform one and the routine is re-entered. -/
theorem calculateCDF_of_eq_zero (fuel : Nat) (d : IDistribution) (n : Nat) (hn : 1 ≤ n)
    (hN : d.m_nSamples = n) (hz : n ≤ d.m_z.length) (hp : d.m_pdf.length = n)
    (hF : trapz d.m_z d.m_pdf (n - 1) = 0) :
    calculateCDF (fuel + 1) d = calculateCDF fuel (uniformReset d n) := by
  have hne : d.m_pdf.isEmpty = false := by
    cases hpd : d.m_pdf with
    | nil => rw [hpd] at hp; simp at hp; omega
    | cons a l => rfl
  have hcnt : ((n : Int) - 1).toNat = n - 1 := by omega
  conv_lhs => unfold calculateCDF
  simp only [hne, hN, fill_eq, hcnt, Bool.false_eq_true, if_false, pure_eq_ok, bind_ok,
    cdfLoop_eq d.m_z d.m_pdf n hn hz (le_of_eq hp.symm), last_map_range n hn, hF, create_eq]
  simp [uniformReset, hN]

/-! ## Facts about the trapezoidal sums -/

theorem trapz_map_div (z pdf : List ℚ) (f : ℚ) (k : Nat) :
    trapz z (pdf.map (· / f)) k = trapz z pdf k / f := by
  induction k with
  | zero => simp [trapz]
  | succ k ih => simp only [trapz, ih, nth_map_div]; ring

theorem trapz_replicate (z : List ℚ) (n : Nat) (c : ℚ) (k : Nat) (hk : k < n) :
    trapz z (List.replicate n c) k = c * (nth z k - nth z 0) := by
  induction k with
  | zero => simp [trapz]
  | succ k ih =>
    simp only [trapz, ih (by omega), nth_replicate, if_pos hk, if_pos (show k < n by omega)]
    ring

theorem trapz_zero (z pdf : List ℚ) (h : ∀ i, nth pdf i = 0) (k : Nat) :
    trapz z pdf k = 0 := by
  induction k with
  | zero => rfl
  | succ k ih => simp [trapz, ih, h]

theorem nth_mem {v : List ℚ} {i : Nat} (h : i < v.length) : nth v i ∈ v := by
  rw [nth_of_lt h]; exact List.getElem_mem h

theorem nth_nonneg {v : List ℚ} (h : ∀ p ∈ v, 0 ≤ p) (i : Nat) : 0 ≤ nth v i := by
  by_cases hi : i < v.length
  · exact h _ (nth_mem hi)
  · rw [nth_of_le (not_lt.mp hi)]

theorem nth_lt_of_sorted {z : List ℚ} (h : z.Sorted (· < ·)) {i j : Nat} (hij : i < j)
    (hj : j < z.length) : nth z i < nth z j := by
  rw [nth_of_lt hj, nth_of_lt (lt_trans hij hj)]
  exact (List.pairwise_iff_getElem.mp h) i j (lt_trans hij hj) hj hij

theorem trapz_step_nonneg {z pdf : List ℚ} (hz : z.Sorted (· < ·)) (hp : ∀ p ∈ pdf, 0 ≤ p)
    (k : Nat) (hk : k + 1 < z.length) : trapz z pdf k ≤ trapz z pdf (k + 1) := by
  have h1 := nth_nonneg hp k
  have h2 := nth_nonneg hp (k + 1)
  have h3 := nth_lt_of_sorted hz (Nat.lt_succ_self k) hk
  have : 0 ≤ (nth pdf k + nth pdf (k + 1)) / 2 * (nth z (k + 1) - nth z k) :=
    mul_nonneg (by linarith) (by linarith)
  simp only [trapz]; linarith

theorem trapz_mono {z pdf : List ℚ} (hz : z.Sorted (· < ·)) (hp : ∀ p ∈ pdf, 0 ≤ p)
    {i j : Nat} (hij : i ≤ j) (hj : j < z.length) : trapz z pdf i ≤ trapz z pdf j := by
  induction j with
  | zero => have : i = 0 := by omega
            subst this; exact le_rfl
  | succ j ih =>
    rcases Nat.eq_or_lt_of_le hij with h | h
    · subst h; exact le_rfl
    · exact le_trans (ih (by omega) (by omega)) (trapz_step_nonneg hz hp j hj)

/-- The tables left by a normalising activation satisfy the distribution invariants. -/
theorem normalised_tables (z pdf : List ℚ) (n : Nat) (hn : 1 ≤ n) (hz : z.length = n)
    (hinc : z.Sorted (· < ·)) (hnn : ∀ p ∈ pdf, 0 ≤ p)
    (hF : trapz z pdf (n - 1) ≠ 0) :
    nth (((List.range n).map (trapz z pdf)).map (· / trapz z pdf (n - 1))) 0 = 0 ∧
    nth (((List.range n).map (trapz z pdf)).map (· / trapz z pdf (n - 1))) (n - 1) = 1 ∧
    (((List.range n).map (trapz z pdf)).map (· / trapz z pdf (n - 1))).Sorted (· ≤ ·) ∧
    integral z (pdf.map (· / trapz z pdf (n - 1))) = 1 := by
  have hpos : 0 < trapz z pdf (n - 1) :=
    lt_of_le_of_ne (by simpa [trapz] using trapz_mono hinc hnn (Nat.zero_le (n - 1)) (by omega))
      (Ne.symm hF)
  refine ⟨?_, ?_, ?_, ?_⟩
  · rw [nth_map_div, nth_map_range, if_pos (by omega)]; simp [trapz]
  · rw [nth_map_div, nth_map_range, if_pos (by omega)]; exact div_self hF
  · rw [List.Sorted, List.pairwise_iff_getElem]
    intro i j hi hj hij
    simp only [List.length_map, List.length_range] at hi hj
    simp only [List.getElem_map, List.getElem_range]
    exact div_le_div_of_nonneg_right (trapz_mono hinc hnn (le_of_lt hij) (by omega))
      (le_of_lt hpos)
  · rw [integral, trapz_map_div, hz]; exact div_self hF

/-- C1: on a state with `lowerBound < upperBound`, a strictly increasing grid of `n ≥ 2`
points, sample count `n` and a table of `n` non-negative densities, `calculateCDF` returns
within two activations (at most one recursive call); afterwards the CDF table has length `n`,
starts at `0`, ends at `1`, is non-decreasing, the trapezoidal integral of the PDF table over
the grid is `1`, and an all-zero input table has been replaced by a constant one. -/
theorem calculateCDF_normalises (d : IDistribution) (n : Nat)
    (hb : d.m_lb < d.m_ub) (hn : 2 ≤ n) (hz : d.m_z.length = n)
    (hinc : d.m_z.Sorted (· < ·)) (hN : d.m_nSamples = n) (hp : d.m_pdf.length = n)
    (hnn : ∀ p ∈ d.m_pdf, 0 ≤ p) :
    ∃ d', (∀ fuel, calculateCDF (fuel + 2) d = .ok d') ∧
      d'.m_z = d.m_z ∧ d'.m_pdf.length = n ∧
      d'.m_cdf.length = n ∧ nth d'.m_cdf 0 = 0 ∧ nth d'.m_cdf (n - 1) = 1 ∧
      d'.m_cdf.Sorted (· ≤ ·) ∧ integral d'.m_z d'.m_pdf = 1 ∧
      ((∀ p ∈ d.m_pdf, p = 0) → ∃ c, d'.m_pdf = List.replicate n c) := by
  by_cases hF : trapz d.m_z d.m_pdf (n - 1) = 0
  · -- zero raw integral: uniform reset, then one normalising activation
    have hu : 0 < 1 / (d.m_ub - d.m_lb) := by
      apply div_pos one_pos; linarith
    have hF2 : trapz d.m_z (List.replicate n (1 / (d.m_ub - d.m_lb))) (n - 1) ≠ 0 := by
      rw [trapz_replicate _ _ _ _ (by omega)]
      have := nth_lt_of_sorted hinc (show 0 < n - 1 by omega) (by omega)
      exact ne_of_gt (mul_pos hu (by linarith))
    have hnn2 : ∀ p ∈ List.replicate n (1 / (d.m_ub - d.m_lb)), 0 ≤ p := by
      intro p hp; rw [List.eq_of_mem_replicate hp]; exact le_of_lt hu
    obtain ⟨h1, h2, h3, h4⟩ := normalised_tables d.m_z _ n (by omega) hz hinc hnn2 hF2
    refine ⟨scaledTables (uniformReset d n) n, fun fuel => ?_, ?_⟩
    · rw [calculateCDF_of_eq_zero (fuel + 1) d n (by omega) hN (le_of_eq hz.symm) hp hF]
      exact calculateCDF_of_ne_zero fuel _ n (by omega) hN (le_of_eq hz.symm)
        (by simp [uniformReset]) hF2
    · refine ⟨rfl, by simp [scaledTables, uniformReset], by simp [scaledTables], h1, h2, h3, h4,
        fun _ => ?_⟩
      simp only [scaledTables, uniformReset, List.map_replicate]
      exact ⟨_, rfl⟩
  · obtain ⟨h1, h2, h3, h4⟩ := normalised_tables d.m_z d.m_pdf n (by omega) hz hinc hnn hF
    refine ⟨scaledTables d n, fun fuel => calculateCDF_of_ne_zero (fuel + 1) d n (by omega) hN
      (le_of_eq hz.symm) hp hF, rfl, by simp [scaledTables, hp], by simp [scaledTables],
      h1, h2, h3, h4, fun h0 => ?_⟩
    exfalso
    apply hF
    apply trapz_zero
    intro i
    by_cases hi : i < d.m_pdf.length
    · exact h0 _ (nth_mem hi)
    · exact nth_of_le (not_lt.mp hi)

/-- Witness for C1: the all-zero table on the grid `0, 1/2, 1`. -/
theorem calculateCDF_normalises_witness :
    ∃ d', (∀ fuel, calculateCDF (fuel + 2) zeroTableState = .ok d') ∧
      d'.m_z = zeroTableState.m_z ∧ d'.m_pdf.length = 3 ∧
      d'.m_cdf.length = 3 ∧ nth d'.m_cdf 0 = 0 ∧ nth d'.m_cdf (3 - 1) = 1 ∧
      d'.m_cdf.Sorted (· ≤ ·) ∧ integral d'.m_z d'.m_pdf = 1 ∧
      ((∀ p ∈ zeroTableState.m_pdf, p = 0) → ∃ c, d'.m_pdf = List.replicate 3 c) :=
  calculateCDF_normalises zeroTableState 3 (by norm_num [zeroTableState]) (by norm_num)
    (by simp [zeroTableState]) (by norm_num [zeroTableState]) (by simp [zeroTableState])
    (by simp [zeroTableState]) (by simp [zeroTableState])

/-! ## Grid generation and rescaling -/

theorem nth_map (v : List ℚ) (f : ℚ → ℚ) (i : Nat) (h : i < v.length) :
    nth (v.map f) i = f (nth v i) := by
  simp [nth, h, List.getElem?_eq_getElem h]

/-- A loop `for i < v.size(): v[i] = f(v[i])` maps `f` over the vector. -/
theorem mapLoop_eq (f : ℚ → ℚ) (v : List ℚ) :
    forLoop (fun i (z : List ℚ) => QVector.read z i >>= fun zi => QVector.write z i (f zi))
      0 v.length v = .ok (v.map f) := by
  obtain ⟨s, hs, hl, hv⟩ := forLoop_inv
    (fun i (z : List ℚ) => QVector.read z i >>= fun zi => QVector.write z i (f zi))
    (fun j (s : List ℚ) => s.length = v.length ∧
      ∀ t, nth s t = if t < j then f (nth v t) else nth v t)
    v.length 0 v ⟨rfl, by simp⟩
    (by
      rintro j s - hj ⟨hl, hv⟩
      have h1 : j < s.length := by omega
      refine ⟨s.set j (f (nth v j)), ?_, by simpa using hl, ?_⟩
      · have e := hv j
        simp at e
        simp [read_ok h1, write_ok h1, e]
      · intro t
        rw [nth_set]
        by_cases h : j = t
        · subst h; simp [h1]
        · by_cases h' : t < j
          · simp [h, hv t, h', show t < j + 1 by omega]
          · simp [h, hv t, h', show ¬ t < j + 1 by omega])
  rw [hs]
  congr 1
  apply ext_nth (by simp [hl])
  intro i hi
  rw [hv i, if_pos (by omega), nth_map _ _ _ (by omega)]

theorem nth_append_left (v w : List ℚ) (i : Nat) (h : i < v.length) :
    nth (v ++ w) i = nth v i := by
  simp [nth, List.getElem?_append_left h]

theorem nth_append_right (v w : List ℚ) (i : Nat) (h : v.length ≤ i) :
    nth (v ++ w) i = nth w (i - v.length) := by
  simp [nth, List.getElem?_append_right h]

theorem nth_equallySpaced (lb dz ub : ℚ) (n i : Nat) :
    nth (equallySpaced lb dz ub n) i =
      if i < n - 1 then lb + (i : ℚ) * dz else if i = n - 1 then ub else 0 := by
  unfold equallySpaced
  by_cases h : i < n - 1
  · rw [nth_append_left _ _ _ (by simpa using h), nth_map_range, if_pos h, if_pos h]
  · rw [nth_append_right _ _ _ (by simpa using h), if_neg h]
    simp only [List.length_map, List.length_range]
    by_cases h2 : i = n - 1
    · simp [h2, nth]
    · rw [if_neg h2]
      apply nth_of_le
      simp; omega

theorem length_equallySpaced (lb dz ub : ℚ) (n : Nat) (hn : 1 ≤ n) :
    (equallySpaced lb dz ub n).length = n := by
  simp [equallySpaced]; omega

/-- `generateEquallySpacedZ` overwrites the grid with `n = (int)((ub - lb)/dz) + 1` points. -/
theorem generateEquallySpacedZ_eq (d : IDistribution) (n : Nat) (hn : 1 ≤ n)
    (hcount : toInt ((d.m_ub - d.m_lb) / d.m_dz) + 1 = (n : Int)) :
    generateEquallySpacedZ d = .ok
      { d with m_nSamples := n, m_z := equallySpaced d.m_lb d.m_dz d.m_ub n } := by
  unfold generateEquallySpacedZ
  simp only [hcount]
  have hres : QVector.resize d.m_z (n : Int)
      = .ok (d.m_z.take n ++ List.replicate (n - d.m_z.length) 0) := by
    simp [QVector.resize]
  have hlen0 : (d.m_z.take n ++ List.replicate (n - d.m_z.length) 0).length = n := by
    simp; omega
  generalize d.m_z.take n ++ List.replicate (n - d.m_z.length) 0 = z0 at hres hlen0
  simp only [hres, bind_ok, hlen0]
  obtain ⟨s, hs, hl, hzz, hv⟩ := forLoop_inv
    (fun i (s : List ℚ × ℚ) => do
      let z ← QVector.write s.1 i s.2
      pure (z, s.2 + d.m_dz))
    (fun j (s : List ℚ × ℚ) => s.1.length = n ∧ s.2 = d.m_lb + (j : ℚ) * d.m_dz ∧
      ∀ t, t < j → nth s.1 t = d.m_lb + (t : ℚ) * d.m_dz)
    (n - 1) 0 (z0, d.m_lb) ⟨hlen0, by simp, by intro t ht; omega⟩
    (by
      rintro j ⟨z, zz⟩ - hj ⟨hl, hzz, hv⟩
      simp only at hl hzz hv
      have h1 : j < z.length := by omega
      refine ⟨(z.set j zz, zz + d.m_dz), ?_, by simpa using hl, ?_, ?_⟩
      · simp [write_ok h1]
      · simp only [hzz]; push_cast; ring
      · intro t ht
        simp only [nth_set]
        by_cases h : j = t
        · subst h; simp [h1, hzz]
        · simp [h]; exact hv t (by omega))
  simp only [hs, bind_ok]
  obtain ⟨z, zz⟩ := s
  simp only at hl hzz hv ⊢
  rw [if_neg (by omega)]
  simp only [hl, write_ok (show n - 1 < z.length by omega), bind_ok, pure_eq_ok]
  congr 2
  apply ext_nth (by simp [hl, length_equallySpaced _ _ _ _ hn])
  intro i hi
  simp only [List.length_set, hl] at hi
  rw [nth_set, nth_equallySpaced]
  by_cases h : i < n - 1
  · rw [if_neg (by omega), if_pos h]; exact hv i (by simpa using h)
  · rw [if_pos ⟨by omega, by omega⟩, if_neg h, if_pos (by omega)]

theorem isEmpty_eq_false_of_length {v : List ℚ} (h : 1 ≤ v.length) : v.isEmpty = false := by
  cases v with
  | nil => simp at h
  | cons a l => rfl

@[simp] theorem defineResolution_m_z (d : IDistribution) (x : ℚ) :
    (defineResolution d x).m_z = d.m_z := by
  unfold defineResolution; split <;> rfl

@[simp] theorem defineResolution_m_pdf (d : IDistribution) (x : ℚ) :
    (defineResolution d x).m_pdf = d.m_pdf := by
  unfold defineResolution; split <;> rfl

@[simp] theorem defineResolution_m_cdf (d : IDistribution) (x : ℚ) :
    (defineResolution d x).m_cdf = d.m_cdf := by
  unfold defineResolution; split <;> rfl

@[simp] theorem defineResolution_m_nSamples (d : IDistribution) (x : ℚ) :
    (defineResolution d x).m_nSamples = d.m_nSamples := by
  unfold defineResolution; split <;> rfl

@[simp] theorem defineResolution_m_lb (d : IDistribution) (x : ℚ) :
    (defineResolution d x).m_lb = d.m_lb := by
  unfold defineResolution; split <;> rfl

@[simp] theorem defineResolution_m_ub (d : IDistribution) (x : ℚ) :
    (defineResolution d x).m_ub = d.m_ub := by
  unfold defineResolution; split <;> rfl

@[simp] theorem defineResolution_m_type (d : IDistribution) (x : ℚ) :
    (defineResolution d x).m_type = d.m_type := by
  unfold defineResolution; split <;> rfl

@[simp] theorem defineResolution_m_ascend (d : IDistribution) (x : ℚ) :
    (defineResolution d x).m_ascend = d.m_ascend := by
  unfold defineResolution; split <;> rfl

/-- `defineBoundaries` on a state whose grid is empty or aligned with the sample count. -/
theorem defineBoundaries_eq (c : Constants) (fuel : Nat) (d : IDistribution) (lb ub : ℚ)
    (hz : d.m_z = [] ∨ (d.m_z.length : Int) = d.m_nSamples) :
    defineBoundaries c fuel d lb ub =
      if d.m_pdf.isEmpty then .ok (rescaled c d lb ub)
      else calculateCDF fuel (rescaled c d lb ub) := by
  unfold defineBoundaries rescaled
  generalize widened c lb ub = w
  obtain ⟨l, u⟩ := w
  simp only [defineResolution_m_z, defineResolution_m_pdf, defineResolution_m_nSamples,
    defineResolution_m_lb]
  by_cases he : d.m_z.isEmpty
  · have : d.m_z = [] := List.isEmpty_iff.mp he
    simp only [he, this, Bool.not_true, Bool.false_eq_true, if_false, pure_eq_ok, bind_ok,
      List.map_nil, normalise]
    by_cases hp : d.m_pdf.isEmpty <;> simp [hp]
  · have hlen : d.m_nSamples.toNat = d.m_z.length := by
      rcases hz with hz | hz
      · simp [hz] at he
      · omega
    simp only [he, hlen, Bool.not_false, if_true, normalise]
    rw [mapLoop_eq]
    simp only [bind_ok]
    by_cases hp : d.m_pdf.isEmpty <;> simp [hp]

/-- On aligned tables over a grid with distinct end points, `calculateCDF` returns within
two activations. -/
theorem calculateCDF_eq (fuel : Nat) (d : IDistribution) (n : Nat) (hn : 2 ≤ n)
    (hN : d.m_nSamples = n) (hz : n ≤ d.m_z.length) (hp : d.m_pdf.length = n)
    (hends : nth d.m_z 0 ≠ nth d.m_z (n - 1)) (hb : d.m_lb ≠ d.m_ub) :
    calculateCDF (fuel + 2) d = .ok (normalisedState d n) := by
  unfold normalisedState
  by_cases hF : trapz d.m_z d.m_pdf (n - 1) = 0
  · rw [if_pos hF, calculateCDF_of_eq_zero (fuel + 1) d n (by omega) hN hz hp hF]
    apply calculateCDF_of_ne_zero fuel (uniformReset d n) n (by omega) hN hz
      (List.length_replicate _ _)
    show trapz d.m_z (List.replicate n (1 / (d.m_ub - d.m_lb))) (n - 1) ≠ 0
    rw [trapz_replicate _ _ _ _ (by omega)]
    apply mul_ne_zero
    · exact one_div_ne_zero (sub_ne_zero.mpr (Ne.symm hb))
    · exact sub_ne_zero.mpr (Ne.symm hends)
  · rw [if_neg hF]
    exact calculateCDF_of_ne_zero (fuel + 1) d n (by omega) hN hz hp hF

theorem normalisedState_frame (d : IDistribution) (n : Nat) :
    (normalisedState d n).m_type = d.m_type ∧ (normalisedState d n).m_dz = d.m_dz ∧
    (normalisedState d n).m_lb = d.m_lb ∧ (normalisedState d n).m_ub = d.m_ub ∧
    (normalisedState d n).m_z = d.m_z ∧ (normalisedState d n).m_nSamples = d.m_nSamples ∧
    (normalisedState d n).m_ascend = d.m_ascend ∧ (normalisedState d n).m_cdf.length = n := by
  unfold normalisedState
  split <;> simp [scaledTables, uniformReset]

theorem normalisedState_pdf_length (d : IDistribution) (n : Nat) (hp : d.m_pdf.length = n) :
    (normalisedState d n).m_pdf.length = n := by
  unfold normalisedState
  split <;> simp [scaledTables, uniformReset, hp]

/-- When the raw integral is already `1`, `calculateCDF` leaves the density table as it is. -/
theorem normalisedState_of_integral_one (d : IDistribution) (n : Nat)
    (h : trapz d.m_z d.m_pdf (n - 1) = 1) :
    normalisedState d n = { d with m_cdf := (List.range n).map (trapz d.m_z d.m_pdf) } := by
  unfold normalisedState
  rw [if_neg (by rw [h]; exact one_ne_zero)]
  simp [scaledTables, h]

theorem sorted_map_affine {z : List ℚ} (hz : z.Sorted (· < ·)) (a r : ℚ) (hr : 0 < r) :
    (z.map (fun zi => a + r * (zi - a))).Sorted (· < ·) := by
  apply List.Pairwise.map _ _ hz
  intro x y hxy
  have := mul_lt_mul_of_pos_left hxy hr
  show a + r * (x - a) < a + r * (y - a)
  nlinarith

theorem widened_lt (c : Constants) (hc : 0 < c.DistMinInterval) (lb ub : ℚ) :
    (widened c lb ub).1 < (widened c lb ub).2 := by
  unfold widened
  split_ifs with h1 h2 h3
  · simpa [h2] using hc
  · show lb < lb * (1 + c.DistMinInterval)
    nlinarith
  · have hlb : lb < 0 := lt_of_le_of_ne (not_lt.mp h3) h2
    have hub : ub < 0 := lt_of_le_of_lt h1 hlb
    show ub * (1 + c.DistMinInterval) < ub
    nlinarith
  · exact not_le.mp h1

theorem widened_spec (c : Constants) (lb ub : ℚ) (d : IDistribution)
    (hc : 0 < c.DistMinInterval)
    (h1 : d.m_lb = (widened c lb ub).1) (h2 : d.m_ub = (widened c lb ub).2) :
    BoundsAsSpecified c lb ub d := by
  refine ⟨by rw [h1, h2]; exact widened_lt c hc lb ub, ?_, ?_, ?_, ?_⟩
  · intro h; rw [h1, h2]; simp [widened, not_le.mpr h]
  · intro h h0; subst h0; rw [h1, h2]; simp [widened, h]
  · intro h h0; rw [h1, h2]; simp [widened, h, ne_of_gt h0, h0]
  · intro h h0; rw [h1, h2]; simp [widened, h, ne_of_lt h0, not_lt.mpr (le_of_lt h0)]

theorem rescaled_bounds (c : Constants) (d : IDistribution) (lb ub : ℚ) :
    (rescaled c d lb ub).m_lb = (widened c lb ub).1 ∧
    (rescaled c d lb ub).m_ub = (widened c lb ub).2 := by
  simp [rescaled]

theorem bind_eq_ok {α β : Type} {x : Run α} {f : α → Run β} {b : β} :
    x >>= f = Except.ok b → ∃ a, x = Except.ok a ∧ f a = Except.ok b := by
  intro h
  cases x with
  | error e => simp at h
  | ok a => exact ⟨a, rfl, by simpa using h⟩

theorem generateZ_bounds {d d' : IDistribution} (h : generateZ d = .ok d') :
    d'.m_lb = d.m_lb ∧ d'.m_ub = d.m_ub ∧ d'.m_pdf = d.m_pdf := by
  have key : generateEquallySpacedZ d = .ok d' := by
    unfold generateZ at h
    split at h <;> exact h
  unfold generateEquallySpacedZ at key
  obtain ⟨z1, -, key⟩ := bind_eq_ok key
  obtain ⟨s, -, key⟩ := bind_eq_ok key
  obtain ⟨z2, zz⟩ := s
  simp only at key
  split at key
  · simp [throw, throwThe, MonadExceptOf.throw] at key
  · obtain ⟨_, -, key⟩ := bind_eq_ok key
    obtain ⟨z3, -, key⟩ := bind_eq_ok key
    simp only [pure_eq_ok, Except.ok.injEq] at key
    subst key
    exact ⟨rfl, rfl, rfl⟩

theorem ite_bind {α β : Type} (c : Prop) [Decidable c] (x y : Run α) (f : α → Run β) :
    (if c then x >>= f else y >>= f) = ((if c then x else y) >>= f) := by
  split <;> rfl

theorem generatePDF_bounds {d d' : IDistribution} (h : generatePDF d = .ok d') :
    d'.m_lb = d.m_lb ∧ d'.m_ub = d.m_ub := by
  unfold generatePDF at h
  split at h
  · simp only [pure_eq_ok, Except.ok.injEq] at h
    subst h
    exact ⟨rfl, rfl⟩
  · unfold generatePDFLinear at h
    simp only [ite_bind] at h
    obtain ⟨d1, h1, h⟩ := bind_eq_ok h
    obtain ⟨p0, -, h⟩ := bind_eq_ok h
    obtain ⟨p1, -, h⟩ := bind_eq_ok h
    simp only [pure_eq_ok, Except.ok.injEq] at h
    subst h
    simp only
    split at h1
    · obtain ⟨e1, e2, -⟩ := generateZ_bounds h1
      exact ⟨e1, e2⟩
    · simp only [pure_eq_ok, Except.ok.injEq] at h1
      subst h1
      exact ⟨rfl, rfl⟩

/-- Whenever `calculateCDF` returns, the bounds are those it was entered with. -/
theorem calculateCDF_bounds :
    ∀ (fuel : Nat) (d d' : IDistribution), calculateCDF fuel d = .ok d' →
      d'.m_lb = d.m_lb ∧ d'.m_ub = d.m_ub := by
  intro fuel
  induction fuel with
  | zero => intro d d' h; simp [calculateCDF] at h
  | succ fuel ih =>
    intro d d' h
    unfold calculateCDF at h
    simp only [ite_bind] at h
    obtain ⟨d1, h1, h⟩ := bind_eq_ok h
    have hb1 : d1.m_lb = d.m_lb ∧ d1.m_ub = d.m_ub := by
      split at h1
      · exact generatePDF_bounds h1
      · simp only [pure_eq_ok, Except.ok.injEq] at h1
        subst h1
        exact ⟨rfl, rfl⟩
    obtain ⟨cdf, -, h⟩ := bind_eq_ok h
    obtain ⟨factor, -, h⟩ := bind_eq_ok h
    split at h
    · simp only [pure_eq_ok, Except.ok.injEq] at h
      subst h
      exact hb1
    · split at h
      · obtain ⟨p, -, h⟩ := bind_eq_ok h
        obtain ⟨e1, e2⟩ := ih _ _ h
        exact ⟨e1.trans hb1.1, e2.trans hb1.2⟩
      · obtain ⟨s, -, h⟩ := bind_eq_ok h
        simp only [pure_eq_ok, Except.ok.injEq] at h
        subst h
        exact hb1

/-- Whenever `defineBoundaries` returns, the bounds are the widened pair. -/
theorem bounds_of_defineBoundaries_ok (c : Constants) (fuel : Nat) (d d' : IDistribution)
    (lb ub : ℚ) (h : defineBoundaries c fuel d lb ub = .ok d') :
    d'.m_lb = (widened c lb ub).1 ∧ d'.m_ub = (widened c lb ub).2 := by
  unfold defineBoundaries at h
  generalize widened c lb ub = w at h ⊢
  obtain ⟨l, u⟩ := w
  simp only [ite_bind, defineResolution_m_pdf, defineResolution_m_lb,
    defineResolution_m_ub, defineResolution_m_z, defineResolution_m_nSamples] at h
  obtain ⟨z, -, h⟩ := bind_eq_ok h
  split at h
  · unfold normalise at h
    split at h
    · simp only [pure_eq_ok, Except.ok.injEq] at h
      subst h
      exact ⟨rfl, rfl⟩
    · obtain ⟨e1, e2⟩ := calculateCDF_bounds _ _ _ h
      exact ⟨e1, e2⟩
  · simp only [pure_eq_ok, Except.ok.injEq] at h
    subst h
    exact ⟨rfl, rfl⟩

/-- C3: with `DistMinInterval > 0`, whenever `defineBoundaries(lb, ub)` returns, on any
state, it leaves `lowerBound < upperBound`: the bounds are `(lb, ub)` when `lb < ub`, and
otherwise `(0, DistMinInterval)` for `lb = 0`, `(lb, lb*(1+DistMinInterval))` for `lb > 0`,
`(ub*(1+DistMinInterval), ub)` for `lb < 0`; it returns on every well-formed state; and the
constructor `IDistribution(value)` returns with the bounds of
`defineBoundaries(value, value)`. -/
theorem defineBoundaries_bounds (c : Constants) (hc : 0 < c.DistMinInterval) (lb ub : ℚ) :
    (∀ (d : IDistribution) (fuel : Nat) (d' : IDistribution),
      defineBoundaries c fuel d lb ub = .ok d' → BoundsAsSpecified c lb ub d') ∧
    (∀ d : IDistribution, WellFormed d →
      ∃ d', ∀ fuel, defineBoundaries c (fuel + 2) d lb ub = .ok d') ∧
    (∀ value : ℚ, ∃ d', (∀ fuel, ofValue c fuel value = .ok d') ∧
      BoundsAsSpecified c value value d') := by
  refine ⟨fun d fuel d' h => ?_, ?_, ?_⟩
  · obtain ⟨e1, e2⟩ := bounds_of_defineBoundaries_ok c fuel d d' lb ub h
    exact widened_spec c lb ub d' hc e1 e2
  · rintro d ⟨hb, hz, hp⟩
    have hgrid : d.m_z = [] ∨ (d.m_z.length : Int) = d.m_nSamples := by
      rcases hz with h | h
      · exact Or.inl h
      · exact Or.inr h.1
    have hw := widened_lt c hc lb ub
    rcases hp with hp | ⟨hne, hp⟩
    · refine ⟨rescaled c d lb ub, fun fuel => ?_⟩
      rw [defineBoundaries_eq c _ d lb ub hgrid]; simp [hp]
    · rcases hz with h | ⟨hN, h2, hs⟩
      · exact absurd h hne
      · have hr : 0 < ((widened c lb ub).2 - (widened c lb ub).1) / (d.m_ub - d.m_lb) :=
          div_pos (by linarith) (by linarith)
        have hs' : (rescaled c d lb ub).m_z.Sorted (· < ·) := sorted_map_affine hs _ _ hr
        have hlen : (rescaled c d lb ub).m_z.length = d.m_z.length := by simp [rescaled]
        refine ⟨normalisedState (rescaled c d lb ub) d.m_z.length, fun fuel => ?_⟩
        rw [defineBoundaries_eq c _ d lb ub hgrid,
          if_neg (by simp [isEmpty_eq_false_of_length (show 1 ≤ d.m_pdf.length by omega)])]
        apply calculateCDF_eq fuel _ _ h2 (by simp [rescaled, hN]) (le_of_eq hlen.symm)
          (by simp [rescaled, hp])
        · exact ne_of_lt (nth_lt_of_sorted hs' (by omega) (by omega))
        · simp only [(rescaled_bounds c d lb ub).1, (rescaled_bounds c d lb ub).2]
          exact ne_of_lt hw
  · intro value
    refine ⟨rescaled c (new c) value value, fun fuel => ?_, ?_⟩
    · unfold ofValue
      rw [defineBoundaries_eq c _ _ value value (Or.inl rfl)]
      simp [new]
    · exact widened_spec c value value _ hc (rescaled_bounds c _ value value).1
        (rescaled_bounds c _ value value).2

theorem wellFormed_gridState : WellFormed gridState := by
  refine ⟨by norm_num [gridState], Or.inr ⟨by simp [gridState], by simp [gridState], ?_⟩,
    Or.inl rfl⟩
  norm_num [gridState]

/-- Witness for C3: `DistMinInterval = 1/1000` and the degenerate range `(2, 2)`; on the
three-point grid state the call returns with the bounds `(2, 2 * (1 + 1/1000))`. -/
theorem defineBoundaries_bounds_witness :
    0 < sampleConstants.DistMinInterval ∧ WellFormed gridState ∧
    ∃ d', (∀ fuel, defineBoundaries sampleConstants (fuel + 2) gridState 2 2 = .ok d') ∧
      BoundsAsSpecified sampleConstants 2 2 d' := by
  have h := defineBoundaries_bounds sampleConstants (by norm_num [sampleConstants]) 2 2
  obtain ⟨d', hd'⟩ := h.2.1 gridState wellFormed_gridState
  exact ⟨by norm_num [sampleConstants], wellFormed_gridState, d', hd',
    h.1 gridState 2 d' (hd' 0)⟩

/-- C4 (divergence): on the grid `0, 1/2, 1` over `[0, 1]`, `defineBoundaries(1, 3)` stores
the bounds `(1, 3)` but leaves the grid `-1, 0, 1`: the rescaling loop subtracts the new
lower bound instead of the old one, so the grid no longer starts at `lowerBound` nor ends
at `upperBound`, whereas the affine remap of the claim gives `1, 2, 3`. -/
theorem defineBoundaries_grid_offset :
    ∀ (c : Constants) (fuel : Nat), ∃ d', defineBoundaries c fuel gridState 1 3 = .ok d' ∧
      d'.m_lb = 1 ∧ d'.m_ub = 3 ∧ d'.m_z = [-1, 0, 1] ∧
      gridState.m_z.map (fun zi => 1 + (zi - gridState.m_lb) * (3 - 1) /
        (gridState.m_ub - gridState.m_lb)) = [1, 2, 3] := by
  intro c fuel
  refine ⟨rescaled c gridState 1 3, ?_, ?_, ?_, ?_, ?_⟩
  · rw [defineBoundaries_eq c fuel gridState 1 3 (Or.inr (by simp [gridState]))]
    simp [gridState]
  · norm_num [rescaled, widened]
  · norm_num [rescaled, widened]
  · norm_num [rescaled, widened, gridState]
  · norm_num [gridState]

theorem read_nil (i : Nat) : QVector.read [] i = .error .outOfRange := by
  simp [QVector.read]

theorem cdfStep_nil (pdf cdf : List ℚ) (i : Nat) :
    ∀ r, cdfStep [] pdf i cdf ≠ .ok r := by
  intro r h
  unfold cdfStep at h
  obtain ⟨a, -, h⟩ := bind_eq_ok h
  obtain ⟨b, -, h⟩ := bind_eq_ok h
  obtain ⟨c, -, h⟩ := bind_eq_ok h
  obtain ⟨e, he, h⟩ := bind_eq_ok h
  rw [read_nil] at he
  cases he

/-- With a density table but no grid, `calculateCDF` never returns: it reads the grid out
of range, or finds an empty CDF table, or re-enters itself for ever. -/
theorem calculateCDF_no_grid :
    ∀ (fuel : Nat) (d : IDistribution), d.m_z = [] → d.m_pdf ≠ [] →
      ∀ d', calculateCDF fuel d ≠ .ok d' := by
  intro fuel
  induction fuel with
  | zero => intro d _ _ d' h; simp [calculateCDF] at h
  | succ fuel ih =>
    intro d hz hp d' h
    have hne : d.m_pdf.isEmpty = false := by
      cases hpd : d.m_pdf with
      | nil => exact absurd hpd hp
      | cons a l => rfl
    unfold calculateCDF at h
    simp only [hne, Bool.false_eq_true, if_false, pure_eq_ok, bind_ok, hz] at h
    obtain ⟨cdf, hloop, h⟩ := bind_eq_ok h
    obtain ⟨factor, hlast, h⟩ := bind_eq_ok h
    cases hk : (d.m_nSamples - 1).toNat with
    | succ k =>
      rw [hk] at hloop
      simp only [forLoop] at hloop
      split at hloop
      · next s hs => exact cdfStep_nil _ _ _ _ hs
      · cases hloop
    | zero =>
      rw [hk] at hloop
      simp only [forLoop, Except.ok.injEq] at hloop
      subst hloop
      have hfac : factor = 0 := by
        unfold QVector.last at hlast
        split at hlast
        · cases hlast
        · unfold QVector.read at hlast
          split at hlast
          · next x hx =>
            simp only [Except.ok.injEq] at hlast
            subst hlast
            have := List.getElem?_mem hx
            simp only [QVector.fill] at this
            exact List.eq_of_mem_replicate this
          · cases hlast
      subst hfac
      rw [if_neg (by norm_num), if_pos rfl] at h
      obtain ⟨p, hcreate, h⟩ := bind_eq_ok h
      unfold QVector.create at hcreate
      split at hcreate
      · cases hcreate
      · next hnn =>
        simp only [Except.ok.injEq] at hcreate
        subst hcreate
        -- the CDF table is non-empty, so the sample count is exactly one
        have hlen : (QVector.fill d.m_cdf 0 d.m_nSamples).length ≠ 0 := by
          intro h0
          unfold QVector.last at hlast
          rw [if_pos h0] at hlast
          cases hlast
        have hN : d.m_nSamples.toNat ≠ 0 := by
          intro h0
          apply hlen
          simp [QVector.fill, hnn, h0]
        refine ih _ (by simp [hz]) ?_ d' h
        intro h0
        simp only at h0
        have := congrArg List.length h0
        simp at this
        omega

/-! ## `zSamples` after `defineBoundaries` and `defineResolution` -/

theorem toInt_intCast (k : Int) (hk : 0 ≤ k) : toInt (k : ℚ) = k := by
  unfold toInt
  rw [if_pos (by exact_mod_cast hk), Int.floor_intCast]

theorem one_le_ceil_div {r dz : ℚ} (hr : 0 < r) (hdz : 0 < dz) : 1 ≤ ⌈r / dz⌉ := by
  have : 0 < ⌈r / dz⌉ := Int.ceil_pos.mpr (div_pos hr hdz)
  omega

theorem nth_equallySpaced_exact (lb h ub : ℚ) (n : Nat) (hn : 1 ≤ n)
    (hub : ub = lb + ((n - 1 : Nat) : ℚ) * h) (i : Nat) (hi : i < n) :
    nth (equallySpaced lb h ub n) i = lb + (i : ℚ) * h := by
  rw [nth_equallySpaced]
  by_cases h1 : i < n - 1
  · rw [if_pos h1]
  · rw [if_neg h1, if_pos (by omega), hub]
    have : i = n - 1 := by omega
    rw [this]

theorem sorted_equallySpaced (lb h ub : ℚ) (n : Nat) (hn : 1 ≤ n) (hh : 0 < h)
    (hub : ub = lb + ((n - 1 : Nat) : ℚ) * h) :
    (equallySpaced lb h ub n).Sorted (· < ·) := by
  rw [List.Sorted, List.pairwise_iff_getElem]
  intro i j hi hj hij
  rw [length_equallySpaced _ _ _ _ hn] at hi hj
  have e1 := nth_equallySpaced_exact lb h ub n hn hub i hi
  have e2 := nth_equallySpaced_exact lb h ub n hn hub j hj
  rw [nth_of_lt (by rw [length_equallySpaced _ _ _ _ hn]; exact hi)] at e1
  rw [nth_of_lt (by rw [length_equallySpaced _ _ _ _ hn]; exact hj)] at e2
  rw [e1, e2]
  have : (i : ℚ) < (j : ℚ) := by exact_mod_cast hij
  nlinarith

/-- With exact quotients: the grid generated after `defineBoundaries(lb, ub)` and
`defineResolution(dz)` on a state without grid and density table has `ceil((ub-lb)/dz) + 1`
strictly increasing points from `lb` to `ub`, whose gaps all equal the stored resolution. -/
theorem zSamples_after_rescale (c : Constants) (fuel : Nat) (d : IDistribution)
    (lb ub dz : ℚ) (hlt : lb < ub) (hdz : 0 < dz) (hz : d.m_z = []) (hp : d.m_pdf = []) :
    ∃ d1 d3, defineBoundaries c fuel d lb ub = .ok d1 ∧
      zSamples (defineResolution d1 dz) = .ok d3 ∧
      (d3.m_z.length : Int) = ⌈(ub - lb) / dz⌉ + 1 ∧
      d3.m_nSamples = ⌈(ub - lb) / dz⌉ + 1 ∧
      d3.m_z.Sorted (· < ·) ∧
      nth d3.m_z 0 = lb ∧ nth d3.m_z (d3.m_z.length - 1) = ub ∧
      (∀ i, i + 1 < d3.m_z.length → nth d3.m_z (i + 1) - nth d3.m_z i = d3.m_dz) ∧
      d3.m_dz = (defineResolution d1 dz).m_dz ∧ d3.m_dz ≤ dz := by
  have hw : widened c lb ub = (lb, ub) := by simp [widened, not_le.mpr hlt]
  have hR : 0 < ub - lb := by linarith
  have hk : 1 ≤ ⌈(ub - lb) / dz⌉ := one_le_ceil_div hR hdz
  have hkq : (0 : ℚ) < (⌈(ub - lb) / dz⌉ : ℚ) := by exact_mod_cast (show 0 < ⌈(ub - lb) / dz⌉ by omega)
  set k := ⌈(ub - lb) / dz⌉ with hkdef
  set h := (ub - lb) / (k : ℚ) with hh
  have hhpos : 0 < h := div_pos hR hkq
  -- the state after the first two calls
  have e2lb : (defineResolution (rescaled c d lb ub) dz).m_lb = lb := by simp [rescaled, hw]
  have e2ub : (defineResolution (rescaled c d lb ub) dz).m_ub = ub := by simp [rescaled, hw]
  have e2dz : (defineResolution (rescaled c d lb ub) dz).m_dz = h := by
    unfold defineResolution
    rw [if_pos hdz]
    simp [rescaled, hw, hh, hkdef]
  have e2z : (defineResolution (rescaled c d lb ub) dz).m_z = [] := by simp [rescaled, hz]
  have hcount : toInt (((defineResolution (rescaled c d lb ub) dz).m_ub -
      (defineResolution (rescaled c d lb ub) dz).m_lb) /
        (defineResolution (rescaled c d lb ub) dz).m_dz) + 1 = ((k.toNat + 1 : Nat) : Int) := by
    rw [e2lb, e2ub, e2dz, hh]
    have : (ub - lb) / ((ub - lb) / (k : ℚ)) = (k : ℚ) := by
      field_simp
    rw [this, toInt_intCast k (by omega)]
    push_cast
    omega
  have hgen := generateEquallySpacedZ_eq (defineResolution (rescaled c d lb ub) dz)
    (k.toNat + 1) (by omega) hcount
  obtain ⟨d3, hd3, hz3, hn3, hdz3⟩ : ∃ d3,
      generateEquallySpacedZ (defineResolution (rescaled c d lb ub) dz) = .ok d3 ∧
      d3.m_z = equallySpaced lb h ub (k.toNat + 1) ∧
      d3.m_nSamples = ((k.toNat + 1 : Nat) : Int) ∧ d3.m_dz = h :=
    ⟨_, hgen, by simp only [e2lb, e2ub, e2dz], rfl, e2dz⟩
  have hub : ub = lb + ((k.toNat + 1 - 1 : Nat) : ℚ) * h := by
    have : ((k.toNat + 1 - 1 : Nat) : ℚ) = (k : ℚ) := by
      have h1 : k.toNat + 1 - 1 = k.toNat := by omega
      rw [h1]
      have h2 : ((k.toNat : Int) : ℚ) = (k : ℚ) := by rw [Int.toNat_of_nonneg (by omega)]
      exact_mod_cast h2
    rw [this, hh]; field_simp
  have hlen := length_equallySpaced lb h ub (k.toNat + 1) (by omega)
  refine ⟨rescaled c d lb ub, d3, ?_, ?_, ?_, ?_, ?_, ?_, ?_, ?_, ?_, ?_⟩
  · rw [defineBoundaries_eq c fuel d lb ub (Or.inl hz)]; simp [hp]
  · unfold zSamples generateZ
    rw [e2z]
    simp only [List.isEmpty_nil, if_true]
    split <;> exact hd3
  · rw [hz3, hlen]; push_cast; omega
  · rw [hn3]; push_cast; omega
  · rw [hz3]; exact sorted_equallySpaced lb h ub _ (by omega) hhpos hub
  · rw [hz3, nth_equallySpaced_exact lb h ub _ (by omega) hub 0 (by omega)]; simp
  · rw [hz3, hlen, nth_equallySpaced, if_neg (by omega), if_pos rfl]
  · intro i hi
    rw [hz3, hlen] at hi
    rw [hz3, nth_equallySpaced_exact lb h ub _ (by omega) hub (i + 1) hi,
      nth_equallySpaced_exact lb h ub _ (by omega) hub i (by omega), hdz3]
    push_cast; ring
  · rw [hdz3, e2dz]
  · rw [hdz3, hh, div_le_iff₀ hkq]
    have := Int.le_ceil ((ub - lb) / dz)
    rw [div_le_iff₀ hdz] at this
    linarith [mul_comm dz (k : ℚ)]

/-! ## `defineZ` -/

theorem mem_removeRepeated (l : List ℚ) (x : ℚ) : x ∈ removeRepeated l ↔ x ∈ l := by
  induction l using removeRepeated.induct with
  | case1 => simp [removeRepeated]
  | case2 a => simp [removeRepeated]
  | case3 a rest ih =>
    simp only [removeRepeated, if_true, ih, List.mem_cons]
    tauto
  | case4 a b rest hab ih =>
    simp only [removeRepeated, if_neg hab, List.mem_cons, ih]

theorem sorted_removeRepeated (l : List ℚ) (h : l.Sorted (· ≤ ·)) :
    (removeRepeated l).Sorted (· < ·) := by
  induction l using removeRepeated.induct with
  | case1 => simp [removeRepeated]
  | case2 a => simp [removeRepeated]
  | case3 a rest ih =>
    simp only [removeRepeated, if_true]
    exact ih (List.Sorted.of_cons h)
  | case4 a b rest hab ih =>
    simp only [removeRepeated, if_neg hab]
    have hs : (b :: rest).Sorted (· ≤ ·) := List.Sorted.of_cons h
    have hall : ∀ y ∈ b :: rest, a ≤ y := List.rel_of_sorted_cons h
    have hbmin : ∀ y ∈ b :: rest, b ≤ y := by
      intro y hy
      rcases List.mem_cons.mp hy with e | e
      · rw [e]
      · exact List.rel_of_sorted_cons hs y e
    have hab' : a < b := lt_of_le_of_ne (hall b (List.mem_cons_self _ _)) hab
    refine List.sorted_cons.mpr ⟨?_, ih hs⟩
    intro y hy
    rw [mem_removeRepeated] at hy
    exact lt_of_lt_of_le hab' (hbmin y hy)

/-- The grid that `defineZ` adopts is the ascending list of the distinct input values. -/
theorem removeRepeated_sort (z : List ℚ) :
    removeRepeated (z.insertionSort (· ≤ ·)) = z.toFinset.sort (· ≤ ·) := by
  have hs := sorted_removeRepeated _ (List.sorted_insertionSort (· ≤ ·) z)
  apply List.eq_of_perm_of_sorted (r := (· ≤ ·)) _ (hs.imp le_of_lt) (Finset.sort_sorted _ _)
  rw [List.perm_ext_iff_of_nodup hs.nodup (Finset.sort_nodup _ _)]
  intro x
  rw [mem_removeRepeated, Finset.mem_sort, List.mem_toFinset]
  exact (List.perm_insertionSort (· ≤ ·) z).mem_iff

theorem last_ok {v : List ℚ} (h : 1 ≤ v.length) : QVector.last v = .ok (nth v (v.length - 1)) := by
  unfold QVector.last
  rw [if_neg (by omega), read_ok (by omega)]

theorem nth_le_of_sorted {z : List ℚ} (h : z.Sorted (· < ·)) {i j : Nat} (hij : i ≤ j)
    (hj : j < z.length) : nth z i ≤ nth z j := by
  rcases Nat.eq_or_lt_of_le hij with e | e
  · rw [e]
  · exact le_of_lt (nth_lt_of_sorted h e hj)

theorem exists_nth_of_mem {v : List ℚ} {x : ℚ} (h : x ∈ v) : ∃ i, i < v.length ∧ nth v i = x := by
  obtain ⟨i, hi, e⟩ := List.getElem_of_mem h
  exact ⟨i, hi, by rw [nth_of_lt hi, e]⟩

/-- C5: for an input with at least two distinct values, `defineZ` returns; the grid is the
ascending sequence of the distinct input values (strictly increasing, no duplicates, same
value set), the bounds are the least and the greatest input value, the sample count is the
number of distinct values, and the PDF table is kept when its length equals that number and
emptied otherwise. -/
theorem defineZ_distinct_sorted (d : IDistribution) (z : List ℚ)
    (h2 : 2 ≤ z.toFinset.card) :
    ∃ d', (∀ c fuel, defineZ c fuel d z = .ok d') ∧
      d'.m_z = z.toFinset.sort (· ≤ ·) ∧
      d'.m_z.Sorted (· < ·) ∧ d'.m_z.Nodup ∧ (∀ x, x ∈ d'.m_z ↔ x ∈ z) ∧
      (d'.m_lb ∈ z ∧ ∀ x ∈ z, d'.m_lb ≤ x) ∧
      (d'.m_ub ∈ z ∧ ∀ x ∈ z, x ≤ d'.m_ub) ∧
      d'.m_nSamples = z.toFinset.card ∧
      (d'.m_pdf = [] ↔ d.m_pdf.length ≠ z.toFinset.card) ∧
      (d.m_pdf.length = z.toFinset.card → d'.m_pdf = d.m_pdf) := by
  have hg := removeRepeated_sort z
  have hlen : (removeRepeated (z.insertionSort (· ≤ ·))).length = z.toFinset.card := by
    rw [hg, Finset.length_sort]
  have hs := sorted_removeRepeated _ (List.sorted_insertionSort (· ≤ ·) z)
  have hmem : ∀ x, x ∈ removeRepeated (z.insertionSort (· ≤ ·)) ↔ x ∈ z := by
    intro x
    rw [mem_removeRepeated]
    exact (List.perm_insertionSort (· ≤ ·) z).mem_iff
  set g := removeRepeated (z.insertionSort (· ≤ ·)) with hgdef
  refine ⟨{ (if d.m_pdf.length ≠ g.length then { d with m_pdf := [] } else d) with
      m_z := g, m_lb := nth g 0, m_ub := nth g (g.length - 1), m_nSamples := g.length },
    ?_, hg, hs, hs.nodup, hmem, ⟨?_, ?_⟩, ⟨?_, ?_⟩, ?_, ?_, ?_⟩
  · intro c fuel
    unfold defineZ
    simp only [← hgdef]
    rw [if_pos (by omega)]
    simp only [QVector.first, read_ok (show 0 < g.length by omega),
      last_ok (show 1 ≤ g.length by omega), bind_ok, pure_eq_ok]
  · exact (hmem _).mp (nth_mem (by omega))
  · intro x hx
    obtain ⟨i, hi, e⟩ := exists_nth_of_mem ((hmem x).mpr hx)
    rw [← e]
    exact nth_le_of_sorted hs (Nat.zero_le i) hi
  · exact (hmem _).mp (nth_mem (by omega))
  · intro x hx
    obtain ⟨i, hi, e⟩ := exists_nth_of_mem ((hmem x).mpr hx)
    rw [← e]
    exact nth_le_of_sorted hs (by omega) (by omega)
  · simp [hlen]
  · rw [hlen]
    by_cases hp : d.m_pdf.length = z.toFinset.card
    · simp only [hp, ne_eq, not_true_eq_false, if_false, iff_false]
      intro h0
      rw [h0] at hp
      simp at hp
      omega
    · simp [hp]
  · intro hp
    rw [hlen]
    simp [hp]

/-- Witness for C5: the input `3, 1, 3, 2, 1`. -/
theorem defineZ_distinct_sorted_witness :
    2 ≤ ([3, 1, 3, 2, 1] : List ℚ).toFinset.card ∧
    ∃ d', (∀ c fuel, defineZ c fuel gridState [3, 1, 3, 2, 1] = .ok d') ∧
      d'.m_z = ([3, 1, 3, 2, 1] : List ℚ).toFinset.sort (· ≤ ·) ∧
      d'.m_z.Sorted (· < ·) ∧ d'.m_z.Nodup ∧
      (∀ x, x ∈ d'.m_z ↔ x ∈ ([3, 1, 3, 2, 1] : List ℚ)) ∧
      (d'.m_lb ∈ ([3, 1, 3, 2, 1] : List ℚ) ∧ ∀ x ∈ ([3, 1, 3, 2, 1] : List ℚ), d'.m_lb ≤ x) ∧
      (d'.m_ub ∈ ([3, 1, 3, 2, 1] : List ℚ) ∧ ∀ x ∈ ([3, 1, 3, 2, 1] : List ℚ), x ≤ d'.m_ub) ∧
      d'.m_nSamples = ([3, 1, 3, 2, 1] : List ℚ).toFinset.card ∧
      (d'.m_pdf = [] ↔ gridState.m_pdf.length ≠ ([3, 1, 3, 2, 1] : List ℚ).toFinset.card) ∧
      (gridState.m_pdf.length = ([3, 1, 3, 2, 1] : List ℚ).toFinset.card →
        d'.m_pdf = gridState.m_pdf) :=
  ⟨by decide, defineZ_distinct_sorted gridState [3, 1, 3, 2, 1] (by decide)⟩

/-- A loop `for i < n: v[i] = f(src[idx i])` tabulates the values. -/
theorem tabulateLoop_eq (src : List ℚ) (idx : Nat → Nat) (f : ℚ → ℚ) (n : Nat)
    (v0 : List ℚ) (hv0 : v0.length = n) (hidx : ∀ i, i < n → idx i < src.length) :
    forLoop (fun i (v : List ℚ) => QVector.read src (idx i) >>= fun x =>
        QVector.write v i (f x)) 0 n v0
      = .ok ((List.range n).map (fun i => f (nth src (idx i)))) := by
  obtain ⟨s, hs, hl, hv⟩ := forLoop_inv
    (fun i (v : List ℚ) => QVector.read src (idx i) >>= fun x => QVector.write v i (f x))
    (fun j (s : List ℚ) => s.length = n ∧ ∀ t, t < j → nth s t = f (nth src (idx t)))
    n 0 v0 ⟨hv0, by intro t ht; omega⟩
    (by
      rintro j s - hj ⟨hl, hv⟩
      have h1 : j < s.length := by omega
      refine ⟨s.set j (f (nth src (idx j))), ?_, by simpa using hl, ?_⟩
      · simp [read_ok (hidx j (by omega)), write_ok h1]
      · intro t ht
        rw [nth_set]
        by_cases h : j = t
        · subst h; simp [h1]
        · simp [h]; exact hv t (by omega))
  rw [hs]
  congr 1
  apply ext_nth (by simp [hl])
  intro i hi
  rw [nth_map_range, if_pos (by omega)]
  exact hv i (by omega)

theorem trapz_eq_sum (z p : List ℚ) (k : Nat) :
    trapz z p k =
      ∑ i in Finset.range k, (nth p i + nth p (i + 1)) / 2 * (nth z (i + 1) - nth z i) := by
  induction k with
  | zero => simp [trapz]
  | succ k ih => rw [Finset.sum_range_succ, ← ih, trapz]

theorem nth_negatedGrid (z : List ℚ) (i : Nat) (h : i < z.length) :
    nth (negatedGrid z) i = -nth z (z.length - 1 - i) := by
  rw [negatedGrid, nth_map_range, if_pos h]

theorem nth_reversedTable (p : List ℚ) (i : Nat) (h : i < p.length) :
    nth (reversedTable p) i = nth p (p.length - 1 - i) := by
  rw [reversedTable, nth_map_range, if_pos h]

/-- Reversing the table and reflecting the grid leaves the trapezoidal integral unchanged. -/
theorem trapz_negate (z p : List ℚ) (n : Nat) (hz : z.length = n) (hp : p.length = n) :
    trapz (negatedGrid z) (reversedTable p) (n - 1) = trapz z p (n - 1) := by
  rw [trapz_eq_sum, trapz_eq_sum, ← Finset.sum_range_reflect]
  apply Finset.sum_congr rfl
  intro i hi
  rw [Finset.mem_range] at hi
  rw [nth_negatedGrid z _ (by omega), nth_negatedGrid z _ (by omega),
    nth_reversedTable p _ (by omega), nth_reversedTable p _ (by omega), hz, hp]
  have e1 : n - 1 - (n - 1 - 1 - i) = i + 1 := by omega
  have e2 : n - 1 - (n - 1 - 1 - i + 1) = i := by omega
  rw [e1, e2]; ring

theorem negatedGrid_negatedGrid (z : List ℚ) : negatedGrid (negatedGrid z) = z := by
  apply ext_nth (by simp [negatedGrid])
  intro i hi
  have hi' : i < z.length := by simpa [negatedGrid] using hi
  have hl : (negatedGrid z).length = z.length := by simp [negatedGrid]
  rw [nth_negatedGrid _ _ (by rw [hl]; exact hi'), hl, nth_negatedGrid _ _ (by omega), neg_neg]
  congr 1; omega

theorem reversedTable_reversedTable (p : List ℚ) : reversedTable (reversedTable p) = p := by
  apply ext_nth (by simp [reversedTable])
  intro i hi
  have hi' : i < p.length := by simpa [reversedTable] using hi
  have hl : (reversedTable p).length = p.length := by simp [reversedTable]
  rw [nth_reversedTable _ _ (by rw [hl]; exact hi'), hl, nth_reversedTable _ _ (by omega)]
  congr 1; omega

/-- One activation of `calculateCDF` on aligned tables whose raw integral is `1`: only the
CDF table is written. -/
theorem calculateCDF_of_integral_one (fuel : Nat) (d : IDistribution) (n : Nat) (hn : 1 ≤ n)
    (hN : d.m_nSamples = n) (hz : n ≤ d.m_z.length) (hp : d.m_pdf.length = n)
    (hF : trapz d.m_z d.m_pdf (n - 1) = 1) :
    calculateCDF (fuel + 1) d =
      .ok { d with m_cdf := (List.range n).map (trapz d.m_z d.m_pdf) } := by
  rw [calculateCDF_of_ne_zero fuel d n hn hN hz hp (by rw [hF]; exact one_ne_zero)]
  simp [scaledTables, hF]

/-- `negate` on aligned, populated tables is one `calculateCDF` on the reflected tables. -/
theorem negate_eq (fuel : Nat) (d : IDistribution) (n : Nat) (hn : 1 ≤ n)
    (hN : d.m_nSamples = n) (hz : d.m_z.length = n) (hp : d.m_pdf.length = n) :
    negate fuel d = calculateCDF fuel (negated d) := by
  unfold negate
  have he : d.m_z.isEmpty = false := isEmpty_eq_false_of_length (by omega)
  have hpe : d.m_pdf.isEmpty = false := isEmpty_eq_false_of_length (by omega)
  have hcnt : d.m_nSamples.toNat = n := by omega
  have h1 := tabulateLoop_eq d.m_z (fun i => n - 1 - i) (fun x => -x) n (List.replicate n 0)
    (by simp) (by intro i hi; show n - 1 - i < d.m_z.length; omega)
  have h2 := tabulateLoop_eq d.m_pdf (fun i => n - 1 - i) (fun x => x) n (List.replicate n 0)
    (by simp) (by intro i hi; show n - 1 - i < d.m_pdf.length; omega)
  beta_reduce at h1 h2
  simp only [he, hpe, hN, Int.toNat_ofNat, create_eq, Bool.false_eq_true, if_false, bind_ok,
    h1, h2]
  simp only [negated, negatedGrid, reversedTable, hz, hp, hN]

/-- C8: on a state with a populated grid, an aligned PDF table and trapezoidal integral `1`,
`negate` returns with bounds `(-ub, -lb)`, grid `z'[i] = -z[n-1-i]` and PDF
`pdf'[i] = pdf[n-1-i]`; a second `negate` returns the original bounds, grid and PDF table. -/
theorem negate_involution (d : IDistribution) (n : Nat)
    (hN : d.m_nSamples = n) (hz : d.m_z.length = n) (hp : d.m_pdf.length = n)
    (hint : integral d.m_z d.m_pdf = 1) :
    ∃ d1 d2, (∀ fuel, negate (fuel + 1) d = .ok d1) ∧ (∀ fuel, negate (fuel + 1) d1 = .ok d2) ∧
      d1.m_lb = -d.m_ub ∧ d1.m_ub = -d.m_lb ∧
      d1.m_z.length = n ∧ d1.m_pdf.length = n ∧
      (∀ i, i < n → nth d1.m_z i = -nth d.m_z (n - 1 - i)) ∧
      (∀ i, i < n → nth d1.m_pdf i = nth d.m_pdf (n - 1 - i)) ∧
      d2.m_lb = d.m_lb ∧ d2.m_ub = d.m_ub ∧ d2.m_z = d.m_z ∧ d2.m_pdf = d.m_pdf := by
  have hn : 1 ≤ n := by
    by_contra h
    have : n = 0 := by omega
    rw [integral, hz, this] at hint
    simp [trapz] at hint
  rw [integral, hz] at hint
  have hF1 : trapz (negated d).m_z (negated d).m_pdf (n - 1) = 1 := by
    show trapz (negatedGrid d.m_z) (reversedTable d.m_pdf) (n - 1) = 1
    rw [trapz_negate _ _ n hz hp, hint]
  have hz1 : (negated d).m_z.length = n := by simp [negated, negatedGrid, hz]
  have hp1 : (negated d).m_pdf.length = n := by simp [negated, reversedTable, hp]
  set d1 : IDistribution :=
    { negated d with m_cdf := (List.range n).map (trapz (negated d).m_z (negated d).m_pdf) }
    with hd1
  have hz2 : d1.m_z.length = n := hz1
  have hp2 : d1.m_pdf.length = n := hp1
  have hF2 : trapz (negated d1).m_z (negated d1).m_pdf (n - 1) = 1 := by
    show trapz (negatedGrid d1.m_z) (reversedTable d1.m_pdf) (n - 1) = 1
    rw [trapz_negate _ _ n hz2 hp2]; exact hF1
  refine ⟨d1, { negated d1 with
      m_cdf := (List.range n).map (trapz (negated d1).m_z (negated d1).m_pdf) },
    fun fuel => ?_, fun fuel => ?_, rfl, rfl, hz1, hp1, ?_, ?_, ?_, ?_, ?_, ?_⟩
  · rw [negate_eq _ d n hn hN hz hp]
    exact calculateCDF_of_integral_one fuel (negated d) n hn hN (le_of_eq hz1.symm) hp1 hF1
  · rw [negate_eq _ d1 n hn hN hz2 hp2]
    exact calculateCDF_of_integral_one fuel (negated d1) n hn hN
      (by simp [d1, negated, negatedGrid, hz]) (by simp [d1, negated, reversedTable, hp]) hF2
  · intro i hi
    show nth (negatedGrid d.m_z) i = _
    rw [nth_negatedGrid _ _ (by omega), hz]
  · intro i hi
    show nth (reversedTable d.m_pdf) i = _
    rw [nth_reversedTable _ _ (by omega), hp]
  · show - - d.m_lb = d.m_lb
    exact neg_neg _
  · show - - d.m_ub = d.m_ub
    exact neg_neg _
  · show negatedGrid (negatedGrid d.m_z) = d.m_z
    exact negatedGrid_negatedGrid _
  · show reversedTable (reversedTable d.m_pdf) = d.m_pdf
    exact reversedTable_reversedTable _

theorem integral_uniformState : integral uniformState.m_z uniformState.m_pdf = 1 := by
  norm_num [integral, trapz, nth, uniformState]

/-- Witness for C8: the uniform density on the grid `0, 1/2, 1`. -/
theorem negate_involution_witness :
    ∃ d1 d2, (∀ fuel, negate (fuel + 1) uniformState = .ok d1) ∧
      (∀ fuel, negate (fuel + 1) d1 = .ok d2) ∧
      d1.m_lb = -uniformState.m_ub ∧ d1.m_ub = -uniformState.m_lb ∧
      d1.m_z.length = 3 ∧ d1.m_pdf.length = 3 ∧
      (∀ i, i < 3 → nth d1.m_z i = -nth uniformState.m_z (3 - 1 - i)) ∧
      (∀ i, i < 3 → nth d1.m_pdf i = nth uniformState.m_pdf (3 - 1 - i)) ∧
      d2.m_lb = uniformState.m_lb ∧ d2.m_ub = uniformState.m_ub ∧
      d2.m_z = uniformState.m_z ∧ d2.m_pdf = uniformState.m_pdf :=
  negate_involution uniformState 3 rfl rfl rfl integral_uniformState

/-! ## Scalar shift and scaling -/

theorem trapz_map_add (z p : List ℚ) (c : ℚ) (k : Nat) (hk : k < z.length) :
    trapz (z.map (· + c)) p k = trapz z p k := by
  induction k with
  | zero => simp [trapz]
  | succ k ih =>
    simp only [trapz, ih (by omega), nth_map z (· + c) k (by omega),
      nth_map z (· + c) (k + 1) hk]
    ring

theorem trapz_map_mul (z p : List ℚ) (c : ℚ) (k : Nat) (hk : k < z.length) :
    trapz (z.map (· * c)) p k = c * trapz z p k := by
  induction k with
  | zero => simp [trapz]
  | succ k ih =>
    simp only [trapz, ih (by omega), nth_map z (· * c) k (by omega),
      nth_map z (· * c) (k + 1) hk]
    ring

/-- `add(num)` on aligned, populated tables is one `calculateCDF` on the shifted grid. -/
theorem add_eq (fuel : Nat) (d : IDistribution) (num : ℚ) (n : Nat) (hn : 1 ≤ n)
    (hN : d.m_nSamples = n) (hz : d.m_z.length = n) (hp : d.m_pdf.length = n) :
    add fuel d num = calculateCDF fuel
      { d with m_ub := d.m_ub + num, m_lb := d.m_lb + num, m_z := d.m_z.map (· + num) } := by
  unfold add
  have he : d.m_z.isEmpty = false := isEmpty_eq_false_of_length (by omega)
  have hpe : d.m_pdf.isEmpty = false := isEmpty_eq_false_of_length (by omega)
  have h1 := mapLoop_eq (· + num) d.m_z
  simp only [he, hpe, hN, Int.toNat_ofNat, Bool.false_eq_true, if_false, Bool.not_false,
    if_true]
  rw [← hz, h1]
  simp only [bind_ok]

/-- C9: on a state with a populated grid, an aligned PDF table and trapezoidal integral `1`,
`add(c)` shifts both bounds and every grid sample by `c` and leaves the PDF table
unchanged; `subtract(c)` afterwards restores the bounds, the grid and the PDF table; and
`subtract(c)` is `add(-c)`. -/
theorem add_subtract_roundtrip (d : IDistribution) (n : Nat) (k : ℚ)
    (hN : d.m_nSamples = n) (hz : d.m_z.length = n) (hp : d.m_pdf.length = n)
    (hint : integral d.m_z d.m_pdf = 1) :
    ∃ d1 d2, (∀ fuel, add (fuel + 1) d k = .ok d1) ∧
      (∀ fuel, subtract (fuel + 1) d1 k = .ok d2) ∧
      d1.m_lb = d.m_lb + k ∧ d1.m_ub = d.m_ub + k ∧
      d1.m_z = d.m_z.map (· + k) ∧ d1.m_pdf = d.m_pdf ∧
      d2.m_lb = d.m_lb ∧ d2.m_ub = d.m_ub ∧ d2.m_z = d.m_z ∧ d2.m_pdf = d.m_pdf ∧
      (∀ fuel e x, subtract fuel e x = add fuel e (-x)) := by
  have hn : 2 ≤ n := by
    by_contra h
    have h01 : n = 0 ∨ n = 1 := by omega
    rw [integral, hz] at hint
    rcases h01 with h0 | h0 <;> simp [h0, trapz] at hint
  rw [integral, hz] at hint
  set s1 : IDistribution :=
    { d with m_ub := d.m_ub + k, m_lb := d.m_lb + k, m_z := d.m_z.map (· + k) } with hs1
  have hF1 : trapz s1.m_z s1.m_pdf (n - 1) = 1 := by
    show trapz (d.m_z.map (· + k)) d.m_pdf (n - 1) = 1
    rw [trapz_map_add _ _ _ _ (by omega)]; exact hint
  set d1 : IDistribution := { s1 with m_cdf := (List.range n).map (trapz s1.m_z s1.m_pdf) }
    with hd1
  set s2 : IDistribution :=
    { d1 with m_ub := d1.m_ub + -k, m_lb := d1.m_lb + -k, m_z := d1.m_z.map (· + -k) }
    with hs2
  have hz2 : s2.m_z = d.m_z := by
    show (d.m_z.map (· + k)).map (· + -k) = d.m_z
    rw [List.map_map]
    conv_rhs => rw [← List.map_id d.m_z]
    apply List.map_congr_left
    intro a _
    simp
  have hF2 : trapz s2.m_z s2.m_pdf (n - 1) = 1 := by
    rw [hz2]; exact hint
  refine ⟨d1, { s2 with m_cdf := (List.range n).map (trapz s2.m_z s2.m_pdf) },
    fun fuel => ?_, fun fuel => ?_, rfl, rfl, rfl, rfl, ?_, ?_, hz2, rfl, fun _ _ _ => rfl⟩
  · rw [add_eq _ d k n (by omega) hN hz hp]
    exact calculateCDF_of_integral_one fuel s1 n (by omega) hN (by simp [s1, hz]) hp hF1
  · unfold subtract
    rw [add_eq _ d1 (-k) n (by omega) hN (by simp [d1, s1, hz]) hp]
    exact calculateCDF_of_integral_one fuel s2 n (by omega) hN (by rw [hz2, hz]) hp hF2
  · show d.m_lb + k + -k = d.m_lb
    ring
  · show d.m_ub + k + -k = d.m_ub
    ring

/-- Witness for C9: the uniform density on the grid `0, 1/2, 1`, shifted by `5/2`. -/
theorem add_subtract_roundtrip_witness :
    ∃ d1 d2, (∀ fuel, add (fuel + 1) uniformState (5 / 2) = .ok d1) ∧
      (∀ fuel, subtract (fuel + 1) d1 (5 / 2) = .ok d2) ∧
      d1.m_lb = uniformState.m_lb + 5 / 2 ∧ d1.m_ub = uniformState.m_ub + 5 / 2 ∧
      d1.m_z = uniformState.m_z.map (· + 5 / 2) ∧ d1.m_pdf = uniformState.m_pdf ∧
      d2.m_lb = uniformState.m_lb ∧ d2.m_ub = uniformState.m_ub ∧
      d2.m_z = uniformState.m_z ∧ d2.m_pdf = uniformState.m_pdf ∧
      (∀ fuel e x, subtract fuel e x = add fuel e (-x)) :=
  add_subtract_roundtrip uniformState 3 (5 / 2) rfl rfl rfl integral_uniformState

/-- The scaling part of `multiply(num)` on aligned, populated tables. -/
theorem multiply_pos_eq (c : Constants) (fuel : Nat) (d : IDistribution) (num : ℚ)
    (hnum : 0 < num) (n : Nat) (hn : 1 ≤ n)
    (hN : d.m_nSamples = n) (hz : d.m_z.length = n) (hp : d.m_pdf.length = n) :
    multiply c fuel d num = calculateCDF fuel (scaled d num) := by
  unfold multiply
  have he : d.m_z.isEmpty = false := isEmpty_eq_false_of_length (by omega)
  have hpe : d.m_pdf.isEmpty = false := isEmpty_eq_false_of_length (by omega)
  have h1 := mapLoop_eq (· * num) d.m_z
  rw [hz] at h1
  rw [if_neg (ne_of_gt hnum), if_neg (not_lt.mpr (le_of_lt hnum))]
  simp only [pure_eq_ok, bind_ok, he, hpe, hN, Int.toNat_ofNat, Bool.false_eq_true, if_false,
    Bool.not_false, if_true, h1]
  simp only [scaled, hN]

/-- `multiply(num)` with a negative scalar: `negate`, then the scaling part with `-num`. -/
theorem multiply_neg_eq (c : Constants) (fuel : Nat) (d d1 : IDistribution) (num : ℚ)
    (hnum : num < 0) (hneg : negate fuel d = .ok d1) (n : Nat) (hn : 1 ≤ n)
    (hN : d1.m_nSamples = n) (hz : d1.m_z.length = n) (hp : d1.m_pdf.length = n) :
    multiply c fuel d num = calculateCDF fuel (scaled d1 (-num)) := by
  unfold multiply
  have he : d1.m_z.isEmpty = false := isEmpty_eq_false_of_length (by omega)
  have hpe : d1.m_pdf.isEmpty = false := isEmpty_eq_false_of_length (by omega)
  have h1 := mapLoop_eq (· * -num) d1.m_z
  rw [hz] at h1
  rw [if_neg (ne_of_lt hnum), if_pos hnum, hneg]
  simp only [pure_eq_ok, bind_ok, he, hpe, hN, Int.toNat_ofNat, Bool.false_eq_true, if_false,
    Bool.not_false, if_true, h1]
  simp only [scaled, hN]

/-- The final `calculateCDF` of `multiply`: after scaling the grid by `num > 0`, a table of
integral `1` is divided by `num`. -/
theorem calculateCDF_scaled (fuel : Nat) (d : IDistribution) (num : ℚ) (hnum : 0 < num)
    (n : Nat) (hn : 1 ≤ n) (hN : d.m_nSamples = n) (hz : d.m_z.length = n)
    (hp : d.m_pdf.length = n) (hint : trapz d.m_z d.m_pdf (n - 1) = 1) :
    ∃ d', calculateCDF (fuel + 1) (scaled d num) = .ok d' ∧
      d'.m_lb = d.m_lb * num ∧ d'.m_ub = d.m_ub * num ∧ d'.m_z = d.m_z.map (· * num) ∧
      d'.m_pdf = d.m_pdf.map (· / num) ∧ integral d'.m_z d'.m_pdf = 1 := by
  have hF : trapz (d.m_z.map (· * num)) d.m_pdf (n - 1) = num := by
    rw [trapz_map_mul _ _ _ _ (by omega), hint, mul_one]
  refine ⟨scaledTables (scaled d num) n,
    calculateCDF_of_ne_zero fuel (scaled d num) n hn hN (by simp [scaled, hz]) hp
      (by show trapz (d.m_z.map (· * num)) d.m_pdf (n - 1) ≠ 0
          rw [hF]; exact ne_of_gt hnum), rfl, rfl, rfl, ?_, ?_⟩
  · show d.m_pdf.map (· / trapz (d.m_z.map (· * num)) d.m_pdf (n - 1)) = _
    rw [hF]
  · show integral (d.m_z.map (· * num))
      (d.m_pdf.map (· / trapz (d.m_z.map (· * num)) d.m_pdf (n - 1))) = 1
    rw [integral, trapz_map_div, List.length_map, hz, hF]
    exact div_self (ne_of_gt hnum)

theorem sorted_negatedGrid {z : List ℚ} (h : z.Sorted (· < ·)) :
    (negatedGrid z).Sorted (· < ·) := by
  rw [List.Sorted, List.pairwise_iff_getElem]
  intro i j hi hj hij
  have hl : (negatedGrid z).length = z.length := by simp [negatedGrid]
  rw [← nth_of_lt hi, ← nth_of_lt hj, nth_negatedGrid _ _ (by omega),
    nth_negatedGrid _ _ (by omega)]
  have := nth_lt_of_sorted h (show z.length - 1 - j < z.length - 1 - i by omega) (by omega)
  linarith

theorem sorted_map_mul {z : List ℚ} (h : z.Sorted (· < ·)) (k : ℚ) (hk : 0 < k) :
    (z.map (· * k)).Sorted (· < ·) := by
  apply List.Pairwise.map _ _ h
  intro x y hxy
  exact mul_lt_mul_of_pos_right hxy hk

/-- C10: for `k ≠ 0`, on a state with `lowerBound < upperBound`, a populated strictly
increasing grid, an aligned PDF table and trapezoidal integral `1`, `multiply(k)` returns;
for `k > 0` the bounds are `(k*lb, k*ub)` and grid sample `i` is `k*z[i]`, for `k < 0` the
bounds are `(k*ub, k*lb)` and grid sample `i` is `k*z[n-1-i]`; in both cases
`lowerBound < upperBound`, the grid is strictly increasing, the PDF table is the (for
`k < 0` reversed) original one divided by `|k|`, and its trapezoidal integral is `1`. -/
theorem multiply_scalar (c : Constants) (d : IDistribution) (n : Nat) (k : ℚ) (hk : k ≠ 0)
    (hb : d.m_lb < d.m_ub) (hN : d.m_nSamples = n) (hz : d.m_z.length = n)
    (hs : d.m_z.Sorted (· < ·)) (hp : d.m_pdf.length = n)
    (hint : integral d.m_z d.m_pdf = 1) :
    ∃ d', (∀ fuel, multiply c (fuel + 1) d k = .ok d') ∧
      (0 < k → d'.m_lb = k * d.m_lb ∧ d'.m_ub = k * d.m_ub ∧
        ∀ i, i < n → nth d'.m_z i = k * nth d.m_z i ∧ nth d'.m_pdf i = nth d.m_pdf i / |k|) ∧
      (k < 0 → d'.m_lb = k * d.m_ub ∧ d'.m_ub = k * d.m_lb ∧
        ∀ i, i < n → nth d'.m_z i = k * nth d.m_z (n - 1 - i) ∧
          nth d'.m_pdf i = nth d.m_pdf (n - 1 - i) / |k|) ∧
      d'.m_lb < d'.m_ub ∧ d'.m_z.Sorted (· < ·) ∧
      d'.m_z.length = n ∧ d'.m_pdf.length = n ∧ integral d'.m_z d'.m_pdf = 1 := by
  have hn : 1 ≤ n := by
    by_contra h
    have : n = 0 := by omega
    rw [integral, hz, this] at hint
    simp [trapz] at hint
  rw [integral, hz] at hint
  rcases lt_or_gt_of_ne hk with hneg | hpos
  · -- negative scalar
    have hF1 : trapz (negated d).m_z (negated d).m_pdf (n - 1) = 1 := by
      show trapz (negatedGrid d.m_z) (reversedTable d.m_pdf) (n - 1) = 1
      rw [trapz_negate _ _ n hz hp, hint]
    have hz1 : (negated d).m_z.length = n := by simp [negated, negatedGrid, hz]
    have hp1 : (negated d).m_pdf.length = n := by simp [negated, reversedTable, hp]
    set d1 : IDistribution :=
      { negated d with m_cdf := (List.range n).map (trapz (negated d).m_z (negated d).m_pdf) }
      with hd1
    have hneg1 : ∀ fuel, negate (fuel + 1) d = .ok d1 := by
      intro fuel
      rw [negate_eq _ d n hn hN hz hp]
      exact calculateCDF_of_integral_one fuel (negated d) n hn hN (le_of_eq hz1.symm) hp1 hF1
    have hk' : 0 < -k := by linarith
    obtain ⟨d', hd', e1, e2, e3, e4, e5⟩ :=
      calculateCDF_scaled 0 d1 (-k) hk' n hn hN hz1 hp1 hF1
    have hd'' : ∀ fuel, calculateCDF (fuel + 1) (scaled d1 (-k)) = .ok d' := by
      intro fuel
      obtain ⟨d'', hd'', f1, f2, f3, f4, _⟩ :=
        calculateCDF_scaled fuel d1 (-k) hk' n hn hN hz1 hp1 hF1
      have h0 := calculateCDF_of_ne_zero fuel (scaled d1 (-k)) n hn hN
        (by simp [scaled, hz1]) hp1
      have h1 := calculateCDF_of_ne_zero 0 (scaled d1 (-k)) n hn hN
        (by simp [scaled, hz1]) hp1
      have hFk : trapz (scaled d1 (-k)).m_z (scaled d1 (-k)).m_pdf (n - 1) ≠ 0 := by
        show trapz ((negated d).m_z.map (· * -k)) (negated d).m_pdf (n - 1) ≠ 0
        rw [trapz_map_mul _ _ _ _ (by omega), hF1, mul_one]
        exact ne_of_gt hk'
      rw [h0 hFk]
      rw [h1 hFk] at hd'
      exact hd'
    refine ⟨d', fun fuel => ?_, fun h => absurd h (not_lt.mpr (le_of_lt hneg)), fun _ => ?_,
      ?_, ?_, ?_, ?_, e5⟩
    · rw [multiply_neg_eq c _ d d1 k hneg (hneg1 fuel) n hn hN hz1 hp1]
      exact hd'' fuel
    · refine ⟨?_, ?_, fun i hi => ⟨?_, ?_⟩⟩
      · rw [e1]; show -d.m_ub * -k = k * d.m_ub; ring
      · rw [e2]; show -d.m_lb * -k = k * d.m_lb; ring
      · rw [e3]
        show nth ((negatedGrid d.m_z).map (· * -k)) i = _
        rw [nth_map _ _ _ (by simp [negatedGrid]; omega), nth_negatedGrid _ _ (by omega), hz]
        ring
      · rw [e4, nth_map_div]
        show nth (reversedTable d.m_pdf) i / -k = _
        rw [nth_reversedTable _ _ (by omega), hp, abs_of_neg hneg]
    · rw [e1, e2]
      show -d.m_ub * -k < -d.m_lb * -k
      nlinarith
    · rw [e3]
      exact sorted_map_mul (sorted_negatedGrid hs) _ hk'
    · rw [e3]; simp [hz1]
    · rw [e4]; simp [hp1]
  · -- positive scalar
    obtain ⟨d', hd', e1, e2, e3, e4, e5⟩ := calculateCDF_scaled 0 d k hpos n hn hN hz hp hint
    have hFk : trapz (scaled d k).m_z (scaled d k).m_pdf (n - 1) ≠ 0 := by
      show trapz (d.m_z.map (· * k)) d.m_pdf (n - 1) ≠ 0
      rw [trapz_map_mul _ _ _ _ (by omega), hint, mul_one]
      exact ne_of_gt hpos
    have hd'' : ∀ fuel, calculateCDF (fuel + 1) (scaled d k) = .ok d' := by
      intro fuel
      rw [calculateCDF_of_ne_zero fuel (scaled d k) n hn hN (by simp [scaled, hz]) hp hFk]
      rw [calculateCDF_of_ne_zero 0 (scaled d k) n hn hN (by simp [scaled, hz]) hp hFk] at hd'
      exact hd'
    refine ⟨d', fun fuel => ?_, fun _ => ?_, fun h => absurd h (not_lt.mpr (le_of_lt hpos)),
      ?_, ?_, ?_, ?_, e5⟩
    · rw [multiply_pos_eq c _ d k hpos n hn hN hz hp]
      exact hd'' fuel
    · refine ⟨by rw [e1]; ring, by rw [e2]; ring, fun i hi => ⟨?_, ?_⟩⟩
      · rw [e3, nth_map _ _ _ (by omega)]; ring
      · rw [e4, nth_map_div, abs_of_pos hpos]
    · rw [e1, e2]
      exact mul_lt_mul_of_pos_right hb hpos
    · rw [e3]
      exact sorted_map_mul hs _ hpos
    · rw [e3]; simp [hz]
    · rw [e4]; simp [hp]

/-- Witness for C10: the uniform density on the grid `0, 1/2, 1`, multiplied by `-2`. -/
theorem multiply_scalar_witness :
    ∃ d', (∀ fuel, multiply sampleConstants (fuel + 1) uniformState (-2) = .ok d') ∧
      ((0 : ℚ) < -2 → d'.m_lb = -2 * uniformState.m_lb ∧ d'.m_ub = -2 * uniformState.m_ub ∧
        ∀ i, i < 3 → nth d'.m_z i = -2 * nth uniformState.m_z i ∧
          nth d'.m_pdf i = nth uniformState.m_pdf i / |(-2 : ℚ)|) ∧
      ((-2 : ℚ) < 0 → d'.m_lb = -2 * uniformState.m_ub ∧ d'.m_ub = -2 * uniformState.m_lb ∧
        ∀ i, i < 3 → nth d'.m_z i = -2 * nth uniformState.m_z (3 - 1 - i) ∧
          nth d'.m_pdf i = nth uniformState.m_pdf (3 - 1 - i) / |(-2 : ℚ)|) ∧
      d'.m_lb < d'.m_ub ∧ d'.m_z.Sorted (· < ·) ∧
      d'.m_z.length = 3 ∧ d'.m_pdf.length = 3 ∧ integral d'.m_z d'.m_pdf = 1 :=
  multiply_scalar sampleConstants uniformState 3 (-2) (by norm_num)
    (by norm_num [uniformState]) rfl rfl (by norm_num [uniformState]) rfl
    integral_uniformState

/-- The loop `v[i] = zz; zz += dz` for `i < n - 1` followed by `v[n-1] = ub`. -/
theorem gridLoop_eq (z0 : List ℚ) (n : Nat) (hn : 1 ≤ n) (hlen0 : z0.length = n)
    (lb dz ub : ℚ) :
    (forLoop
      (fun i (s : List ℚ × ℚ) => do
        let z ← QVector.write s.1 i s.2
        pure (z, s.2 + dz))
      0 (n - 1) (z0, lb) >>= fun s => QVector.write s.1 (n - 1) ub)
      = .ok (equallySpaced lb dz ub n) := by
  obtain ⟨s, hs, hl, hzz, hv⟩ := forLoop_inv
    (fun i (s : List ℚ × ℚ) => do
      let z ← QVector.write s.1 i s.2
      pure (z, s.2 + dz))
    (fun j (s : List ℚ × ℚ) => s.1.length = n ∧ s.2 = lb + (j : ℚ) * dz ∧
      ∀ t, t < j → nth s.1 t = lb + (t : ℚ) * dz)
    (n - 1) 0 (z0, lb) ⟨hlen0, by simp, by intro t ht; omega⟩
    (by
      rintro j ⟨z, zz⟩ - hj ⟨hl, hzz, hv⟩
      simp only at hl hzz hv
      have h1 : j < z.length := by omega
      refine ⟨(z.set j zz, zz + dz), ?_, by simpa using hl, ?_, ?_⟩
      · simp [write_ok h1]
      · simp only [hzz]; push_cast; ring
      · intro t ht
        simp only [nth_set]
        by_cases h : j = t
        · subst h; simp [h1, hzz]
        · simp [h]; exact hv t (by omega))
  simp only [hs, bind_ok]
  obtain ⟨z, zz⟩ := s
  simp only at hl hzz hv ⊢
  rw [write_ok (show n - 1 < z.length by omega)]
  congr 1
  apply ext_nth (by simp [hl, length_equallySpaced _ _ _ _ hn])
  intro i hi
  simp only [List.length_set, hl] at hi
  rw [nth_set, nth_equallySpaced]
  by_cases h : i < n - 1
  · rw [if_neg (by omega), if_pos h]; exact hv i (by simpa using h)
  · rw [if_pos ⟨by omega, by omega⟩, if_neg h, if_pos (by omega)]

theorem evenSamples_eq (n : Nat) (hn : 1 ≤ n) (lb dz ub : ℚ) :
    evenSamples (n : Int) lb dz ub = .ok (equallySpaced lb dz ub n) := by
  unfold evenSamples
  have hcnt : ((n : Int) - 1).toNat = n - 1 := by omega
  simp only [create_eq, bind_ok, hcnt]
  have := gridLoop_eq (List.replicate n 0) n hn (by simp) lb dz ub
  simpa using this

theorem toInt_nonneg {x : ℚ} (hx : 0 ≤ x) : 0 ≤ toInt x := by
  unfold toInt
  rw [if_pos hx]
  exact Int.floor_nonneg.mpr hx

/-- Grid generation on a state with `lowerBound < upperBound` and a positive resolution. -/
theorem generateZ_of_pos (d : IDistribution) (hb : d.m_lb < d.m_ub) (hdz : 0 < d.m_dz) :
    ∃ n : Nat, 1 ≤ n ∧ generateZ d = .ok
      { d with m_nSamples := n, m_z := equallySpaced d.m_lb d.m_dz d.m_ub n } := by
  have h0 : 0 ≤ toInt ((d.m_ub - d.m_lb) / d.m_dz) :=
    toInt_nonneg (le_of_lt (div_pos (by linarith) hdz))
  refine ⟨(toInt ((d.m_ub - d.m_lb) / d.m_dz)).toNat + 1, by omega, ?_⟩
  have := generateEquallySpacedZ_eq d ((toInt ((d.m_ub - d.m_lb) / d.m_dz)).toNat + 1)
    (by omega) (by push_cast; omega)
  unfold generateZ
  split <;> exact this

/-- `LinearDistribution::generatePDF` on a populated grid. -/
theorem generatePDFLinear_of_grid (d : IDistribution) (n : Nat) (hn : 1 ≤ n)
    (hN : d.m_nSamples = n) (hz : d.m_z.length = n) :
    ∃ p, generatePDFLinear d = .ok { d with m_pdf := p } ∧ p.length = n := by
  unfold generatePDFLinear
  have he : d.m_z.isEmpty = false := isEmpty_eq_false_of_length (by omega)
  simp only [he, Bool.false_eq_true, if_false, pure_eq_ok, bind_ok, hN, create_eq,
    Int.toNat_ofNat]
  cases hasc : d.m_ascend
  · have h := tabulateLoop_eq d.m_z (fun i => i)
      (fun zi => 2 / (d.m_ub - d.m_lb) * (d.m_ub - zi) / (d.m_ub - d.m_lb)) n
      (List.replicate n 0) (by simp) (by intro i hi; show i < d.m_z.length; omega)
    beta_reduce at h
    simp only [Bool.false_eq_true, if_false, h, bind_ok]
    exact ⟨_, rfl, by simp⟩
  · have h := tabulateLoop_eq d.m_z (fun i => i)
      (fun zi => 2 / (d.m_ub - d.m_lb) * (zi - d.m_lb) / (d.m_ub - d.m_lb)) n
      (List.replicate n 0) (by simp) (by intro i hi; show i < d.m_z.length; omega)
    beta_reduce at h
    simp only [if_true, h, bind_ok]
    exact ⟨_, rfl, by simp⟩

/-- The virtual `generatePDF` on a populated grid: a table aligned with the grid, the uniform
one for the generic class. -/
theorem generatePDF_of_grid (d : IDistribution) (n : Nat) (hn : 1 ≤ n)
    (hN : d.m_nSamples = n) (hz : d.m_z.length = n) :
    ∃ p, generatePDF d = .ok { d with m_pdf := p } ∧ p.length = n ∧
      (d.m_type = .GenericDistType → p = List.replicate n (1 / (d.m_ub - d.m_lb))) := by
  unfold generatePDF
  split
  next ht =>
    exact ⟨List.replicate n (1 / (d.m_ub - d.m_lb)),
      by simp [generatePDFGeneric, hN, fill_eq], by simp, fun _ => rfl⟩
  next ht =>
    obtain ⟨p, h1, h2⟩ := generatePDFLinear_of_grid d n hn hN hz
    exact ⟨p, h1, h2, fun h => by rw [ht] at h; cases h⟩

theorem Full.ready {d : IDistribution} (h : Full d) : Ready d :=
  ⟨h.1, Or.inr ⟨h.2.1, h.2.2.1, Or.inr h.2.2.2⟩⟩

/-- The accessor `pdf()` on a ready state. -/
theorem pdf_of_ready (d : IDistribution) (h : Ready d) :
    ∃ d', pdf d = .ok d' ∧ Ready d' ∧ SameSupport d d' ∧ (d.m_z ≠ [] → Full d') ∧
      (d.m_type = .GenericDistType → UniformTable d → UniformTable d') := by
  obtain ⟨hb, hcase⟩ := h
  rcases hcase with ⟨hz, hp, hN, hdz⟩ | ⟨hN, hn, hp⟩
  · -- nothing generated yet
    unfold pdf generatePDF
    simp only [hp, List.isEmpty_nil, Bool.true_or, if_true]
    split
    next ht =>
      refine ⟨d, ?_, ⟨hb, Or.inl ⟨hz, hp, hN, hdz⟩⟩, ⟨rfl, rfl, rfl⟩, fun h => absurd hz h,
        fun _ hu => hu⟩
      simp only [generatePDFGeneric, hN, hp, QVector.fill, pure_eq_ok]
      simp only [lt_self_iff_false, if_false, Int.toNat_zero, List.replicate_zero]
      congr 1
      cases d
      simp_all
    next ht =>
      obtain ⟨n, hn, hg⟩ := generateZ_of_pos d hb hdz
      obtain ⟨p, hgen, hlen⟩ := generatePDFLinear_of_grid
        { d with m_nSamples := n, m_z := equallySpaced d.m_lb d.m_dz d.m_ub n } n hn rfl
        (length_equallySpaced _ _ _ _ hn)
      refine ⟨{ d with
          m_nSamples := n, m_z := equallySpaced d.m_lb d.m_dz d.m_ub n, m_pdf := p },
        ?_, ?_, ⟨rfl, rfl, rfl⟩, fun h => absurd hz h, (fun h => by rw [ht] at h; cases h)⟩
      · unfold generatePDFLinear at hgen ⊢
        simp only [hz, List.isEmpty_nil, if_true, hg, bind_ok]
        have he : (equallySpaced d.m_lb d.m_dz d.m_ub n).isEmpty = false :=
          isEmpty_eq_false_of_length (by rw [length_equallySpaced _ _ _ _ hn]; exact hn)
        simp only [he, Bool.false_eq_true, if_false, pure_eq_ok, bind_ok] at hgen
        exact hgen
      · exact ⟨hb, Or.inr ⟨by simp [length_equallySpaced _ _ _ _ hn],
          by simp [length_equallySpaced _ _ _ _ hn, hn],
          Or.inr (by simp [length_equallySpaced _ _ _ _ hn, hlen])⟩⟩
  · have hN' : d.m_nSamples = (d.m_z.length : Int) := hN.symm
    rcases hp with hp | hp
    · obtain ⟨p, hgen, hlen, hu⟩ := generatePDF_of_grid d d.m_z.length hn hN' rfl
      have hfull : Full { d with m_pdf := p } := ⟨hb, hN, hn, hlen⟩
      refine ⟨{ d with m_pdf := p }, ?_, hfull.ready, ⟨rfl, rfl, rfl⟩, fun _ => hfull,
        fun ht _ => Or.inr (hu ht)⟩
      unfold pdf
      simp only [hp, List.isEmpty_nil, Bool.true_or, if_true, hgen]
    · have hfull : Full d := ⟨hb, hN, hn, hp⟩
      refine ⟨d, ?_, hfull.ready, ⟨rfl, rfl, rfl⟩, fun _ => hfull, fun _ hu => hu⟩
      unfold pdf
      have he : d.m_pdf.isEmpty = false := isEmpty_eq_false_of_length (by omega)
      have hne : ¬ ((d.m_pdf.length : Int) ≠ d.m_nSamples) := by
        rw [hp]; simpa using hN
      simp [he, hne]

/-- The accessor `zSamples()` on a ready state. -/
theorem zSamples_of_ready (d : IDistribution) (h : Ready d) :
    ∃ d', zSamples d = .ok d' ∧ Ready d' ∧ SameSupport d d' ∧ d'.m_z ≠ [] ∧
      d'.m_pdf = d.m_pdf ∧ (d.m_z ≠ [] → d' = d) ∧ (UniformTable d → UniformTable d') := by
  obtain ⟨hb, hcase⟩ := h
  rcases hcase with ⟨hz, hp, hN, hdz⟩ | ⟨hN, hn, hp⟩
  · obtain ⟨n, hn, hg⟩ := generateZ_of_pos d hb hdz
    have hl := length_equallySpaced d.m_lb d.m_dz d.m_ub n hn
    refine ⟨{ d with m_nSamples := n, m_z := equallySpaced d.m_lb d.m_dz d.m_ub n }, ?_,
      ⟨hb, Or.inr ⟨by simp [hl], by simp [hl, hn], Or.inl hp⟩⟩, ⟨rfl, rfl, rfl⟩, ?_, rfl,
      fun h => absurd hz h, fun _ => Or.inl hp⟩
    · unfold zSamples
      simp only [hz, List.isEmpty_nil, if_true, hg]
    · intro h0
      have h1 : (equallySpaced d.m_lb d.m_dz d.m_ub n) = [] := h0
      rw [h1] at hl
      simp at hl
      omega
  · refine ⟨d, ?_, ⟨hb, Or.inr ⟨hN, hn, hp⟩⟩, ⟨rfl, rfl, rfl⟩, ?_, rfl, fun _ => rfl,
      fun hu => hu⟩
    · unfold zSamples
      simp [isEmpty_eq_false_of_length hn]
    · intro h0; rw [h0] at hn; simp at hn

theorem interpolate_replicate (n : Nat) (hn : 1 ≤ n) (u : ℚ) (xs : List ℚ) (x : ℚ) :
    LinearInterpolator.interpolate xs (List.replicate n u) x = u := by
  induction n generalizing xs with
  | zero => omega
  | succ n ih =>
    cases n with
    | zero =>
      cases xs with
      | nil => simp [LinearInterpolator.interpolate]
      | cons x0 xs' =>
        cases xs' with
        | nil => simp [LinearInterpolator.interpolate]
        | cons x1 xs'' => simp [LinearInterpolator.interpolate]
    | succ m =>
      cases xs with
      | nil => simp [List.replicate_succ, LinearInterpolator.interpolate]
      | cons x0 xs' =>
        cases xs' with
        | nil => simp [List.replicate_succ, LinearInterpolator.interpolate]
        | cons x1 xs'' =>
          have := ih (by omega) (x1 :: xs'')
          simp only [List.replicate_succ] at this ⊢
          simp only [LinearInterpolator.interpolate]
          split_ifs
          · rfl
          · simp
          · exact this

theorem Full.grid_ne_nil {d : IDistribution} (h : Full d) : d.m_z ≠ [] := by
  intro h0
  have := h.2.2.1
  rw [h0] at this
  simp at this

theorem uniformTable_value {d : IDistribution} (hf : Full d) (hu : UniformTable d) :
    d.m_pdf = List.replicate d.m_z.length (1 / (d.m_ub - d.m_lb)) := by
  rcases hu with h0 | h0
  · have := hf.2.2.2
    have h1 := hf.2.2.1
    rw [h0] at this
    simp at this
    omega
  · exact h0

/-- The query `pdf(z)` on a ready state returns and leaves a ready state with the same class
and support, whichever the order of evaluation of the interpolator arguments.  On a generic
distribution whose table is absent or uniform, it returns the uniform density on the
support, provided the arguments are evaluated in written order or the grid is populated. -/
theorem pdfAt_of_ready (k : Environment) (d : IDistribution) (z : ℚ) (h : Ready d) :
    ∃ p d', pdfAt k d z = .ok (p, d') ∧ Ready d' ∧ SameSupport d d' ∧
      (d.m_z ≠ [] → d'.m_z ≠ []) ∧
      (d.m_type = .GenericDistType → UniformTable d →
        (∀ n u xs x, 1 ≤ n → k.interpolate xs (List.replicate n u) x = u) →
        UniformTable d' ∧
        ((k.argsInOrder = true ∨ d.m_z ≠ []) → d.m_lb ≤ z → z ≤ d.m_ub →
          p = 1 / (d.m_ub - d.m_lb) ∧ d'.m_z ≠ [])) := by
  obtain ⟨d1, h1, r1, ⟨t1, l1, u1⟩, f1, g1⟩ := pdf_of_ready d h
  have hstart : pdfAt k d z = (if z < d1.m_lb || z > d1.m_ub then pure (0, d1)
      else if k.argsInOrder then do
        let d2 ← zSamples d1
        let d3 ← pdf d2
        pure (k.interpolate d2.m_z d3.m_pdf z, d3)
      else do
        let d2 ← pdf d1
        let d3 ← zSamples d2
        pure (k.interpolate d3.m_z d2.m_pdf z, d3)) := by
    unfold pdfAt
    unfold pdf at h1
    by_cases hc : (d.m_pdf.isEmpty || decide ((d.m_pdf.length : Int) ≠ d.m_nSamples)) = true
    · simp only [hc, if_true] at h1 ⊢
      simp only [h1, bind_ok]
    · rw [if_neg hc] at h1
      rw [if_neg hc]
      simp only [h1, bind_ok]
  rw [hstart]
  by_cases hout : z < d1.m_lb || z > d1.m_ub
  · rw [if_pos hout]
    refine ⟨0, d1, rfl, r1, ⟨t1, l1, u1⟩, fun hne => (f1 hne).grid_ne_nil,
      fun ht hu _ => ⟨g1 ht hu, fun _ ha hb => ?_⟩⟩
    rw [l1, u1] at hout
    simp only [Bool.or_eq_true, decide_eq_true_eq] at hout
    rcases hout with h0 | h0 <;> linarith
  · rw [if_neg hout]
    by_cases hord : k.argsInOrder = true
    · rw [if_pos hord]
      obtain ⟨d2, h2, r2, ⟨t2, l2, u2⟩, hne2, hp2, -, hu2⟩ := zSamples_of_ready d1 r1
      obtain ⟨d3, h3, r3, ⟨t3, l3, u3⟩, f3, g3⟩ := pdf_of_ready d2 r2
      have hfull := f3 hne2
      refine ⟨k.interpolate d2.m_z d3.m_pdf z, d3,
        by simp only [h2, h3, bind_ok, pure_eq_ok], r3,
        ⟨by rw [t3, t2, t1], by rw [l3, l2, l1], by rw [u3, u2, u1]⟩,
        fun _ => hfull.grid_ne_nil, fun ht hu hk => ?_⟩
      have hu3 := g3 (by rw [t2, t1, ht]) (hu2 (g1 ht hu))
      refine ⟨hu3, fun _ _ _ => ⟨?_, hfull.grid_ne_nil⟩⟩
      rw [uniformTable_value hfull hu3, hk _ _ _ _ hfull.2.2.1, u3, u2, u1, l3, l2, l1]
    · rw [if_neg hord]
      obtain ⟨d2, h2, r2, ⟨t2, l2, u2⟩, f2, g2⟩ := pdf_of_ready d1 r1
      obtain ⟨d3, h3, r3, ⟨t3, l3, u3⟩, hne3, hp3, hsame, hu3⟩ := zSamples_of_ready d2 r2
      refine ⟨k.interpolate d3.m_z d2.m_pdf z, d3,
        by simp only [h2, h3, bind_ok, pure_eq_ok], r3,
        ⟨by rw [t3, t2, t1], by rw [l3, l2, l1], by rw [u3, u2, u1]⟩,
        fun _ => hne3, fun ht hu hk => ?_⟩
      have hu2 := g2 (by rw [t1, ht]) (g1 ht hu)
      refine ⟨hu3 hu2, fun hor _ _ => ⟨?_, hne3⟩⟩
      have hne : d.m_z ≠ [] := by
        rcases hor with h0 | h0
        · exact absurd h0 hord
        · exact h0
      have hfull2 := f2 (f1 hne).grid_ne_nil
      rw [uniformTable_value hfull2 hu2, hk _ _ _ _ hfull2.2.2.1, u2, u1, l2, l1]

/-- The resampling loops of `add(other)` on a ready state return a vector of the requested
length and leave a ready state; on a generic distribution whose table is absent or uniform
every sample taken on the support is the uniform density, provided the interpolator
arguments are evaluated in written order or the grid is populated. -/
theorem resample_of_ready (k : Environment) (d : IDistribution) (m : Nat) (hm : 1 ≤ m)
    (lb dz ub : ℚ) (h : Ready d) :
    ∃ v d', resample k d (m : Int) lb dz ub = .ok (v, d') ∧ v.length = m ∧ Ready d' ∧
      SameSupport d d' ∧
      (d.m_type = .GenericDistType → UniformTable d →
        (∀ n u xs x, 1 ≤ n → k.interpolate xs (List.replicate n u) x = u) →
        (k.argsInOrder = true ∨ d.m_z ≠ []) →
        (∀ j : Nat, j < m - 1 → d.m_lb ≤ lb + (j : ℚ) * dz ∧ lb + (j : ℚ) * dz ≤ d.m_ub) →
        d.m_lb ≤ ub → ub ≤ d.m_ub →
        v = List.replicate m (1 / (d.m_ub - d.m_lb))) := by
  unfold resample
  have hcnt : ((m : Int) - 1).toNat = m - 1 := by omega
  simp only [create_eq, bind_ok, hcnt]
  obtain ⟨s, hs, hl, hzz, hr, hss, hu⟩ := forLoop_inv
    (fun i (s : List ℚ × ℚ × IDistribution) => do
      let (p, d') ← pdfAt k s.2.2 s.2.1
      let v ← QVector.write s.1 i p
      pure (v, s.2.1 + dz, d'))
    (fun j (s : List ℚ × ℚ × IDistribution) => s.1.length = m ∧
      s.2.1 = lb + (j : ℚ) * dz ∧ Ready s.2.2 ∧ SameSupport d s.2.2 ∧
      (d.m_type = .GenericDistType → UniformTable d →
        (∀ n u xs x, 1 ≤ n → k.interpolate xs (List.replicate n u) x = u) →
        (k.argsInOrder = true ∨ d.m_z ≠ []) →
        (∀ j : Nat, j < m - 1 → d.m_lb ≤ lb + (j : ℚ) * dz ∧ lb + (j : ℚ) * dz ≤ d.m_ub) →
        UniformTable s.2.2 ∧ (k.argsInOrder = true ∨ s.2.2.m_z ≠ []) ∧
          ∀ t, t < j → nth s.1 t = 1 / (d.m_ub - d.m_lb)))
    (m - 1) 0 (List.replicate m 0, lb, d)
    ⟨by simp, by simp, h, ⟨rfl, rfl, rfl⟩,
      fun _ hu _ hor _ => ⟨hu, hor, by intro t ht; omega⟩⟩
    (by
      rintro j ⟨v, zz, s⟩ - hj ⟨hl, hzz, hr, ⟨t1, l1, u1⟩, hu⟩
      simp only at hl hzz hr t1 l1 u1 hu
      obtain ⟨p, s', hq, hr', ⟨t2, l2, u2⟩, -, hu'⟩ := pdfAt_of_ready k s zz hr
      have h1 : j < v.length := by omega
      refine ⟨(v.set j p, zz + dz, s'), ?_, by simpa using hl, ?_, hr',
        ⟨by rw [t2, t1], by rw [l2, l1], by rw [u2, u1]⟩, ?_⟩
      · simp only [hq, bind_ok, write_ok h1, pure_eq_ok]
      · simp only [hzz]; push_cast; ring
      · intro ht hut hk hor hin
        obtain ⟨hus, hor', hv⟩ := hu ht hut hk hor hin
        obtain ⟨hus', hp⟩ := hu' (by rw [t1, ht]) hus hk
        have hq := hin j (by omega)
        obtain ⟨hp1, hp2⟩ := hp hor' (by rw [l1, hzz]; exact hq.1)
          (by rw [u1, hzz]; exact hq.2)
        refine ⟨hus', Or.inr hp2, fun t htj => ?_⟩
        simp only [nth_set]
        by_cases he : j = t
        · subst he
          simp only [true_and, h1, if_true]
          rw [hp1, l1, u1]
        · simp only [he, false_and, if_false]
          exact hv t (by omega))
  simp only [hs, bind_ok]
  obtain ⟨v, zz, s⟩ := s
  simp only at hl hzz hr hss hu ⊢
  obtain ⟨t1, l1, u1⟩ := hss
  obtain ⟨p, s', hq, hr', ⟨t2, l2, u2⟩, -, hu'⟩ := pdfAt_of_ready k s ub hr
  have h1 : m - 1 < v.length := by omega
  refine ⟨v.set (m - 1) p, s', by simp only [hq, bind_ok, write_ok h1, pure_eq_ok],
    by simpa using hl, hr', ⟨by rw [t2, t1], by rw [l2, l1], by rw [u2, u1]⟩, ?_⟩
  intro ht hut hk hor hin hlo hhi
  obtain ⟨hus, hor', hv⟩ := hu ht hut hk hor hin
  obtain ⟨-, hp⟩ := hu' (by rw [t1, ht]) hus hk
  obtain ⟨hp1, -⟩ := hp hor' (by rw [l1]; exact hlo) (by rw [u1]; exact hhi)
  apply ext_nth (by simp [hl])
  intro i hi
  simp only [List.length_set, hl] at hi
  rw [nth_set, nth_replicate, if_pos hi]
  by_cases he : m - 1 = i
  · rw [if_pos ⟨he, h1⟩, hp1, l1, u1]
  · rw [if_neg (by tauto)]
    exact hv i (by omega)

theorem length_conv (a b : List ℚ) : (conv a b).length = a.length + b.length - 1 := by
  simp [conv]

theorem toInt_eq_floor {x : ℚ} (hx : 0 ≤ x) : toInt x = ⌊x⌋ := by
  unfold toInt; rw [if_pos hx]

theorem convStep_pos (c : Constants) (d other : IDistribution) (hN : 1 ≤ c.DistConvNSamples)
    (hd : d.m_lb < d.m_ub) : 0 < convStep c d other := by
  unfold convStep
  apply div_pos
  · exact lt_of_lt_of_le (by linarith) (le_max_left _ _)
  · exact_mod_cast (show 0 < c.DistConvNSamples by omega)

theorem sampleCount_pos {r dz : ℚ} (hr : 0 ≤ r) (hdz : 0 < dz) : 1 ≤ sampleCount r dz := by
  unfold sampleCount
  have : 0 ≤ ⌊r / dz⌋ := Int.floor_nonneg.mpr (div_nonneg hr (le_of_lt hdz))
  omega

/-- The operand with the larger range is sampled `DistConvNSamples + 1` times. -/
theorem sampleCount_max (c : Constants) (d other : IDistribution)
    (hN : 1 ≤ c.DistConvNSamples) (hd : d.m_lb < d.m_ub) (ho : other.m_lb < other.m_ub) :
    2 ≤ sampleCount (d.m_ub - d.m_lb) (convStep c d other) ∨
    2 ≤ sampleCount (other.m_ub - other.m_lb) (convStep c d other) := by
  have hNq : (0 : ℚ) < (c.DistConvNSamples : ℚ) := by
    exact_mod_cast (show 0 < c.DistConvNSamples by omega)
  rcases le_total (other.m_ub - other.m_lb) (d.m_ub - d.m_lb) with h | h
  · left
    have : (d.m_ub - d.m_lb) / convStep c d other = (c.DistConvNSamples : ℚ) := by
      unfold convStep
      rw [max_eq_left h]
      have : d.m_ub - d.m_lb ≠ 0 := by linarith
      field_simp
    unfold sampleCount
    rw [this, Int.floor_intCast]
    omega
  · right
    have : (other.m_ub - other.m_lb) / convStep c d other = (c.DistConvNSamples : ℚ) := by
      unfold convStep
      rw [max_eq_right h]
      have : other.m_ub - other.m_lb ≠ 0 := by linarith
      field_simp
    unfold sampleCount
    rw [this, Int.floor_intCast]
    omega

/-- `add(other)` on ready operands: the resampling returns two vectors of the chosen lengths
and the receiver reaches the renormalisation with the convolved table on the new grid. -/
theorem addDistribution_eq (k : Environment) (c : Constants) (d other : IDistribution)
    (hN : 1 ≤ c.DistConvNSamples) (hd : Ready d) (ho : Ready other) (mT mO : Nat)
    (hT : sampleCount (d.m_ub - d.m_lb) (convStep c d other) = mT)
    (hO : sampleCount (other.m_ub - other.m_lb) (convStep c d other) = mO) :
    ∃ pdfT pdfO dT oT,
      resample k d mT d.m_lb ((d.m_ub - d.m_lb) / ((mT : ℚ) - 1)) d.m_ub
        = .ok (pdfT, dT) ∧
      resample k other mO other.m_lb ((other.m_ub - other.m_lb) / ((mO : ℚ) - 1))
        other.m_ub = .ok (pdfO, oT) ∧
      pdfT.length = mT ∧ pdfO.length = mO ∧
      (∀ fuel, addDistribution k c fuel d other =
        (normalise fuel (convolved dT other (k.conv pdfT pdfO) (mT + mO - 1)) >>= fun r =>
          pure (r, oT))) ∧
      dT.m_lb = d.m_lb ∧ dT.m_ub = d.m_ub := by
  have hstep := convStep_pos c d other hN hd.1
  have hmT : 1 ≤ mT := by
    have := sampleCount_pos (r := d.m_ub - d.m_lb) (by linarith [hd.1]) hstep
    omega
  have hmO : 1 ≤ mO := by
    have := sampleCount_pos (r := other.m_ub - other.m_lb) (by linarith [ho.1]) hstep
    omega
  obtain ⟨pdfT, dT, h1, hl1, -, ⟨-, l1, u1⟩, -⟩ := resample_of_ready k d mT hmT d.m_lb
    ((d.m_ub - d.m_lb) / ((mT : ℚ) - 1)) d.m_ub hd
  obtain ⟨pdfO, oT, h2, hl2, -, -, -⟩ := resample_of_ready k other mO hmO other.m_lb
    ((other.m_ub - other.m_lb) / ((mO : ℚ) - 1)) other.m_ub ho
  refine ⟨pdfT, pdfO, dT, oT, h1, h2, hl1, hl2, fun fuel => ?_, l1, u1⟩
  have eT : toInt ((d.m_ub - d.m_lb) /
      (max (d.m_ub - d.m_lb) (other.m_ub - other.m_lb) / (c.DistConvNSamples : ℚ))) + 1
      = (mT : Int) := by
    show toInt ((d.m_ub - d.m_lb) / convStep c d other) + 1 = (mT : Int)
    rw [toInt_eq_floor (div_nonneg (by linarith [hd.1]) (le_of_lt hstep))]
    exact hT
  have eO : toInt ((other.m_ub - other.m_lb) /
      (max (d.m_ub - d.m_lb) (other.m_ub - other.m_lb) / (c.DistConvNSamples : ℚ))) + 1
      = (mO : Int) := by
    show toInt ((other.m_ub - other.m_lb) / convStep c d other) + 1 = (mO : Int)
    rw [toInt_eq_floor (div_nonneg (by linarith [ho.1]) (le_of_lt hstep))]
    exact hO
  have eN : (mT : Int) + (mO : Int) - 1 = ((mT + mO - 1 : Nat) : Int) := by omega
  unfold addDistribution
  simp only [eT, eO, eN, evenSamples_eq (mT + mO - 1) (by omega), bind_ok, Int.cast_natCast,
    h1, h2]
  simp only [convolved, l1, u1]

theorem ready_new (c : Constants) (h : 1 < c.DistMinNSamples) : Ready (new c) := by
  refine ⟨by norm_num [new], Or.inl ⟨rfl, rfl, rfl, ?_⟩⟩
  show 0 < (1 - 0) / ((c.DistMinNSamples : ℚ) - 1)
  have : (1 : ℚ) < (c.DistMinNSamples : ℚ) := by exact_mod_cast h
  apply div_pos <;> linarith

theorem sum_map_range (f : Nat → ℚ) (n : Nat) :
    ((List.range n).map f).sum = ∑ i in Finset.range n, f i := by
  induction n with
  | zero => simp
  | succ n ih => rw [List.range_succ, List.map_append, List.sum_append, ih,
      Finset.sum_range_succ]; simp

theorem nth_conv_ones (N k : Nat) (hk : k ≤ 2 * N) :
    nth (conv (List.replicate (N + 1) 1) (List.replicate (N + 1) 1)) k = tent N k := by
  unfold conv
  rw [nth_map_range, if_pos (by simp; omega), sum_map_range]
  simp only [nth_replicate]
  unfold tent
  by_cases h : k ≤ N
  · rw [if_pos h]
    rw [Finset.sum_congr rfl (g := fun _ => (1 : ℚ))]
    · simp
    · intro i hi
      rw [Finset.mem_range] at hi
      rw [if_pos (by omega), if_pos (by omega)]; simp
  · rw [if_neg h]
    have : ∀ i ∈ Finset.range (k + 1),
        ((if i < N + 1 then (1 : ℚ) else 0) * (if k - i < N + 1 then (1 : ℚ) else 0))
          = if (k - N ≤ i ∧ i ≤ N) then 1 else 0 := by
      intro i hi
      rw [Finset.mem_range] at hi
      by_cases h1 : i < N + 1
      · by_cases h2 : k - i < N + 1
        · rw [if_pos h1, if_pos h2, if_pos (show k - N ≤ i ∧ i ≤ N by omega)]; simp
        · rw [if_pos h1, if_neg h2, if_neg (show ¬ (k - N ≤ i ∧ i ≤ N) by omega)]; simp
      · rw [if_neg h1, if_neg (show ¬ (k - N ≤ i ∧ i ≤ N) by omega)]; simp
    rw [Finset.sum_congr rfl this, Finset.sum_boole]
    have hset : Finset.filter (fun i => k - N ≤ i ∧ i ≤ N) (Finset.range (k + 1))
        = Finset.Icc (k - N) N := by
      ext i
      simp only [Finset.mem_filter, Finset.mem_range, Finset.mem_Icc]
      omega
    rw [hset, Nat.card_Icc]
    have : N + 1 - (k - N) = 2 * N - k + 1 := by omega
    rw [this]
    push_cast
    rw [Nat.cast_sub (by omega)]
    push_cast; ring

theorem tent_symm (N k : Nat) (hk : k ≤ 2 * N) : tent N (2 * N - k) = tent N k := by
  unfold tent
  by_cases h : k ≤ N
  · by_cases h' : 2 * N - k ≤ N
    · have : k = N := by omega
      subst this
      have : 2 * k - k = k := by omega
      rw [this]
    · rw [if_pos h, if_neg h', Nat.cast_sub (by omega)]; push_cast; ring
  · rw [if_neg h, if_pos (by omega), Nat.cast_sub (by omega)]; push_cast; ring

theorem tent_lt_of_le {N i j : Nat} (hij : i < j) (hj : j ≤ N) : tent N i < tent N j := by
  unfold tent
  rw [if_pos (by omega), if_pos hj]
  have : (i : ℚ) < (j : ℚ) := by exact_mod_cast hij
  linarith

theorem tent_gt_of_ge {N i j : Nat} (hij : i < j) (hi : N ≤ i) : tent N j < tent N i := by
  unfold tent
  have hq : (i : ℚ) < (j : ℚ) := by exact_mod_cast hij
  rw [if_neg (by omega)]
  by_cases h : i ≤ N
  · have : i = N := by omega
    subst this
    rw [if_pos le_rfl]
    linarith
  · rw [if_neg h]; linarith

theorem tent_le_peak (N k : Nat) : tent N k ≤ (N : ℚ) + 1 := by
  unfold tent
  by_cases h : k ≤ N
  · rw [if_pos h]
    have : (k : ℚ) ≤ (N : ℚ) := by exact_mod_cast h
    linarith
  · rw [if_neg h]
    have : (N : ℚ) ≤ (k : ℚ) := by exact_mod_cast (show N ≤ k by omega)
    linarith

/-- Partial trapezoidal sums of the tent table over a grid of constant spacing `h`. -/
theorem trapz_tent (z p : List ℚ) (N : Nat) (h : ℚ)
    (hp : ∀ i, i ≤ 2 * N → nth p i = tent N i)
    (hz : ∀ i, i < 2 * N → nth z (i + 1) - nth z i = h) (k : Nat) (hk : k ≤ 2 * N) :
    trapz z p k = h / 2 *
      (if k ≤ N then (k : ℚ) ^ 2 + 2 * k
       else 4 * (N : ℚ) * k - 2 * (N : ℚ) ^ 2 - (k : ℚ) ^ 2 + 2 * k) := by
  induction k with
  | zero => simp [trapz]
  | succ k ih =>
    rw [trapz, ih (by omega), hp k (by omega), hp (k + 1) hk, hz k (by omega)]
    unfold tent
    by_cases h1 : k + 1 ≤ N
    · rw [if_pos (by omega), if_pos (by omega), if_pos h1, if_pos h1]
      push_cast; ring
    · by_cases h2 : k ≤ N
      · have : k = N := by omega
        subst this
        rw [if_pos le_rfl, if_pos le_rfl, if_neg h1, if_neg h1]
        push_cast; ring
      · rw [if_neg h2, if_neg h2, if_neg h1, if_neg h1]
        push_cast; ring

theorem specified_interpolate_const (o : Bool) (n : Nat) (u : ℚ) (xs : List ℚ) (x : ℚ)
    (hn : 1 ≤ n) : (specified o).interpolate xs (List.replicate n u) x = u :=
  interpolate_replicate n hn u xs x

/-- Resampling a uniform distribution on `[0, 1]` at `N + 1` evenly distributed points of
its support gives the all-ones vector. -/
theorem resample_uniformOnUnit (o : Bool) (d : IDistribution) (N : Nat) (hN : 1 ≤ N)
    (h : UniformOnUnit d) (hor : o = true ∨ d.m_z ≠ []) (v : List ℚ) (d' : IDistribution)
    (hr : resample (specified o) d ((N + 1 : Nat) : Int) d.m_lb
      ((d.m_ub - d.m_lb) / (((N + 1 : Nat) : ℚ) - 1)) d.m_ub = .ok (v, d')) :
    v = List.replicate (N + 1) 1 := by
  obtain ⟨hr0, ht, hu, hl, hub⟩ := h
  obtain ⟨w, e, hw, -, -, -, huw⟩ := resample_of_ready (specified o) d (N + 1) (by omega)
    d.m_lb ((d.m_ub - d.m_lb) / (((N + 1 : Nat) : ℚ) - 1)) d.m_ub hr0
  rw [hr] at hw
  have hvw : v = w := by
    have := Except.ok.inj hw
    exact (Prod.mk.inj this).1
  have hin : ∀ j : Nat, j < N + 1 - 1 →
      d.m_lb ≤ d.m_lb + (j : ℚ) * ((d.m_ub - d.m_lb) / (((N + 1 : Nat) : ℚ) - 1)) ∧
      d.m_lb + (j : ℚ) * ((d.m_ub - d.m_lb) / (((N + 1 : Nat) : ℚ) - 1)) ≤ d.m_ub := by
    intro j hj
    have hNq : (0 : ℚ) < (N : ℚ) := by exact_mod_cast hN
    have hjq : (j : ℚ) ≤ (N : ℚ) := by exact_mod_cast (show j ≤ N by omega)
    have hj0 : (0 : ℚ) ≤ (j : ℚ) := by exact_mod_cast (Nat.zero_le j)
    rw [hl, hub]
    have e1 : ((N + 1 : Nat) : ℚ) - 1 = (N : ℚ) := by push_cast; ring
    rw [e1]
    constructor
    · have : 0 ≤ (j : ℚ) * ((1 - 0) / (N : ℚ)) :=
        mul_nonneg hj0 (div_nonneg (by norm_num) (le_of_lt hNq))
      linarith
    · have : (j : ℚ) * ((1 - 0) / (N : ℚ)) ≤ 1 := by
        rw [sub_zero, mul_one_div, div_le_one hNq]; exact hjq
      linarith
  have hlo : d.m_lb ≤ d.m_ub := by rw [hl, hub]; norm_num
  have hfin := huw ht hu (fun n u xs x hn => specified_interpolate_const o n u xs x hn) hor hin
    hlo le_rfl
  rw [hvw, hfin, hl, hub]
  norm_num

theorem nth_tentState_z (d : IDistribution) (N : Nat) (hN : 1 ≤ N) (k : Nat)
    (hk : k ≤ 2 * N) : nth (tentState d N).m_z k = (k : ℚ) / (N : ℚ) := by
  have hNq : (N : ℚ) ≠ 0 := by exact_mod_cast (show N ≠ 0 by omega)
  show nth (equallySpaced 0 (1 / (N : ℚ)) 2 (2 * N + 1)) k = _
  rw [nth_equallySpaced_exact 0 (1 / (N : ℚ)) 2 (2 * N + 1) (by omega) ?_ k (by omega)]
  · ring
  · have : ((2 * N + 1 - 1 : Nat) : ℚ) = 2 * (N : ℚ) := by
      have : 2 * N + 1 - 1 = 2 * N := by omega
      rw [this]; push_cast; ring
    rw [this]; field_simp

theorem trapz_tentState (d : IDistribution) (N : Nat) (hN : 1 ≤ N) :
    trapz (tentState d N).m_z (tentState d N).m_pdf (2 * N + 1 - 1) = (N : ℚ) + 2 := by
  have hNq : (N : ℚ) ≠ 0 := by exact_mod_cast (show N ≠ 0 by omega)
  have e : 2 * N + 1 - 1 = 2 * N := by omega
  rw [e, trapz_tent (tentState d N).m_z (tentState d N).m_pdf N (1 / (N : ℚ))
    (fun i hi => nth_conv_ones N i hi) ?_ (2 * N) le_rfl]
  · rw [if_neg (by omega)]
    push_cast
    field_simp
    ring
  · intro i hi
    rw [nth_tentState_z d N hN (i + 1) (by omega), nth_tentState_z d N hN i (by omega)]
    push_cast
    field_simp

/-- With `conv` the discrete convolution and the interpolator piecewise linear: for two
generic distributions on `[0, 1]` whose tables are absent or uniform, whose grids are
populated unless the interpolator arguments are evaluated in written order, `a.add(b)`
returns;
the receiver has support `[0, 2]` and `2N + 1` grid points `k/N` (`N = DistConvNSamples`);
its PDF table is symmetric about the grid point `z = 1`, strictly increasing on the grid
points in `[0, 1]`, strictly decreasing on those in `[1, 2]`, of trapezoidal integral `1`,
and it peaks at `z = 1` with the value `(N+1)/(N+2)`, which is within `1/(N+2)` of `1`. -/
theorem add_uniform_tent (o : Bool) (c : Constants) (N : Nat) (hN1 : 1 ≤ N)
    (hN : c.DistConvNSamples = N) (a b : IDistribution)
    (ha : UniformOnUnit a) (hb : UniformOnUnit b)
    (hord : o = true ∨ (a.m_z ≠ [] ∧ b.m_z ≠ [])) :
    ∃ a' b', (∀ fuel, addDistribution (specified o) c (fuel + 2) a b = .ok (a', b')) ∧
      a'.m_lb = 0 ∧ a'.m_ub = 2 ∧
      a'.m_z.length = 2 * N + 1 ∧ a'.m_pdf.length = 2 * N + 1 ∧
      (∀ k, k ≤ 2 * N → nth a'.m_z k = (k : ℚ) / (N : ℚ)) ∧
      nth a'.m_z N = 1 ∧
      (∀ k, k ≤ 2 * N → nth a'.m_pdf (2 * N - k) = nth a'.m_pdf k) ∧
      (∀ i j, i < j → j ≤ 2 * N → nth a'.m_z j ≤ 1 → nth a'.m_pdf i < nth a'.m_pdf j) ∧
      (∀ i j, i < j → j ≤ 2 * N → 1 ≤ nth a'.m_z i → nth a'.m_pdf j < nth a'.m_pdf i) ∧
      integral a'.m_z a'.m_pdf = 1 ∧
      nth a'.m_pdf N = ((N : ℚ) + 1) / ((N : ℚ) + 2) ∧
      (∀ k, nth a'.m_pdf k ≤ nth a'.m_pdf N) ∧
      |nth a'.m_pdf N - 1| ≤ 1 / ((N : ℚ) + 2) := by
  have hNq : (0 : ℚ) < (N : ℚ) := by exact_mod_cast hN1
  have hN2 : (0 : ℚ) < (N : ℚ) + 2 := by linarith
  obtain ⟨ra, ta, ua, la, uba⟩ := ha
  obtain ⟨rb, tb, ub1, lb1, ubb⟩ := hb
  have hstep : convStep c a b = 1 / (N : ℚ) := by
    unfold convStep
    rw [la, uba, lb1, ubb, hN]
    norm_num
  have hcount : sampleCount ((1 : ℚ) - 0) (1 / (N : ℚ)) = ((N + 1 : Nat) : Int) := by
    unfold sampleCount
    have : ((1 : ℚ) - 0) / (1 / (N : ℚ)) = ((N : Int) : ℚ) := by
      rw [sub_zero, one_div_one_div]; simp
    rw [this, Int.floor_intCast]
    push_cast; ring
  obtain ⟨pdfT, pdfO, dT, oT, h1, h2, -, -, hadd, l1, u1⟩ :=
    addDistribution_eq (specified o) c a b (by rw [hN]; exact_mod_cast hN1) ra rb (N + 1) (N + 1)
      (by rw [hstep, la, uba]; exact hcount) (by rw [hstep, lb1, ubb]; exact hcount)
  have hpT := resample_uniformOnUnit o a N hN1 ⟨ra, ta, ua, la, uba⟩
    (hord.imp id (fun h => h.1)) pdfT dT h1
  have hpO := resample_uniformOnUnit o b N hN1 ⟨rb, tb, ub1, lb1, ubb⟩
    (hord.imp id (fun h => h.2)) pdfO oT h2
  have hm : N + 1 + (N + 1) - 1 = 2 * N + 1 := by omega
  have hD : convolved dT b ((specified o).conv pdfT pdfO) (N + 1 + (N + 1) - 1) =
      tentState dT N := by
    rw [hm, hpT, hpO]
    have e1 : ((2 * N + 1 : Nat) : ℚ) - 1 = 2 * (N : ℚ) := by push_cast; ring
    have e2 : ((1 : ℚ) + 1 - (0 + 0)) / (2 * (N : ℚ)) = 1 / (N : ℚ) := by
      have h0 : (N : ℚ) ≠ 0 := ne_of_gt hNq
      have h2 : 2 * (N : ℚ) ≠ 0 := mul_ne_zero two_ne_zero h0
      rw [div_eq_div_iff h2 h0]
      ring
    simp only [convolved, tentState, l1, u1, la, uba, lb1, ubb, e1, e2, specified]
    norm_num
  have hF := trapz_tentState dT N hN1
  have hFne : trapz (tentState dT N).m_z (tentState dT N).m_pdf (2 * N + 1 - 1) ≠ 0 := by
    rw [hF]; exact ne_of_gt hN2
  have hzl : (tentState dT N).m_z.length = 2 * N + 1 :=
    length_equallySpaced _ _ _ _ (by omega)
  have hpl : (tentState dT N).m_pdf.length = 2 * N + 1 := by
    show (conv _ _).length = _
    rw [length_conv]; simp; omega
  have hpdf : ∀ k, k ≤ 2 * N →
      nth (scaledTables (tentState dT N) (2 * N + 1)).m_pdf k = tent N k / ((N : ℚ) + 2) := by
    intro k hk
    show nth ((tentState dT N).m_pdf.map _) k = _
    rw [nth_map_div, hF]
    congr 1
    exact nth_conv_ones N k hk
  have hz : ∀ k, k ≤ 2 * N →
      nth (scaledTables (tentState dT N) (2 * N + 1)).m_z k = (k : ℚ) / (N : ℚ) :=
    fun k hk => nth_tentState_z dT N hN1 k hk
  have hle_of_z : ∀ j, j ≤ 2 * N → (j : ℚ) / (N : ℚ) ≤ 1 → j ≤ N := by
    intro j _ hj
    rw [div_le_one hNq] at hj
    exact_mod_cast hj
  have hge_of_z : ∀ i, i ≤ 2 * N → 1 ≤ (i : ℚ) / (N : ℚ) → N ≤ i := by
    intro i _ hi
    rw [one_le_div hNq] at hi
    exact_mod_cast hi
  have hpeak : tent N N = (N : ℚ) + 1 := by simp [tent]
  refine ⟨scaledTables (tentState dT N) (2 * N + 1), oT, fun fuel => ?_, rfl, rfl, hzl,
    by show ((tentState dT N).m_pdf.map _).length = _; rw [List.length_map, hpl],
    hz, ?_, ?_, ?_, ?_, ?_, ?_, ?_, ?_⟩
  · rw [hadd, hD]
    have hne : (tentState dT N).m_pdf.isEmpty = false :=
      isEmpty_eq_false_of_length (by rw [hpl]; omega)
    have hcalc := calculateCDF_of_ne_zero (fuel + 1) (tentState dT N) (2 * N + 1) (by omega)
      rfl (le_of_eq hzl.symm) hpl hFne
    simp only [normalise, hne, Bool.false_eq_true, if_false, hcalc, bind_ok, pure_eq_ok]
  · rw [hz N (by omega)]; exact div_self (ne_of_gt hNq)
  · intro k hk
    rw [hpdf k hk, hpdf (2 * N - k) (by omega), tent_symm N k hk]
  · intro i j hij hj hzj
    rw [hz j hj] at hzj
    rw [hpdf i (by omega), hpdf j hj]
    exact div_lt_div_of_pos_right (tent_lt_of_le hij (hle_of_z j hj hzj)) hN2
  · intro i j hij hj hzi
    rw [hz i (by omega)] at hzi
    rw [hpdf i (by omega), hpdf j hj]
    exact div_lt_div_of_pos_right (tent_gt_of_ge hij (hge_of_z i (by omega) hzi)) hN2
  · show integral (tentState dT N).m_z ((tentState dT N).m_pdf.map _) = 1
    rw [integral, trapz_map_div, hzl]
    exact div_self hFne
  · rw [hpdf N (by omega), hpeak]
  · intro k
    rw [hpdf N (by omega), hpeak]
    by_cases hk : k ≤ 2 * N
    · rw [hpdf k hk]
      exact div_le_div_of_nonneg_right (tent_le_peak N k) (le_of_lt hN2)
    · rw [nth_of_le (by
        show ((tentState dT N).m_pdf.map _).length ≤ k
        rw [List.length_map, hpl]; omega)]
      exact div_nonneg (by linarith) (le_of_lt hN2)
  · rw [hpdf N (by omega), hpeak]
    have : ((N : ℚ) + 1) / ((N : ℚ) + 2) - 1 = -(1 / ((N : ℚ) + 2)) := by
      field_simp; ring
    rw [this, abs_neg, abs_of_pos (div_pos one_pos hN2)]

theorem uniformOnUnit_new (c : Constants) (h : 1 < c.DistMinNSamples) :
    UniformOnUnit (new c) :=
  ⟨ready_new c h, rfl, Or.inl rfl, rfl, rfl⟩

theorem uniformOnUnit_uniformState : UniformOnUnit uniformState := by
  refine ⟨⟨by norm_num [uniformState], Or.inr ⟨rfl, by simp [uniformState], Or.inr rfl⟩⟩, rfl,
    Or.inr ?_, rfl, rfl⟩
  norm_num [uniformState, List.replicate]

/-! ## `multiply(0)` -/

theorem read_error {v : List ℚ} {i : Nat} (h : v.length ≤ i) :
    QVector.read v i = .error .outOfRange := by
  simp [QVector.read, List.getElem?_eq_none h]

/-- A loop of at least two rounds whose second round always faults does not return. -/
theorem forLoop_second_faults {σ : Type} (body : Nat → σ → Run σ) (k : Nat) (s : σ)
    (h : ∀ t r, body 1 t ≠ .ok r) : ∀ r, forLoop body 0 (k + 2) s ≠ .ok r := by
  intro r hr
  simp only [forLoop] at hr
  cases h0 : body 0 s with
  | error e => simp [h0] at hr
  | ok t =>
    simp only [h0] at hr
    cases h1 : body 1 t with
    | error e => simp [h1] at hr
    | ok u => exact h t u h1

theorem cdfStep_short (z pdf cdf : List ℚ) (hp : pdf.length = 2) :
    ∀ r, cdfStep z pdf 1 cdf ≠ .ok r := by
  intro r hr
  simp [cdfStep, read_ok (show 1 < pdf.length by omega),
    read_error (show pdf.length ≤ 1 + 1 by omega)] at hr

/-- Whenever `calculateCDF` returns on a three-point grid with a PDF table of two entries
(or of one entry with sample count `1`), the grid still has three points and the PDF table
two entries. -/
theorem calculateCDF_short_table :
    ∀ (fuel : Nat) (d d' : IDistribution), d.m_z.length = 3 →
      (d.m_pdf.length = 2 ∨ (d.m_pdf.length = 1 ∧ d.m_nSamples = 1)) →
      calculateCDF fuel d = .ok d' → d'.m_z.length = 3 ∧ d'.m_pdf.length = 2 := by
  intro fuel
  induction fuel with
  | zero => intro d d' _ _ h; simp [calculateCDF] at h
  | succ fuel ih =>
    intro d d' hz hcase h
    rcases hcase with hp | ⟨hp, hN⟩
    · have hne : d.m_pdf.isEmpty = false := isEmpty_eq_false_of_length (by omega)
      by_cases h3 : 3 ≤ d.m_nSamples
      · exfalso
        obtain ⟨m, hm⟩ : ∃ m : Nat, (d.m_nSamples - 1).toNat = m + 2 := ⟨(d.m_nSamples - 3).toNat, by omega⟩
        unfold calculateCDF at h
        simp only [hne, Bool.false_eq_true, if_false, pure_eq_ok, bind_ok, hm] at h
        obtain ⟨cdf, hc, -⟩ := bind_eq_ok h
        exact forLoop_second_faults _ m _ (fun t r => cdfStep_short d.m_z d.m_pdf t hp r) cdf hc
      · by_cases h2 : d.m_nSamples = 2
        · by_cases hF : trapz d.m_z d.m_pdf (2 - 1) = 0
          · rw [calculateCDF_of_eq_zero fuel d 2 (by omega) (by simpa using h2) (by omega) hp hF] at h
            exact ih (uniformReset d 2) d' hz (Or.inl (by simp [uniformReset])) h
          · rw [calculateCDF_of_ne_zero fuel d 2 (by omega) (by simpa using h2) (by omega) hp hF] at h
            cases h
            simp [scaledTables, hz, hp]
        · by_cases h1 : d.m_nSamples = 1
          · unfold calculateCDF at h
            simp only [hne, Bool.false_eq_true, if_false, pure_eq_ok, bind_ok, h1] at h
            simp [QVector.fill, forLoop, QVector.last, QVector.read, QVector.create] at h
            refine ih _ d' ?_ (Or.inr ⟨?_, ?_⟩) h
            · exact hz
            · simp
            · rfl
          · exfalso
            by_cases h0 : d.m_nSamples = 0
            · unfold calculateCDF at h
              simp only [hne, Bool.false_eq_true, if_false, pure_eq_ok, bind_ok, h0] at h
              simp [QVector.fill, forLoop, QVector.last] at h
            · have hneg : d.m_nSamples < 0 := by omega
              have hcnt : (d.m_nSamples - 1).toNat = 0 := by omega
              unfold calculateCDF at h
              simp only [hne, Bool.false_eq_true, if_false, pure_eq_ok, bind_ok, hcnt, forLoop,
                QVector.fill, if_pos hneg] at h
              by_cases hl : d.m_cdf.length = 0
              · simp [QVector.last, hl] at h
              · have hr : QVector.last (List.replicate d.m_cdf.length (0 : ℚ)) = .ok 0 := by
                  rw [last_ok (by simp; omega)]
                  simp [nth_replicate]
                simp [hr, QVector.create, hneg] at h
    · have hF : trapz d.m_z d.m_pdf (1 - 1) = 0 := rfl
      rw [calculateCDF_of_eq_zero fuel d 1 (by omega) (by simpa using hN) (by omega) hp hF] at h
      exact ih (uniformReset d 1) d' hz (Or.inr ⟨by simp [uniformReset], hN⟩) h

/-- C11 (divergence): `multiply(0)` stores a three-point grid next to a two-entry PDF table
and leaves the sample count as it was.  On a freshly constructed distribution, and on the
uniform state over the grid `0, 1/2, 1`, the renormalisation that follows faults on an
out-of-range access.  On every state, whenever `multiply(0)` returns, the grid has three
points and the PDF table two entries, so that the tables are never aligned; this happens on
the two-point state, where the sample count stays `2`. -/
theorem multiply_zero_misaligned (c : Constants) :
    (∀ fuel, multiply c (fuel + 1) (new c) 0 = .error .outOfRange) ∧
    (∀ fuel, multiply c (fuel + 1) uniformState 0 = .error .outOfRange) ∧
    (∀ fuel d d', multiply c fuel d 0 = .ok d' →
      d'.m_z.length = 3 ∧ d'.m_pdf.length = 2 ∧ d'.m_z.length ≠ d'.m_pdf.length) ∧
    (∃ d', (∀ fuel, multiply sampleConstants (fuel + 1) twoPointState 0 = .ok d') ∧
      d'.m_lb = 0 ∧ d'.m_ub = sampleConstants.DistMinInterval ∧
      d'.m_z.length = 3 ∧ d'.m_pdf.length = 2 ∧ d'.m_cdf.length = 2 ∧ d'.m_nSamples = 2) := by
  refine ⟨fun fuel => ?_, fun fuel => ?_, fun fuel d d' h => ?_, ?_⟩
  · simp [multiply, normalise, new, QVector.fill, calculateCDF, forLoop, QVector.last]
  · simp [multiply, normalise, uniformState, QVector.fill, calculateCDF, forLoop, cdfStep,
      QVector.read, QVector.write]
  · have hne : (QVector.fill d.m_pdf 1 2).isEmpty = false := by simp [QVector.fill]
    simp only [multiply, if_true, normalise, hne, Bool.false_eq_true, if_false] at h
    obtain ⟨h1, h2⟩ := calculateCDF_short_table fuel _ d' (by simp)
      (Or.inl (by simp [QVector.fill])) h
    exact ⟨h1, h2, by omega⟩
  · refine ⟨{ twoPointState with
        m_lb := 0, m_ub := 1 / 1000, m_dz := 1 / 2000, m_z := [0, 1 / 2000, 1 / 1000],
        m_pdf := [2000, 2000], m_cdf := [0, 1] }, fun fuel => ?_, ?_⟩
    · simp only [multiply, if_true, normalise, twoPointState, QVector.fill]
      norm_num [calculateCDF, forLoop, cdfStep, normStep, QVector.read, QVector.write,
        QVector.last, QVector.fill, sampleConstants, show (2 : Int).toNat = 2 from rfl]
      exact ⟨rfl, rfl⟩
    · simp [sampleConstants, twoPointState]

/-! ## The zero branch of `divide(other)` and `reciprocal()` -/

/-- `defineBoundaries(lb, ub)` with `lb < ub` returns on every well-formed state, with the
bounds `(lb, ub)`, and snaps a positive resolution to a positive one that divides the new
range. -/
theorem defineBoundaries_returns (c : Constants) (lb ub : ℚ) (hlt : lb < ub)
    (d : IDistribution) (hwf : WellFormed d) (hdz : 0 < d.m_dz) :
    ∃ d', (∀ fuel, defineBoundaries c (fuel + 2) d lb ub = .ok d') ∧
      d'.m_lb = lb ∧ d'.m_ub = ub ∧ 0 < d'.m_dz ∧
      ∃ m : Int, 1 ≤ m ∧ (ub - lb) / d'.m_dz = (m : ℚ) := by
  obtain ⟨hb, hz, hp⟩ := hwf
  have hw : widened c lb ub = (lb, ub) := by simp [widened, not_le.mpr hlt]
  have hR : 0 < ub - lb := by linarith
  have hr : 0 < (ub - lb) / (d.m_ub - d.m_lb) := div_pos hR (by linarith)
  have hx : 0 < d.m_dz * ((ub - lb) / (d.m_ub - d.m_lb)) := mul_pos hdz hr
  have hk : 1 ≤ ⌈(ub - lb) / (d.m_dz * ((ub - lb) / (d.m_ub - d.m_lb)))⌉ :=
    one_le_ceil_div hR hx
  have hkq : (0 : ℚ) < (⌈(ub - lb) / (d.m_dz * ((ub - lb) / (d.m_ub - d.m_lb)))⌉ : ℚ) := by
    exact_mod_cast (show 0 < ⌈(ub - lb) / (d.m_dz * ((ub - lb) / (d.m_ub - d.m_lb)))⌉ by omega)
  have edz : (rescaled c d lb ub).m_dz =
      (ub - lb) / (⌈(ub - lb) / (d.m_dz * ((ub - lb) / (d.m_ub - d.m_lb)))⌉ : ℚ) := by
    simp only [rescaled, hw, defineResolution]
    rw [if_pos hx]
  have hpos : 0 < (rescaled c d lb ub).m_dz := by rw [edz]; exact div_pos hR hkq
  have hquot : (ub - lb) / (rescaled c d lb ub).m_dz =
      (⌈(ub - lb) / (d.m_dz * ((ub - lb) / (d.m_ub - d.m_lb)))⌉ : ℚ) := by
    rw [edz]; field_simp
  have elb : (rescaled c d lb ub).m_lb = lb := by rw [(rescaled_bounds c d lb ub).1, hw]
  have eub : (rescaled c d lb ub).m_ub = ub := by rw [(rescaled_bounds c d lb ub).2, hw]
  have hgrid : d.m_z = [] ∨ (d.m_z.length : Int) = d.m_nSamples := by
    rcases hz with h | h
    · exact Or.inl h
    · exact Or.inr h.1
  rcases hp with hp | ⟨hne, hp⟩
  · refine ⟨rescaled c d lb ub, fun fuel => ?_, elb, eub, hpos, _, hk, hquot⟩
    rw [defineBoundaries_eq c _ d lb ub hgrid]; simp [hp]
  · rcases hz with h | ⟨hN, h2, hs⟩
    · exact absurd h hne
    · have hr' : 0 < ((widened c lb ub).2 - (widened c lb ub).1) / (d.m_ub - d.m_lb) := by
        rw [hw]; exact hr
      have hs' : (rescaled c d lb ub).m_z.Sorted (· < ·) := sorted_map_affine hs _ _ hr'
      have hlen : (rescaled c d lb ub).m_z.length = d.m_z.length := by simp [rescaled]
      obtain ⟨f1, f2, f3, f4, -⟩ := normalisedState_frame (rescaled c d lb ub) d.m_z.length
      refine ⟨normalisedState (rescaled c d lb ub) d.m_z.length, fun fuel => ?_,
        by rw [f3, elb], by rw [f4, eub], by rw [f2]; exact hpos, _, hk, by rw [f2]; exact hquot⟩
      rw [defineBoundaries_eq c _ d lb ub hgrid,
        if_neg (by simp [isEmpty_eq_false_of_length (show 1 ≤ d.m_pdf.length by omega)])]
      apply calculateCDF_eq fuel _ _ h2 (by simp [rescaled, hN]) (le_of_eq hlen.symm)
        (by simp [rescaled, hp])
      · exact ne_of_lt (nth_lt_of_sorted hs' (by omega) (by omega))
      · rw [elb, eub]; exact ne_of_lt hlt

/-- `generateEquallySpacedZ` followed by the generic `generatePDF` on a state whose positive
resolution divides the range: the uniform density on an equally spaced grid. -/
theorem refill_uniform (d : IDistribution) (m : Int) (hm : 1 ≤ m)
    (hq : (d.m_ub - d.m_lb) / d.m_dz = (m : ℚ)) :
    ∃ d1, generateEquallySpacedZ d = .ok d1 ∧ UniformOn d.m_lb d.m_ub (generatePDFGeneric d1) := by
  have hcount : toInt ((d.m_ub - d.m_lb) / d.m_dz) + 1 = ((m.toNat + 1 : Nat) : Int) := by
    rw [hq, toInt_intCast m (by omega)]
    push_cast
    omega
  refine ⟨_, generateEquallySpacedZ_eq d (m.toNat + 1) (by omega) hcount, rfl, rfl,
    m.toNat + 1, by omega, rfl, rfl, ?_⟩
  simp only [generatePDFGeneric, fill_eq]

/-- The zero branch of `divide(other)`. -/
theorem divideDistribution_fallback (k : Environment) (sgn : ℚ → Int) (c : Constants)
    (d other : IDistribution) (lb ub : ℚ) (hlt : lb < ub)
    (hcond : sgn other.m_lb ≠ sgn other.m_ub ∨ other.m_lb = 0 ∨ other.m_ub = 0)
    (hfb : divideFallback sgn c d.m_lb d.m_ub other.m_lb other.m_ub = (lb, ub))
    (hwf : WellFormed d) (hdz : 0 < d.m_dz) :
    ∃ d', (∀ fuel, divideDistribution k sgn c (fuel + 2) d other = .ok (d', other)) ∧
      UniformOn lb ub d' := by
  obtain ⟨d1, h1, elb, eub, -, m, hm, hq⟩ := defineBoundaries_returns c lb ub hlt d hwf hdz
  obtain ⟨d2, h2, hu⟩ := refill_uniform d1 m hm (by rw [elb, eub]; exact hq)
  rw [elb, eub] at hu
  refine ⟨generatePDFGeneric d2, fun fuel => ?_, hu⟩
  have hc : (decide (sgn other.m_lb ≠ sgn other.m_ub) || decide (other.m_lb = 0) ||
      decide (other.m_ub = 0)) = true := by
    rcases hcond with h | h | h <;> simp [h]
  unfold divideDistribution
  simp only [hc, if_true, hfb, h1 fuel, bind_ok, h2, pure_eq_ok]

/-- The zero branch of `reciprocal()`. -/
theorem reciprocal_fallback (k : Environment) (sgn : ℚ → Int) (c : Constants)
    (d : IDistribution) (lb ub : ℚ) (hlt : lb < ub)
    (hcond : sgn d.m_lb ≠ sgn d.m_ub ∨ d.m_lb = 0 ∨ d.m_ub = 0)
    (hfb : reciprocalFallback sgn c d.m_lb d.m_ub = (lb, ub))
    (hwf : WellFormed d) (hdz : 0 < d.m_dz) :
    ∃ d', (∀ fuel, reciprocal k sgn c (fuel + 2) d = .ok d') ∧ UniformOn lb ub d' := by
  obtain ⟨d1, h1, elb, eub, -, m, hm, hq⟩ := defineBoundaries_returns c lb ub hlt d hwf hdz
  obtain ⟨d2, h2, hu⟩ := refill_uniform d1 m hm (by rw [elb, eub]; exact hq)
  rw [elb, eub] at hu
  refine ⟨generatePDFGeneric d2, fun fuel => ?_, hu⟩
  have hc : (decide (sgn d.m_lb ≠ sgn d.m_ub) || decide (d.m_lb = 0) ||
      decide (d.m_ub = 0)) = true := by
    rcases hcond with h | h | h <;> simp [h]
  unfold reciprocal
  simp only [hc, if_true, hfb, h1 fuel, bind_ok, h2, pure_eq_ok]

theorem signum_ne_of_touching {l u : ℚ} (hlt : l < u) (hl : l ≤ 0) (hu : 0 ≤ u) :
    signum l ≠ signum u := by
  unfold signum
  rcases lt_or_eq_of_le hl with h | h
  · have h1 : ¬ 0 < l := not_lt.mpr hl
    have h2 : ¬ u < 0 := not_lt.mpr hu
    simp only [h, h1, h2, if_true, if_false]
    split <;> omega
  · subst h
    have h2 : ¬ u < 0 := not_lt.mpr hu
    simp [hlt, h2]

/-- C12 (divergence): whatever the supports, the zero branch of `divide(other)` and of
`reciprocal()` replaces the receiver by the uniform density on an equally spaced grid over
the replacement bounds.  With the three-valued sign function, whenever the support of the
divisor (for `reciprocal`, of the receiver) contains or touches zero, these bounds are
`(Lowest, Highest)`: the half-line outcomes `[0, Highest]` and `[Lowest, 0]` of the claim are
never produced, because the sign of a zero bound differs from the sign of the other bound.
With any sign function that tells negative from positive numbers, a divisor with support
`[0, u]` or a divisor with support `[l, 0]` yields `(Lowest, Highest)` on every receiver. -/
theorem divide_zero_fallback (k : Environment) (c : Constants) (hc : c.Lowest < c.Highest) :
    (∀ d other : IDistribution, WellFormed d → 0 < d.m_dz → other.m_lb < other.m_ub →
      other.m_lb ≤ 0 → 0 ≤ other.m_ub →
      ∃ d', (∀ fuel, divideDistribution k signum c (fuel + 2) d other = .ok (d', other)) ∧
        UniformOn c.Lowest c.Highest d') ∧
    (∀ d : IDistribution, WellFormed d → 0 < d.m_dz → d.m_lb ≤ 0 → 0 ≤ d.m_ub →
      ∃ d', (∀ fuel, reciprocal k signum c (fuel + 2) d = .ok d') ∧
        UniformOn c.Lowest c.Highest d') ∧
    (∀ sgn : ℚ → Int, (∀ x y, x < 0 → 0 < y → sgn x ≠ sgn y) →
      ∀ d o1 o2 : IDistribution, WellFormed d → 0 < d.m_dz →
      o1.m_lb = 0 → 0 < o1.m_ub → o2.m_lb < 0 → o2.m_ub = 0 →
      (∃ d', (∀ fuel, divideDistribution k sgn c (fuel + 2) d o1 = .ok (d', o1)) ∧
        UniformOn c.Lowest c.Highest d') ∨
      (∃ d', (∀ fuel, divideDistribution k sgn c (fuel + 2) d o2 = .ok (d', o2)) ∧
        UniformOn c.Lowest c.Highest d')) := by
  refine ⟨fun d other hwf hdz hlt hl hu => ?_, fun d hwf hdz hl hu => ?_,
    fun sgn hs d o1 o2 hwf hdz h1l h1u h2l h2u => ?_⟩
  · have hne := signum_ne_of_touching hlt hl hu
    exact divideDistribution_fallback k signum c d other _ _ hc (Or.inl hne)
      (by simp [divideFallback, hne]) hwf hdz
  · have hne := signum_ne_of_touching hwf.1 hl hu
    exact reciprocal_fallback k signum c d _ _ hc (Or.inl hne)
      (by simp [reciprocalFallback, hne]) hwf hdz
  · by_cases h0 : sgn o1.m_lb = sgn o1.m_ub
    · right
      have hne : sgn o2.m_lb ≠ sgn o2.m_ub := by
        rw [h2u, ← h1l, h0]
        exact hs _ _ h2l h1u
      exact divideDistribution_fallback k sgn c d o2 _ _ hc (Or.inl hne)
        (by simp [divideFallback, hne]) hwf hdz
    · left
      exact divideDistribution_fallback k sgn c d o1 _ _ hc (Or.inl h0)
        (by simp [divideFallback, h0]) hwf hdz

theorem wellFormed_uniformState : WellFormed uniformState := by
  refine ⟨by norm_num [uniformState], Or.inr ⟨by simp [uniformState], by simp [uniformState],
    ?_⟩, Or.inr ⟨by simp [uniformState], by simp [uniformState]⟩⟩
  norm_num [uniformState]

/-- Witness for C12: the uniform state on `[0, 1]` divided by a distribution with support
`[0, 1]`, where the claim expects the support `[0, Highest]`. -/
theorem divide_zero_fallback_witness :
    sampleConstants.Lowest < sampleConstants.Highest ∧
    ∃ d', (∀ fuel, divideDistribution (specified true) signum sampleConstants (fuel + 2)
        uniformState gridState = .ok (d', gridState)) ∧
      UniformOn sampleConstants.Lowest sampleConstants.Highest d' :=
  ⟨by norm_num [sampleConstants],
    (divide_zero_fallback (specified true) sampleConstants
      (by norm_num [sampleConstants])).1 uniformState gridState wellFormed_uniformState
      (by norm_num [uniformState]) (by norm_num [gridState]) (by norm_num [gridState])
      (by norm_num [gridState])⟩

/-! ## What the queries `pdf(z)` keep of a state -/

theorem sameButTables_refl (d : IDistribution) : SameButTables d d :=
  ⟨rfl, rfl, rfl, rfl, rfl, rfl⟩

theorem sameButTables_trans {a b c : IDistribution} (h1 : SameButTables a b)
    (h2 : SameButTables b c) : SameButTables a c :=
  ⟨h2.1.trans h1.1, h2.2.1.trans h1.2.1, h2.2.2.1.trans h1.2.2.1,
    h2.2.2.2.1.trans h1.2.2.2.1, h2.2.2.2.2.1.trans h1.2.2.2.2.1,
    h2.2.2.2.2.2.trans h1.2.2.2.2.2⟩

theorem generateZ_frame {d d' : IDistribution} (h : generateZ d = .ok d') :
    SameButTables d d' := by
  have key : generateEquallySpacedZ d = .ok d' := by
    unfold generateZ at h
    split at h <;> exact h
  unfold generateEquallySpacedZ at key
  obtain ⟨z1, -, key⟩ := bind_eq_ok key
  obtain ⟨s, -, key⟩ := bind_eq_ok key
  obtain ⟨z2, zz⟩ := s
  simp only at key
  split at key
  · simp [throw, throwThe, MonadExceptOf.throw] at key
  · obtain ⟨_, -, key⟩ := bind_eq_ok key
    obtain ⟨z3, -, key⟩ := bind_eq_ok key
    simp only [pure_eq_ok, Except.ok.injEq] at key
    subst key
    exact sameButTables_refl d

theorem generatePDF_frame {d d' : IDistribution} (h : generatePDF d = .ok d') :
    SameButTables d d' := by
  unfold generatePDF at h
  split at h
  · simp only [pure_eq_ok, Except.ok.injEq] at h
    subst h
    exact sameButTables_refl d
  · unfold generatePDFLinear at h
    simp only [ite_bind] at h
    obtain ⟨d1, h1, h⟩ := bind_eq_ok h
    obtain ⟨p0, -, h⟩ := bind_eq_ok h
    obtain ⟨p1, -, h⟩ := bind_eq_ok h
    simp only [pure_eq_ok, Except.ok.injEq] at h
    subst h
    have : SameButTables d d1 := by
      split at h1
      · exact generateZ_frame h1
      · simp only [pure_eq_ok, Except.ok.injEq] at h1
        subst h1
        exact sameButTables_refl d
    exact this

theorem pdf_frame {d d' : IDistribution} (h : pdf d = .ok d') : SameButTables d d' := by
  unfold pdf at h
  split at h
  · exact generatePDF_frame h
  · simp only [pure_eq_ok, Except.ok.injEq] at h
    subst h
    exact sameButTables_refl d

theorem zSamples_frame {d d' : IDistribution} (h : zSamples d = .ok d') :
    SameButTables d d' := by
  unfold zSamples at h
  split at h
  · exact generateZ_frame h
  · simp only [pure_eq_ok, Except.ok.injEq] at h
    subst h
    exact sameButTables_refl d

/-- Whenever the query `pdf(z)` returns, it has changed nothing but the grid, the PDF table
and the sample count. -/
theorem pdfAt_frame {k : Environment} {d d' : IDistribution} {z p : ℚ}
    (h : pdfAt k d z = .ok (p, d')) : SameButTables d d' := by
  unfold pdfAt at h
  simp only [ite_bind] at h
  obtain ⟨d1, h1, h⟩ := bind_eq_ok h
  have f1 : SameButTables d d1 := by
    split at h1
    · exact generatePDF_frame h1
    · simp only [pure_eq_ok, Except.ok.injEq] at h1
      subst h1
      exact sameButTables_refl d
  split at h
  · simp only [pure_eq_ok, Except.ok.injEq, Prod.mk.injEq] at h
    obtain ⟨-, h⟩ := h
    subst h
    exact f1
  · split at h
    · obtain ⟨d2, h2, h⟩ := bind_eq_ok h
      obtain ⟨d3, h3, h⟩ := bind_eq_ok h
      simp only [pure_eq_ok, Except.ok.injEq, Prod.mk.injEq] at h
      obtain ⟨-, h⟩ := h
      subst h
      exact sameButTables_trans (sameButTables_trans f1 (zSamples_frame h2)) (pdf_frame h3)
    · obtain ⟨d2, h2, h⟩ := bind_eq_ok h
      obtain ⟨d3, h3, h⟩ := bind_eq_ok h
      simp only [pure_eq_ok, Except.ok.injEq, Prod.mk.injEq] at h
      obtain ⟨-, h⟩ := h
      subst h
      exact sameButTables_trans (sameButTables_trans f1 (pdf_frame h2)) (zSamples_frame h3)

theorem pdf_of_full {d : IDistribution} (h : Full d) : pdf d = .ok d := by
  obtain ⟨-, hN, hn, hp⟩ := h
  unfold pdf
  have he : d.m_pdf.isEmpty = false := isEmpty_eq_false_of_length (by omega)
  have hne : ¬ ((d.m_pdf.length : Int) ≠ d.m_nSamples) := by
    rw [hp]; simpa using hN
  simp [he, hne]

theorem zSamples_of_full {d : IDistribution} (h : Full d) : zSamples d = .ok d := by
  unfold zSamples
  simp [isEmpty_eq_false_of_length h.2.2.1]

/-- On a state whose grid and PDF table are populated and aligned, the query `pdf(z)`
changes nothing. -/
theorem pdfAt_of_full (k : Environment) {d : IDistribution} (z : ℚ) (h : Full d) :
    ∃ p, pdfAt k d z = .ok (p, d) := by
  have hf := h
  obtain ⟨-, hN, hn, hp⟩ := h
  have he : d.m_pdf.isEmpty = false := isEmpty_eq_false_of_length (by omega)
  have hne : ¬ ((d.m_pdf.length : Int) ≠ d.m_nSamples) := by
    rw [hp]; simpa using hN
  unfold pdfAt
  simp only [he, hne, decide_False, Bool.or_self, Bool.false_eq_true, if_false, pure_eq_ok,
    bind_ok, pdf_of_full hf, zSamples_of_full hf]
  split
  · exact ⟨_, rfl⟩
  · split <;> exact ⟨_, rfl⟩

theorem kept_refl {d : IDistribution} (h : Ready d) : Kept d d :=
  ⟨h, h, Or.inl rfl⟩

/-- What is kept of a state has its class, resolution, bounds, CDF table and direction. -/
theorem kept_frame {o s : IDistribution} (h : Kept o s) : SameButTables o s := by
  obtain ⟨-, -, h | h | ⟨g, h1, h2⟩⟩ := h
  · rw [h]; exact sameButTables_refl o
  · exact zSamples_frame h
  · exact sameButTables_trans (zSamples_frame h1) (pdf_frame h2)

/-- A state whose grid and PDF table are populated and aligned is kept entirely. -/
theorem kept_of_full {o s : IDistribution} (h : Kept o s) (hF : Full o) : s = o := by
  obtain ⟨-, -, h | h | ⟨g, h1, h2⟩⟩ := h
  · exact h
  · rw [zSamples_of_full hF] at h
    exact (Except.ok.inj h).symm
  · rw [zSamples_of_full hF] at h1
    have hg : o = g := Except.ok.inj h1
    subst hg
    rw [pdf_of_full hF] at h2
    exact (Except.ok.inj h2).symm

theorem kept_sameSupport {o s : IDistribution} (h : Kept o s) : SameSupport o s :=
  ⟨(kept_frame h).1, (kept_frame h).2.2.1, (kept_frame h).2.2.2.1⟩

/-- The accessor `pdf()` on a ready state with a populated grid keeps the grid and the
sample count. -/
theorem pdf_keeps_grid {d d1 : IDistribution} (h : Ready d) (hz : d.m_z ≠ [])
    (h1 : pdf d = .ok d1) : d1.m_z = d.m_z ∧ d1.m_nSamples = d.m_nSamples := by
  obtain ⟨hb, hcase⟩ := h
  rcases hcase with ⟨hz0, -, -, -⟩ | ⟨hN, hn, hp⟩
  · exact absurd hz0 hz
  · unfold pdf at h1
    split at h1
    · obtain ⟨p, hgen, -, -⟩ := generatePDF_of_grid d d.m_z.length hn hN.symm rfl
      rw [hgen] at h1
      have e := Except.ok.inj h1
      rw [← e]
      exact ⟨rfl, rfl⟩
    · have e : d = d1 := Except.ok.inj h1
      rw [← e]
      exact ⟨rfl, rfl⟩

/-- A populated grid, and the sample count with it, is kept. -/
theorem kept_grid {o s : IDistribution} (h : Kept o s) (hz : o.m_z ≠ []) :
    s.m_z = o.m_z ∧ s.m_nSamples = o.m_nSamples := by
  obtain ⟨ho, -, h | h | ⟨g, h1, h2⟩⟩ := h
  · rw [h]; exact ⟨rfl, rfl⟩
  · obtain ⟨e, he, -, -, -, -, hsame, -⟩ := zSamples_of_ready o ho
    rw [h] at he
    have hs : s = e := Except.ok.inj he
    rw [hs, hsame hz]
    exact ⟨rfl, rfl⟩
  · obtain ⟨e, he, hr, -, -, -, hsame, -⟩ := zSamples_of_ready o ho
    rw [h1] at he
    have hg : g = e := Except.ok.inj he
    have hgo : g = o := by rw [hg]; exact hsame hz
    subst hgo
    exact pdf_keeps_grid ho hz h2

/-- The accessor `pdf()` on a ready state either changes nothing, the grid being empty, or
leaves the state in which `zSamples()` followed by `pdf()` leaves it, with grid and PDF
table populated and aligned. -/
theorem pdf_cases (d : IDistribution) (h : Ready d) :
    ∃ d1, pdf d = .ok d1 ∧
      ((d1 = d ∧ d.m_z = []) ∨ (Full d1 ∧ ∃ g, zSamples d = .ok g ∧ pdf g = .ok d1)) := by
  obtain ⟨d1, h1, r1, -, hfull, -⟩ := pdf_of_ready d h
  refine ⟨d1, h1, ?_⟩
  obtain ⟨g, hg, rg, -, hgne, hgp, hsame, -⟩ := zSamples_of_ready d h
  by_cases hz : d.m_z = []
  · obtain ⟨hb, hcase⟩ := h
    rcases hcase with ⟨-, hp, hN, hdz⟩ | ⟨-, hn, -⟩
    · by_cases ht : d.m_type = .GenericDistType
      · left
        refine ⟨?_, hz⟩
        have : pdf d = .ok d := by
          unfold pdf generatePDF
          simp only [hp, List.isEmpty_nil, Bool.true_or, if_true]
          split
          next =>
            simp only [generatePDFGeneric, hN, hp, QVector.fill, pure_eq_ok]
            simp only [lt_self_iff_false, if_false, Int.toNat_zero, List.replicate_zero]
            congr 1
            cases d
            simp_all
          next h0 =>
            have : d.m_type = .LinearDistType := h0
            rw [ht] at this
            cases this
        rw [this] at h1
        exact (Except.ok.inj h1).symm
      · right
        have hlin : d.m_type = .LinearDistType := by
          cases htd : d.m_type with
          | GenericDistType => exact absurd htd ht
          | LinearDistType => rfl
        have hgz : generateZ d = .ok g := by
          unfold zSamples at hg
          simpa [hz] using hg
        have hgt : g.m_type = .LinearDistType := by
          rw [(generateZ_frame hgz).1]; exact hlin
        have hge : g.m_z.isEmpty = false := by
          cases hgl : g.m_z with
          | nil => exact absurd hgl hgne
          | cons a l => rfl
        have e1 : pdf d = generatePDFLinear g := by
          unfold pdf generatePDF
          simp only [hp, List.isEmpty_nil, Bool.true_or, if_true]
          split
          next h0 =>
            have : d.m_type = .GenericDistType := h0
            rw [hlin] at this
            cases this
          next =>
            conv_lhs => unfold generatePDFLinear
            conv_rhs => unfold generatePDFLinear
            simp only [hz, List.isEmpty_nil, if_true, hgz, bind_ok, hge, Bool.false_eq_true,
              if_false, pure_eq_ok]
        have e2 : pdf g = generatePDFLinear g := by
          unfold pdf generatePDF
          simp only [hgp, hp, List.isEmpty_nil, Bool.true_or, if_true]
          split
          next h0 =>
            have : g.m_type = .GenericDistType := h0
            rw [hgt] at this
            cases this
          next => rfl
        have hpg : pdf g = .ok d1 := by rw [e2, ← e1]; exact h1
        obtain ⟨d2, h2, -, -, hfull2, -⟩ := pdf_of_ready g rg
        rw [hpg] at h2
        have : d1 = d2 := Except.ok.inj h2
        rw [this]
        rw [this] at hpg
        exact ⟨hfull2 hgne, g, hg, hpg⟩
    · rw [hz] at hn
      simp at hn
  · right
    have hgd : g = d := hsame hz
    rw [hgd] at hg
    exact ⟨hfull hz, d, hg, h1⟩

/-- Whenever the query `pdf(z)` on a ready state returns, it leaves the state as it was, or
as `zSamples()`, or `zSamples()` followed by `pdf()`, leaves it. -/
theorem pdfAt_lazily (k : Environment) (s : IDistribution) (z : ℚ) (h : Ready s)
    {p : ℚ} {s' : IDistribution} (hq : pdfAt k s z = .ok (p, s')) :
    s' = s ∨ zSamples s = .ok s' ∨ ∃ g, zSamples s = .ok g ∧ pdf g = .ok s' := by
  unfold pdfAt at hq
  simp only [ite_bind] at hq
  obtain ⟨d1, h1, hq⟩ := bind_eq_ok hq
  have hpdf : pdf s = .ok d1 := by
    unfold pdf
    exact h1
  obtain ⟨e1, g1, hc⟩ := pdf_cases s h
  rw [hpdf] at g1
  have he : d1 = e1 := Except.ok.inj g1
  rw [← he] at hc
  by_cases hout : (decide (z < d1.m_lb) || decide (z > d1.m_ub)) = true
  · rw [if_pos hout] at hq
    simp only [pure_eq_ok, Except.ok.injEq, Prod.mk.injEq] at hq
    rw [← hq.2]
    rcases hc with ⟨hd, -⟩ | ⟨-, g, hg, hpg⟩
    · exact Or.inl hd
    · exact Or.inr (Or.inr ⟨g, hg, hpg⟩)
  · rw [if_neg hout] at hq
    rcases hc with ⟨hd, -⟩ | ⟨hF, g, hg, hpg⟩
    · rw [hd] at hq hpdf
      by_cases hk : k.argsInOrder = true
      · rw [if_pos hk] at hq
        obtain ⟨d2, h2, hq⟩ := bind_eq_ok hq
        obtain ⟨d3, h3, hq⟩ := bind_eq_ok hq
        simp only [pure_eq_ok, Except.ok.injEq, Prod.mk.injEq] at hq
        rw [← hq.2]
        exact Or.inr (Or.inr ⟨d2, h2, h3⟩)
      · rw [if_neg hk] at hq
        obtain ⟨d2, h2, hq⟩ := bind_eq_ok hq
        obtain ⟨d3, h3, hq⟩ := bind_eq_ok hq
        simp only [pure_eq_ok, Except.ok.injEq, Prod.mk.injEq] at hq
        rw [← hq.2]
        rw [hpdf] at h2
        have e2 : s = d2 := Except.ok.inj h2
        rw [← e2] at h3
        exact Or.inr (Or.inl h3)
    · have hzf := zSamples_of_full hF
      have hpf := pdf_of_full hF
      have key : s' = d1 := by
        by_cases hk : k.argsInOrder = true
        · rw [if_pos hk] at hq
          simp only [hzf, hpf, bind_ok, pure_eq_ok, Except.ok.injEq, Prod.mk.injEq] at hq
          exact hq.2.symm
        · rw [if_neg hk] at hq
          simp only [hzf, hpf, bind_ok, pure_eq_ok, Except.ok.injEq, Prod.mk.injEq] at hq
          exact hq.2.symm
      rw [key]
      exact Or.inr (Or.inr ⟨g, hg, hpg⟩)

/-- The query `pdf(z)` on what was kept of a state keeps it. -/
theorem pdfAt_kept (k : Environment) {o s : IDistribution} (z : ℚ) (h : Kept o s) :
    ∃ p s', pdfAt k s z = .ok (p, s') ∧ Kept o s' := by
  obtain ⟨ho, hr, hl⟩ := h
  obtain ⟨p, s', hq, hr', -, -, -⟩ := pdfAt_of_ready k s z hr
  refine ⟨p, s', hq, ho, hr', ?_⟩
  have hl' := pdfAt_lazily k s z hr hq
  rcases hl with hl | hl | ⟨g, hg, hpg⟩
  · subst hl
    exact hl'
  · -- `s` is what `zSamples()` leaves of `o`: its grid is populated
    obtain ⟨e, he, -, -, hne, -, -, -⟩ := zSamples_of_ready o ho
    rw [hl] at he
    have hs : s = e := Except.ok.inj he
    subst hs
    obtain ⟨e2, he2, -, -, -, -, hsame, -⟩ := zSamples_of_ready s hr
    have hzs : zSamples s = .ok s := by rw [he2, hsame hne]
    rcases hl' with h1 | h1 | ⟨g, h1, h2⟩
    · rw [h1]; exact Or.inr (Or.inl hl)
    · rw [hzs] at h1
      have : s = s' := Except.ok.inj h1
      rw [← this]
      exact Or.inr (Or.inl hl)
    · rw [hzs] at h1
      have : s = g := Except.ok.inj h1
      subst this
      exact Or.inr (Or.inr ⟨s, hl, h2⟩)
  · -- `s` is what `zSamples()` and `pdf()` leave of `o`: grid and table are populated
    obtain ⟨e, he, re, -, hne, -, -, -⟩ := zSamples_of_ready o ho
    rw [hg] at he
    have hge : g = e := Except.ok.inj he
    subst hge
    obtain ⟨e2, he2, -, -, hfull, -⟩ := pdf_of_ready g re
    rw [hpg] at he2
    have hse : s = e2 := Except.ok.inj he2
    subst hse
    have hF : Full s := hfull hne
    have hzf := zSamples_of_full hF
    have hpf := pdf_of_full hF
    have key : s' = s := by
      rcases hl' with h1 | h1 | ⟨g', h1, h2⟩
      · exact h1
      · rw [hzf] at h1
        exact (Except.ok.inj h1).symm
      · rw [hzf] at h1
        have : s = g' := Except.ok.inj h1
        subst this
        rw [hpf] at h2
        exact (Except.ok.inj h2).symm
    rw [key]
    exact Or.inr (Or.inr ⟨g, hg, hpg⟩)

/-! ## `multiply(other)` -/

theorem productTerm_inv (k : Environment) (lbO ubO : ℚ) (z : List ℚ) (i : Nat) (zt : ℚ)
    (halved : Bool) (d other : IDistribution) (n : Nat) (hi : i < n) (hz : z.length = n)
    (s : List ℚ × IDistribution × IDistribution) (hs : QuadratureInv d other n s) :
    ∃ s', productTerm k lbO ubO z i zt halved s = .ok s' ∧ QuadratureInv d other n s' := by
  obtain ⟨v, a, b⟩ := s
  obtain ⟨hl, ka, kb⟩ := hs
  simp only at hl ka kb
  unfold productTerm
  simp only [read_ok (show i < z.length by omega), bind_ok]
  split
  · obtain ⟨p, a', ha, ka'⟩ := pdfAt_kept k zt ka
    obtain ⟨q, b', hb, kb'⟩ := pdfAt_kept k (nth z i / zt) kb
    have h1 : i < v.length := by omega
    simp only [ha, hb, bind_ok, read_ok h1, write_ok h1, pure_eq_ok]
    exact ⟨_, rfl, by simpa using hl, ka', kb'⟩
  · exact ⟨_, rfl, hl, ka, kb⟩

theorem productStep_inv (k : Environment) (lbO ubO dzT : ℚ) (z zT : List ℚ) (i j : Nat)
    (d other : IDistribution) (n : Nat) (hi : i < n) (hj : j < n) (hz : z.length = n)
    (hzT : zT.length = n)
    (s : List ℚ × IDistribution × IDistribution) (hs : QuadratureInv d other n s) :
    ∃ s', productStep k lbO ubO dzT z zT i j s = .ok s' ∧ QuadratureInv d other n s' := by
  unfold productStep
  simp only [read_ok (show j < zT.length by omega), bind_ok]
  split
  · exact productTerm_inv k lbO ubO z i _ false d other n hi hz s hs
  · obtain ⟨t1, h1, i1⟩ := productTerm_inv k lbO ubO z i (-dzT / 2) true d other n hi hz s hs
    obtain ⟨t2, h2, i2⟩ := productTerm_inv k lbO ubO z i (dzT / 2) true d other n hi hz t1 i1
    exact ⟨t2, by simp only [h1, bind_ok, h2], i2⟩

theorem productRow_inv (k : Environment) (lbO ubO dzT : ℚ) (z zT : List ℚ) (i : Nat)
    (d other : IDistribution) (n : Nat) (hi : i < n) (hz : z.length = n)
    (hzT : zT.length = n)
    (s : List ℚ × IDistribution × IDistribution) (hs : QuadratureInv d other n s) :
    ∃ s', productRow k lbO ubO dzT z zT n i s = .ok s' ∧ QuadratureInv d other n s' := by
  obtain ⟨t, ht, hl, ka, kb⟩ := forLoop_inv (productStep k lbO ubO dzT z zT i)
    (fun _ s => QuadratureInv d other n s) n 0 s hs
    (fun j t _ hj ht => productStep_inv k lbO ubO dzT z zT i j d other n hi (by omega) hz hzT
      t ht)
  have h1 : i < t.1.length := by omega
  unfold productRow
  simp only [ht, bind_ok, read_ok h1, write_ok h1, pure_eq_ok]
  exact ⟨_, rfl, by simpa using hl, ka, kb⟩

/-- Renormalisation of a table on `n ≥ 2` evenly distributed points from `lo` to `hi`. -/
theorem calculateCDF_regridded (fuel : Nat) (d : IDistribution) (table : List ℚ) (lo hi : ℚ)
    (n : Nat) (hn : 2 ≤ n) (hl : table.length = n) (hlt : lo < hi) :
    normalise (fuel + 2) (regridded d table lo hi n)
      = .ok (normalisedState (regridded d table lo hi n) n) := by
  have he : (regridded d table lo hi n).m_pdf.isEmpty = false :=
    isEmpty_eq_false_of_length (by simp only [regridded]; omega)
  unfold normalise
  simp only [he, Bool.false_eq_true, if_false]
  apply calculateCDF_eq fuel _ n hn rfl
    (by simp only [regridded]; rw [length_equallySpaced _ _ _ _ (by omega)]) hl
  · simp only [regridded]
    rw [nth_equallySpaced, if_pos (by omega), nth_equallySpaced, if_neg (by omega), if_pos rfl]
    simp only [Nat.cast_zero, zero_mul, add_zero]
    exact ne_of_lt hlt
  · exact ne_of_lt hlt

/-- The loops of `multiply(other)` on ready operands return a table of `DistMultNSamples`
entries and leave of both operands what the queries `pdf(z)` keep. -/
theorem multiplyDistribution_eq (k : Environment) (c : Constants) (d other : IDistribution)
    (n : Nat) (hn : 1 ≤ n) (hc : c.DistMultNSamples = n) (hd : Ready d) (ho : Ready other) :
    ∃ table d1 o1, table.length = n ∧ Kept d d1 ∧ Kept other o1 ∧
      ∀ fuel, multiplyDistribution k c fuel d other =
        (normalise fuel (regridded d1 table
            (cornerMin d.m_lb d.m_ub other.m_lb other.m_ub)
            (cornerMax d.m_lb d.m_ub other.m_lb other.m_ub) n) >>= fun r => pure (r, o1)) := by
  obtain ⟨s, hs, hl, ka, kb⟩ := forLoop_inv
    (productRow k other.m_lb other.m_ub ((d.m_ub - d.m_lb) / ((n : ℚ) - 1))
      (equallySpaced (cornerMin d.m_lb d.m_ub other.m_lb other.m_ub)
        ((cornerMax d.m_lb d.m_ub other.m_lb other.m_ub -
          cornerMin d.m_lb d.m_ub other.m_lb other.m_ub) / ((n : ℚ) - 1))
        (cornerMax d.m_lb d.m_ub other.m_lb other.m_ub) n)
      (equallySpaced d.m_lb ((d.m_ub - d.m_lb) / ((n : ℚ) - 1)) d.m_ub n) n)
    (fun _ s => QuadratureInv d other n s) n 0 (List.replicate n 0, d, other)
    ⟨by simp, kept_refl hd, kept_refl ho⟩
    (fun i s _ hi hs => productRow_inv k _ _ _ _ _ i d other n (by omega)
      (length_equallySpaced _ _ _ n hn) (length_equallySpaced _ _ _ n hn) s hs)
  obtain ⟨table, d1, o1⟩ := s
  simp only at hl ka kb
  refine ⟨table, d1, o1, hl, ka, kb, fun fuel => ?_⟩
  unfold multiplyDistribution
  simp only [cornerMin, cornerMax] at hs ⊢
  simp only [hc, Int.cast_natCast, evenSamples_eq n hn, create_eq, bind_ok, Int.toNat_ofNat, hs,
    regridded]

theorem mul_le_max_ends {p q t m : ℚ} (h1 : p ≤ t) (h2 : t ≤ q) :
    t * m ≤ max (p * m) (q * m) := by
  rcases le_total 0 m with h | h
  · exact le_max_of_le_right (mul_le_mul_of_nonneg_right h2 h)
  · exact le_max_of_le_left (mul_le_mul_of_nonpos_right h1 h)

theorem min_ends_le_mul {p q t m : ℚ} (h1 : p ≤ t) (h2 : t ≤ q) :
    min (p * m) (q * m) ≤ t * m := by
  rcases le_total 0 m with h | h
  · exact min_le_of_left_le (mul_le_mul_of_nonneg_right h1 h)
  · exact min_le_of_right_le (mul_le_mul_of_nonpos_right h2 h)

/-- Every product of a point of `[a, b]` and a point of `[c, d]` lies between the least and
the greatest corner product. -/
theorem corner_bounds {a b c d x y : ℚ} (hax : a ≤ x) (hxb : x ≤ b) (hcy : c ≤ y)
    (hyd : y ≤ d) : cornerMin a b c d ≤ x * y ∧ x * y ≤ cornerMax a b c d := by
  have u1 : x * y ≤ max (a * y) (b * y) := mul_le_max_ends hax hxb
  have u2 : a * y ≤ max (a * c) (a * d) := by
    have := mul_le_max_ends (m := a) hcy hyd
    simpa [mul_comm] using this
  have u3 : b * y ≤ max (b * c) (b * d) := by
    have := mul_le_max_ends (m := b) hcy hyd
    simpa [mul_comm] using this
  have l1 : min (a * y) (b * y) ≤ x * y := min_ends_le_mul hax hxb
  have l2 : min (a * c) (a * d) ≤ a * y := by
    have := min_ends_le_mul (m := a) hcy hyd
    simpa [mul_comm] using this
  have l3 : min (b * c) (b * d) ≤ b * y := by
    have := min_ends_le_mul (m := b) hcy hyd
    simpa [mul_comm] using this
  constructor
  · unfold cornerMin
    rw [← min_assoc]
    exact le_trans (min_le_min l2 l3) l1
  · unfold cornerMax
    rw [← max_assoc]
    exact le_trans u1 (max_le_max u2 u3)

/-- The least corner product of two proper supports is strictly below the greatest. -/
theorem cornerMin_lt_cornerMax {a b c d : ℚ} (hab : a < b) (hcd : c < d) :
    cornerMin a b c d < cornerMax a b c d := by
  by_contra hne
  have hle : cornerMax a b c d ≤ cornerMin a b c d := not_lt.mp hne
  have b1 := corner_bounds (le_refl a) (le_of_lt hab) (le_refl c) (le_of_lt hcd)
  have b2 := corner_bounds (le_refl a) (le_of_lt hab) (le_of_lt hcd) (le_refl d)
  have b3 := corner_bounds (le_of_lt hab) (le_refl b) (le_refl c) (le_of_lt hcd)
  have b4 := corner_bounds (le_of_lt hab) (le_refl b) (le_of_lt hcd) (le_refl d)
  have e1 : a * c = a * d := by linarith [b1.1, b1.2, b2.1, b2.2]
  have e2 : b * c = b * d := by linarith [b3.1, b3.2, b4.1, b4.2]
  have hdc : d - c ≠ 0 := by linarith
  have ha : a = 0 := by
    have : a * (d - c) = 0 := by linarith [mul_sub a d c]
    rcases mul_eq_zero.mp this with h | h
    · exact h
    · exact absurd h hdc
  have hb : b = 0 := by
    have : b * (d - c) = 0 := by linarith [mul_sub b d c]
    rcases mul_eq_zero.mp this with h | h
    · exact h
    · exact absurd h hdc
  linarith

theorem gap_equallySpaced (lo hi : ℚ) (n : Nat) (hn : 2 ≤ n) (i : Nat) (hi' : i + 1 < n) :
    nth (equallySpaced lo ((hi - lo) / ((n : ℚ) - 1)) hi n) (i + 1) -
      nth (equallySpaced lo ((hi - lo) / ((n : ℚ) - 1)) hi n) i = (hi - lo) / ((n : ℚ) - 1) := by
  have hn1 : ((n : ℚ) - 1) ≠ 0 := by
    have : (2 : ℚ) ≤ (n : ℚ) := by exact_mod_cast hn
    linarith
  have hub : hi = lo + ((n - 1 : Nat) : ℚ) * ((hi - lo) / ((n : ℚ) - 1)) := by
    rw [Nat.cast_sub (by omega)]
    field_simp
  rw [nth_equallySpaced_exact lo _ hi n (by omega) hub (i + 1) hi',
    nth_equallySpaced_exact lo _ hi n (by omega) hub i (by omega)]
  push_cast
  ring

theorem ready_uniformState : Ready uniformState :=
  ⟨by norm_num [uniformState], Or.inr ⟨by simp [uniformState], by simp [uniformState],
    Or.inr (by simp [uniformState])⟩⟩

theorem ready_gridState : Ready gridState :=
  ⟨by norm_num [gridState], Or.inr ⟨by simp [gridState], by simp [gridState],
    Or.inl (by simp [gridState])⟩⟩

/-- The state left by the renormalisation of a table on `n ≥ 2` evenly distributed points
from `lo` to `hi`. -/
theorem normalised_regridded (d : IDistribution) (table : List ℚ) (lo hi : ℚ) (n : Nat)
    (hn : 2 ≤ n) (hl : table.length = n) :
    (normalisedState (regridded d table lo hi n) n).m_lb = lo ∧
    (normalisedState (regridded d table lo hi n) n).m_ub = hi ∧
    (normalisedState (regridded d table lo hi n) n).m_nSamples = n ∧
    (normalisedState (regridded d table lo hi n) n).m_z.length = n ∧
    nth (normalisedState (regridded d table lo hi n) n).m_z 0 = lo ∧
    nth (normalisedState (regridded d table lo hi n) n).m_z (n - 1) = hi ∧
    (∀ i, i + 1 < n →
      nth (normalisedState (regridded d table lo hi n) n).m_z (i + 1) -
        nth (normalisedState (regridded d table lo hi n) n).m_z i =
          (hi - lo) / ((n : ℚ) - 1)) ∧
    (normalisedState (regridded d table lo hi n) n).m_pdf.length = n := by
  obtain ⟨-, -, f3, f4, f5, f6, -, -⟩ := normalisedState_frame (regridded d table lo hi n) n
  have f9 := normalisedState_pdf_length (regridded d table lo hi n) n hl
  have hz : (regridded d table lo hi n).m_z =
      equallySpaced lo ((hi - lo) / ((n : ℚ) - 1)) hi n := rfl
  have hlen := length_equallySpaced lo ((hi - lo) / ((n : ℚ) - 1)) hi n (by omega)
  rw [f3, f4, f5, f6, f9, hz, hlen]
  refine ⟨rfl, rfl, rfl, rfl, ?_, ?_, fun i hi' => gap_equallySpaced lo hi n hn i hi', rfl⟩
  · rw [nth_equallySpaced, if_pos (by omega)]
    simp
  · rw [nth_equallySpaced, if_neg (by omega), if_pos rfl]

/-- C13: on ready operands (in particular `lowerBound < upperBound` for both) and with
`DistMultNSamples ≥ 2`, `multiply(other)` returns; the new lower and upper bounds are the
least and the greatest of the four corner products, the lower one strictly below the upper
one; every product of a point of the receiver's support and a point of the support of
`other` lies between them; the sample count is `DistMultNSamples`, and the grid has that
many points, the first being the lower bound, the last the upper bound, with equal gaps
`(ub - lb)/(DistMultNSamples - 1)`; the PDF table is aligned with it. -/
theorem multiply_distribution_bounds (k : Environment) (c : Constants)
    (d other : IDistribution) (hc : 2 ≤ c.DistMultNSamples) (hd : Ready d)
    (ho : Ready other) :
    ∃ d' other', (∀ fuel, multiplyDistribution k c (fuel + 2) d other = .ok (d', other')) ∧
      d'.m_lb = min (d.m_lb * other.m_lb) (min (d.m_lb * other.m_ub)
        (min (d.m_ub * other.m_lb) (d.m_ub * other.m_ub))) ∧
      d'.m_ub = max (d.m_lb * other.m_lb) (max (d.m_lb * other.m_ub)
        (max (d.m_ub * other.m_lb) (d.m_ub * other.m_ub))) ∧
      d'.m_lb < d'.m_ub ∧
      (∀ x y, d.m_lb ≤ x → x ≤ d.m_ub → other.m_lb ≤ y → y ≤ other.m_ub →
        d'.m_lb ≤ x * y ∧ x * y ≤ d'.m_ub) ∧
      d'.m_nSamples = c.DistMultNSamples ∧
      (d'.m_z.length : Int) = c.DistMultNSamples ∧
      nth d'.m_z 0 = d'.m_lb ∧ nth d'.m_z (d'.m_z.length - 1) = d'.m_ub ∧
      (∀ i, i + 1 < d'.m_z.length →
        nth d'.m_z (i + 1) - nth d'.m_z i =
          (d'.m_ub - d'.m_lb) / ((c.DistMultNSamples : ℚ) - 1)) ∧
      d'.m_pdf.length = d'.m_z.length := by
  obtain ⟨n, hn⟩ : ∃ n : Nat, c.DistMultNSamples = n := ⟨c.DistMultNSamples.toNat, by omega⟩
  have hn2 : 2 ≤ n := by omega
  obtain ⟨table, d1, o1, hl, ka, kb, heq⟩ := multiplyDistribution_eq k c d other n (by omega) hn
    hd ho
  have hlt := cornerMin_lt_cornerMax hd.1 ho.1
  obtain ⟨e1, e2, e3, e4, e5, e6, e7, e8⟩ := normalised_regridded d1 table
    (cornerMin d.m_lb d.m_ub other.m_lb other.m_ub)
    (cornerMax d.m_lb d.m_ub other.m_lb other.m_ub) n hn2 hl
  refine ⟨normalisedState (regridded d1 table (cornerMin d.m_lb d.m_ub other.m_lb other.m_ub)
    (cornerMax d.m_lb d.m_ub other.m_lb other.m_ub) n) n, o1, fun fuel => ?_, e1, e2, ?_, ?_,
    ?_, ?_, ?_, ?_, ?_, ?_⟩
  · rw [heq, calculateCDF_regridded fuel d1 table _ _ n hn2 hl hlt]
    rfl
  · rw [e1, e2]; exact hlt
  · intro x y h1 h2 h3 h4
    rw [e1, e2]
    exact corner_bounds h1 h2 h3 h4
  · rw [e3, hn]
  · rw [e4, hn]
  · rw [e5, e1]
  · rw [e4, e6, e2]
  · intro i hi
    rw [e4] at hi
    rw [e7 i hi, e1, e2, hn]
    simp only [Int.cast_natCast]
  · rw [e8, e4]

/-- Witness for C13: the uniform state on `[0, 1]` multiplied by a distribution on `[0, 1]`
with a grid and no density table, with `DistMultNSamples = 5`. -/
theorem multiply_distribution_bounds_witness :
    (2 : Int) ≤ sampleConstants.DistMultNSamples ∧ Ready uniformState ∧ Ready gridState ∧
    ∃ d' other', (∀ fuel, multiplyDistribution (specified true) sampleConstants (fuel + 2)
        uniformState gridState = .ok (d', other')) ∧
      d'.m_lb = min (uniformState.m_lb * gridState.m_lb) (min (uniformState.m_lb * gridState.m_ub)
        (min (uniformState.m_ub * gridState.m_lb) (uniformState.m_ub * gridState.m_ub))) ∧
      d'.m_ub = max (uniformState.m_lb * gridState.m_lb) (max (uniformState.m_lb * gridState.m_ub)
        (max (uniformState.m_ub * gridState.m_lb) (uniformState.m_ub * gridState.m_ub))) ∧
      d'.m_lb < d'.m_ub ∧
      (∀ x y, uniformState.m_lb ≤ x → x ≤ uniformState.m_ub → gridState.m_lb ≤ y →
        y ≤ gridState.m_ub → d'.m_lb ≤ x * y ∧ x * y ≤ d'.m_ub) ∧
      d'.m_nSamples = sampleConstants.DistMultNSamples ∧
      (d'.m_z.length : Int) = sampleConstants.DistMultNSamples ∧
      nth d'.m_z 0 = d'.m_lb ∧ nth d'.m_z (d'.m_z.length - 1) = d'.m_ub ∧
      (∀ i, i + 1 < d'.m_z.length →
        nth d'.m_z (i + 1) - nth d'.m_z i =
          (d'.m_ub - d'.m_lb) / ((sampleConstants.DistMultNSamples : ℚ) - 1)) ∧
      d'.m_pdf.length = d'.m_z.length :=
  ⟨by norm_num [sampleConstants], ready_uniformState, ready_gridState,
    multiply_distribution_bounds (specified true) sampleConstants uniformState gridState
      (by norm_num [sampleConstants]) ready_uniformState ready_gridState⟩

/-! ## Moments of the uniform density -/

/-- A loop that adds `g i` to an accumulator in round `i` returns the sum of the `g i`. -/
theorem sumLoop_eq (body : Nat → ℚ → Run ℚ) (g : Nat → ℚ) (m : Nat)
    (h : ∀ i acc, i < m → body i acc = .ok (acc + g i)) :
    forLoop body 0 m 0 = .ok (∑ i in Finset.range m, g i) := by
  obtain ⟨s, hs, hv⟩ := forLoop_inv body (fun j acc => acc = ∑ i in Finset.range j, g i) m 0 0
    (by simp)
    (by
      intro j t _ hj ht
      refine ⟨t + g j, h j t (by omega), ?_⟩
      show t + g j = ∑ i in Finset.range (j + 1), g i
      rw [Finset.sum_range_succ, ht])
  rw [hs, hv]
  simp

/-- The trapezoidal sum of `z * p` over the first `m` intervals of the grid `lb + i*h`, for
a constant density `p`. -/
theorem sum_first_moment (lb h p : ℚ) (m : Nat) :
    ∑ i in Finset.range m,
      (p * (lb + (i : ℚ) * h) + p * (lb + ((i + 1 : Nat) : ℚ) * h)) / 2 *
        ((lb + ((i + 1 : Nat) : ℚ) * h) - (lb + (i : ℚ) * h))
      = p * ((m : ℚ) * h) * (lb + (m : ℚ) * h / 2) := by
  induction m with
  | zero => simp
  | succ m ih =>
    rw [Finset.sum_range_succ, ih]
    push_cast
    ring

/-- The trapezoidal sum of `z^2 * p` over the first `m` intervals of the grid `lb + i*h`,
for a constant density `p`. -/
theorem sum_second_moment (lb h p : ℚ) (m : Nat) :
    ∑ i in Finset.range m,
      (p * (lb + (i : ℚ) * h) * (lb + (i : ℚ) * h) +
          p * (lb + ((i + 1 : Nat) : ℚ) * h) * (lb + ((i + 1 : Nat) : ℚ) * h)) / 2 *
        ((lb + ((i + 1 : Nat) : ℚ) * h) - (lb + (i : ℚ) * h))
      = p * ((m : ℚ) * h) *
          (lb ^ 2 + lb * ((m : ℚ) * h) + ((m : ℚ) * h) ^ 2 / 3 + h ^ 2 / 6) := by
  induction m with
  | zero => simp
  | succ m ih =>
    rw [Finset.sum_range_succ, ih]
    push_cast
    ring

/-- C14: on a distribution with `lowerBound < upperBound` whose grid holds the `n ≥ 2`
points `lb + i*h`, the last one being `ub`, and whose PDF table holds the uniform density
`1/(ub - lb)` at each of them, `mean()` returns `(lb + ub)/2` and `variance()` returns
`(ub - lb)^2/12 + h^2/6`, both leaving the state unchanged. -/
theorem uniform_mean_variance (d : IDistribution) (n : Nat) (h : ℚ)
    (hb : d.m_lb < d.m_ub) (hn : 2 ≤ n) (hN : d.m_nSamples = n) (hz : d.m_z.length = n)
    (hgrid : ∀ i, i < n → nth d.m_z i = d.m_lb + (i : ℚ) * h)
    (hlast : nth d.m_z (n - 1) = d.m_ub)
    (hp : d.m_pdf = List.replicate n (1 / (d.m_ub - d.m_lb))) :
    ∀ fuel, mean fuel d = .ok ((d.m_lb + d.m_ub) / 2, d) ∧
      variance fuel d = .ok ((d.m_ub - d.m_lb) ^ 2 / 12 + h ^ 2 / 6, d) := by
  have hR : d.m_ub - d.m_lb ≠ 0 := by linarith
  have hmh : ((n - 1 : Nat) : ℚ) * h = d.m_ub - d.m_lb := by
    have := hgrid (n - 1) (by omega)
    rw [hlast] at this
    linarith
  have hne : d.m_pdf.isEmpty = false := by
    rw [hp]
    exact isEmpty_eq_false_of_length (by simp; omega)
  have hcnt : ((n : Int) - 1).toNat = n - 1 := by omega
  have hpl : d.m_pdf.length = n := by rw [hp]; simp
  have hpv : ∀ i, i < n → nth d.m_pdf i = 1 / (d.m_ub - d.m_lb) := by
    intro i hi
    rw [hp, nth_replicate, if_pos hi]
  have hmean : ∀ fuel, mean fuel d = .ok ((d.m_lb + d.m_ub) / 2, d) := by
    intro fuel
    unfold mean
    simp only [hne, Bool.false_eq_true, if_false, pure_eq_ok, bind_ok, hN, hcnt]
    rw [sumLoop_eq (meanStep d.m_z d.m_pdf)
      (fun i => (1 / (d.m_ub - d.m_lb) * (d.m_lb + (i : ℚ) * h) +
        1 / (d.m_ub - d.m_lb) * (d.m_lb + ((i + 1 : Nat) : ℚ) * h)) / 2 *
        ((d.m_lb + ((i + 1 : Nat) : ℚ) * h) - (d.m_lb + (i : ℚ) * h))) (n - 1)
      (by
        intro i acc hi
        simp only [meanStep, read_ok (show i < d.m_pdf.length by omega),
          read_ok (show i < d.m_z.length by omega),
          read_ok (show i + 1 < d.m_pdf.length by omega),
          read_ok (show i + 1 < d.m_z.length by omega), bind_ok, pure_eq_ok,
          hpv i (by omega), hpv (i + 1) (by omega), hgrid i (by omega),
          hgrid (i + 1) (by omega)])]
    rw [sum_first_moment, hmh]
    simp only [bind_ok]
    congr 2
    field_simp
    ring
  intro fuel
  refine ⟨hmean fuel, ?_⟩
  unfold variance
  simp only [hmean fuel, bind_ok, hN, hcnt]
  rw [sumLoop_eq (varianceStep d.m_z d.m_pdf)
    (fun i => (1 / (d.m_ub - d.m_lb) * (d.m_lb + (i : ℚ) * h) * (d.m_lb + (i : ℚ) * h) +
      1 / (d.m_ub - d.m_lb) * (d.m_lb + ((i + 1 : Nat) : ℚ) * h) *
        (d.m_lb + ((i + 1 : Nat) : ℚ) * h)) / 2 *
      ((d.m_lb + ((i + 1 : Nat) : ℚ) * h) - (d.m_lb + (i : ℚ) * h))) (n - 1)
    (by
      intro i acc hi
      simp only [varianceStep, read_ok (show i < d.m_pdf.length by omega),
        read_ok (show i < d.m_z.length by omega),
        read_ok (show i + 1 < d.m_pdf.length by omega),
        read_ok (show i + 1 < d.m_z.length by omega), bind_ok, pure_eq_ok,
        hpv i (by omega), hpv (i + 1) (by omega), hgrid i (by omega),
        hgrid (i + 1) (by omega)])]
  rw [sum_second_moment, hmh]
  simp only [bind_ok, pure_eq_ok]
  congr 2
  field_simp
  ring

/-- Witness for C14: the uniform density on `[0, 10]` with spacing `h = 5`: the mean is `5`
and the variance exceeds `100/12` by `5^2/6`. -/
theorem uniform_mean_variance_witness :
    tenState.m_lb < tenState.m_ub ∧
    ∀ fuel, mean fuel tenState = .ok (5, tenState) ∧
      variance fuel tenState = .ok (100 / 12 + 5 ^ 2 / 6, tenState) := by
  refine ⟨by norm_num [tenState], fun fuel => ?_⟩
  have h := uniform_mean_variance tenState 3 5 (by norm_num [tenState]) (by norm_num)
    (by simp [tenState]) (by simp [tenState])
    (by
      intro i hi
      interval_cases i <;> norm_num [tenState, nth])
    (by norm_num [tenState, nth]) (by norm_num [tenState]; rfl) fuel
  have e1 : (tenState.m_lb + tenState.m_ub) / 2 = 5 := by norm_num [tenState]
  have e2 : (tenState.m_ub - tenState.m_lb) ^ 2 / 12 + (5 : ℚ) ^ 2 / 6 = 100 / 12 + 5 ^ 2 / 6 := by
    norm_num [tenState]
  rw [e1, e2] at h
  exact h

/-! ## The triangular density of the linear variant -/

theorem peak_mul_div (r x : ℚ) : 2 / r * x / r = 2 * x / r ^ 2 := by
  rw [div_mul_eq_mul_div, div_div, sq]

/-- `LinearDistribution::generatePDF` on a populated grid tabulates the triangular density. -/
theorem generatePDFLinear_eq (d : IDistribution) (n : Nat) (hn : 1 ≤ n)
    (hN : d.m_nSamples = n) (hz : d.m_z.length = n) :
    generatePDFLinear d = .ok { d with
      m_pdf := (List.range n).map
        (fun i => triangularDensity d.m_lb d.m_ub d.m_ascend (nth d.m_z i)) } := by
  unfold generatePDFLinear
  have he : d.m_z.isEmpty = false := isEmpty_eq_false_of_length (by omega)
  simp only [he, Bool.false_eq_true, if_false, pure_eq_ok, bind_ok, hN, create_eq,
    Int.toNat_ofNat]
  cases hasc : d.m_ascend
  · have h := tabulateLoop_eq d.m_z (fun i => i)
      (fun zi => 2 / (d.m_ub - d.m_lb) * (d.m_ub - zi) / (d.m_ub - d.m_lb)) n
      (List.replicate n 0) (by simp) (by intro i hi; show i < d.m_z.length; omega)
    beta_reduce at h
    simp only [Bool.false_eq_true, if_false, h, bind_ok]
    congr 2
    apply List.map_congr_left
    intro i _
    simp only [triangularDensity, Bool.false_eq_true, if_false]
    exact peak_mul_div _ _
  · have h := tabulateLoop_eq d.m_z (fun i => i)
      (fun zi => 2 / (d.m_ub - d.m_lb) * (zi - d.m_lb) / (d.m_ub - d.m_lb)) n
      (List.replicate n 0) (by simp) (by intro i hi; show i < d.m_z.length; omega)
    beta_reduce at h
    simp only [if_true, h, bind_ok]
    congr 2
    apply List.map_congr_left
    intro i _
    simp only [triangularDensity, if_true]
    exact peak_mul_div _ _

/-- The trapezoidal rule is exact on a table that is an affine function of the grid. -/
theorem trapz_affine (z p : List ℚ) (a b : ℚ) (k : Nat)
    (h : ∀ i, i ≤ k → nth p i = a * nth z i + b) :
    trapz z p k = a / 2 * (nth z k ^ 2 - nth z 0 ^ 2) + b * (nth z k - nth z 0) := by
  induction k with
  | zero => simp [trapz]
  | succ k ih =>
    simp only [trapz]
    rw [ih (fun i hi => h i (by omega)), h k (by omega), h (k + 1) le_rfl]
    ring

/-- C15: on a linear distribution with `lowerBound < upperBound` whose grid of `n` points is
strictly increasing from `lb` to `ub` (equally spaced or not), `generatePDF()` returns and
changes the PDF table only; the table is aligned with the grid, with
`pdf[i] = 2*(z[i]-lb)/(ub-lb)^2` when ascending and `pdf[i] = 2*(ub-z[i])/(ub-lb)^2` when
descending; every entry is non-negative; the value is `0` at one end of the grid and
`2/(ub-lb)` at the other; and the trapezoidal integral of the table over the grid is `1`. -/
theorem linear_generatePDF (d : IDistribution) (n : Nat) (ht : d.m_type = .LinearDistType)
    (hb : d.m_lb < d.m_ub) (hn : 1 ≤ n) (hN : d.m_nSamples = n) (hz : d.m_z.length = n)
    (hs : d.m_z.Sorted (· < ·)) (hfirst : nth d.m_z 0 = d.m_lb)
    (hlast : nth d.m_z (n - 1) = d.m_ub) :
    ∃ p, generatePDF d = .ok { d with m_pdf := p } ∧ p.length = n ∧
      (∀ i, i < n → nth p i =
        if d.m_ascend then 2 * (nth d.m_z i - d.m_lb) / (d.m_ub - d.m_lb) ^ 2
        else 2 * (d.m_ub - nth d.m_z i) / (d.m_ub - d.m_lb) ^ 2) ∧
      (∀ x ∈ p, 0 ≤ x) ∧
      (d.m_ascend = true → nth p 0 = 0 ∧ nth p (n - 1) = 2 / (d.m_ub - d.m_lb)) ∧
      (d.m_ascend = false → nth p 0 = 2 / (d.m_ub - d.m_lb) ∧ nth p (n - 1) = 0) ∧
      integral d.m_z p = 1 := by
  have hR : 0 < d.m_ub - d.m_lb := by linarith
  have hR0 : d.m_ub - d.m_lb ≠ 0 := ne_of_gt hR
  have hval : ∀ i, i < n →
      nth ((List.range n).map
        (fun i => triangularDensity d.m_lb d.m_ub d.m_ascend (nth d.m_z i))) i =
        triangularDensity d.m_lb d.m_ub d.m_ascend (nth d.m_z i) := by
    intro i hi
    rw [nth_map_range, if_pos hi]
  have hin : ∀ i, i < n → d.m_lb ≤ nth d.m_z i ∧ nth d.m_z i ≤ d.m_ub := by
    intro i hi
    constructor
    · rw [← hfirst]; exact nth_le_of_sorted hs (Nat.zero_le i) (by omega)
    · rw [← hlast]; exact nth_le_of_sorted hs (by omega) (by omega)
  refine ⟨(List.range n).map
    (fun i => triangularDensity d.m_lb d.m_ub d.m_ascend (nth d.m_z i)), ?_, by simp,
    ?_, ?_, ?_, ?_, ?_⟩
  · have h := generatePDFLinear_eq d n hn hN hz
    unfold generatePDF
    split
    next h0 => rw [ht] at h0; cases h0
    next => exact h
  · intro i hi
    rw [hval i hi]
    rfl
  · intro x hx
    obtain ⟨i, hi, rfl⟩ := exists_nth_of_mem hx
    simp only [List.length_map, List.length_range] at hi
    rw [hval i hi]
    obtain ⟨h1, h2⟩ := hin i hi
    unfold triangularDensity
    split
    · exact div_nonneg (by linarith) (sq_nonneg _)
    · exact div_nonneg (by linarith) (sq_nonneg _)
  · intro ha
    rw [hval 0 (by omega), hval (n - 1) (by omega), hfirst, hlast]
    simp only [triangularDensity, ha, if_true, sub_self, mul_zero, zero_div, true_and]
    field_simp
    ring
  · intro ha
    rw [hval 0 (by omega), hval (n - 1) (by omega), hfirst, hlast]
    simp only [triangularDensity, ha, Bool.false_eq_true, if_false, sub_self, mul_zero,
      zero_div, and_true]
    field_simp
    ring
  · unfold integral
    rw [hz]
    cases ha : d.m_ascend
    · rw [trapz_affine d.m_z _ (-2 / (d.m_ub - d.m_lb) ^ 2)
        (2 * d.m_ub / (d.m_ub - d.m_lb) ^ 2) (n - 1)
        (by
          intro i hi
          rw [nth_map_range, if_pos (by omega)]
          simp only [triangularDensity, Bool.false_eq_true, if_false]
          field_simp
          ring), hfirst, hlast]
      field_simp
      ring
    · rw [trapz_affine d.m_z _ (2 / (d.m_ub - d.m_lb) ^ 2)
        (-2 * d.m_lb / (d.m_ub - d.m_lb) ^ 2) (n - 1)
        (by
          intro i hi
          rw [nth_map_range, if_pos (by omega)]
          simp only [triangularDensity, if_true]
          field_simp
          ring), hfirst, hlast]
      field_simp
      ring

/-- Witness for C15: ascending on `[0, 1]` over the grid `0, 1/4, 1`: the density is `0` at
`z = 0` and `2` at `z = 1`, and integrates to `1`. -/
theorem linear_generatePDF_witness :
    ∃ p, generatePDF linearState = .ok { linearState with m_pdf := p } ∧ p.length = 3 ∧
      (∀ i, i < 3 → nth p i =
        if linearState.m_ascend
        then 2 * (nth linearState.m_z i - linearState.m_lb) /
          (linearState.m_ub - linearState.m_lb) ^ 2
        else 2 * (linearState.m_ub - nth linearState.m_z i) /
          (linearState.m_ub - linearState.m_lb) ^ 2) ∧
      (∀ x ∈ p, 0 ≤ x) ∧
      (linearState.m_ascend = true →
        nth p 0 = 0 ∧ nth p (3 - 1) = 2 / (linearState.m_ub - linearState.m_lb)) ∧
      (linearState.m_ascend = false →
        nth p 0 = 2 / (linearState.m_ub - linearState.m_lb) ∧ nth p (3 - 1) = 0) ∧
      integral linearState.m_z p = 1 :=
  linear_generatePDF linearState 3 rfl (by norm_num [linearState]) (by norm_num) rfl rfl
    (by norm_num [linearState]) (by norm_num [linearState, nth])
    (by norm_num [linearState, nth])

/-! ## Sampling from the linear variant -/

theorem le_one_of_mul_self_le_one {K : Type} [LinearOrderedField K] {s : K} (h0 : 0 ≤ s)
    (h1 : s * s ≤ 1) : s ≤ 1 := by
  by_contra h
  have : 1 < s := not_le.mp h
  nlinarith

/-- C16: over an ordered field holding the bounds, for a draw `r` in `(0, 1)` of which
`sqrt` returns the non-negative square roots of `r` and of `1 - r`, and
`lowerBound < upperBound`: `sample` returns `lb + sqrt(r)*(ub-lb)` when ascending and
`ub - sqrt(1-r)*(ub-lb)` when descending; the result lies in `[lb, ub]`; the cumulative
distribution function of the triangular density takes the value `r` at the result; and for
ascending, bounds `[0, 1]` and `r = 1/4` the result is `1/2`. -/
theorem linear_sample_inverse {K : Type} [LinearOrderedField K] (sqrt : K → K)
    (d : IDistribution) (r : K) (hb : d.m_lb < d.m_ub) (hr0 : 0 < r) (hr1 : r < 1)
    (hs : 0 ≤ sqrt r ∧ sqrt r * sqrt r = r)
    (hs' : 0 ≤ sqrt (1 - r) ∧ sqrt (1 - r) * sqrt (1 - r) = 1 - r) :
    (d.m_ascend = true → LinearDistribution.sample sqrt d r
      = (d.m_lb : K) + sqrt r * ((d.m_ub : K) - (d.m_lb : K))) ∧
    (d.m_ascend = false → LinearDistribution.sample sqrt d r
      = (d.m_ub : K) - sqrt (1 - r) * ((d.m_ub : K) - (d.m_lb : K))) ∧
    (d.m_lb : K) ≤ LinearDistribution.sample sqrt d r ∧
    LinearDistribution.sample sqrt d r ≤ (d.m_ub : K) ∧
    triangularCDF (d.m_lb : K) (d.m_ub : K) d.m_ascend (LinearDistribution.sample sqrt d r) = r ∧
    (d.m_ascend = true → d.m_lb = 0 → d.m_ub = 1 → r = 1 / 4 →
      LinearDistribution.sample sqrt d r = 1 / 2) := by
  have hlt : (d.m_lb : K) < (d.m_ub : K) := Rat.cast_lt.mpr hb
  have hR : 0 < (d.m_ub : K) - (d.m_lb : K) := by linarith
  have hR0 : (d.m_ub : K) - (d.m_lb : K) ≠ 0 := ne_of_gt hR
  obtain ⟨s0, s2⟩ := hs
  obtain ⟨t0, t2⟩ := hs'
  have s1 : sqrt r ≤ 1 := le_one_of_mul_self_le_one s0 (by rw [s2]; exact le_of_lt hr1)
  have t1 : sqrt (1 - r) ≤ 1 :=
    le_one_of_mul_self_le_one t0 (by rw [t2]; linarith)
  refine ⟨fun ha => by simp [LinearDistribution.sample, ha],
    fun ha => by simp [LinearDistribution.sample, ha], ?_, ?_, ?_, ?_⟩
  · unfold LinearDistribution.sample
    split
    · nlinarith [mul_nonneg s0 (le_of_lt hR)]
    · nlinarith [mul_le_mul_of_nonneg_right t1 (le_of_lt hR)]
  · unfold LinearDistribution.sample
    split
    · nlinarith [mul_le_mul_of_nonneg_right s1 (le_of_lt hR)]
    · nlinarith [mul_nonneg t0 (le_of_lt hR)]
  · unfold LinearDistribution.sample triangularCDF
    cases d.m_ascend
    · simp only [Bool.false_eq_true, if_false]
      have : ((d.m_ub : K) - ((d.m_ub : K) - sqrt (1 - r) * ((d.m_ub : K) - (d.m_lb : K)))) /
          ((d.m_ub : K) - (d.m_lb : K)) = sqrt (1 - r) := by
        field_simp
      rw [this, sq, t2]
      ring
    · simp only [if_true]
      have : ((d.m_lb : K) + sqrt r * ((d.m_ub : K) - (d.m_lb : K)) - (d.m_lb : K)) /
          ((d.m_ub : K) - (d.m_lb : K)) = sqrt r := by
        field_simp
      rw [this, sq, s2]
  · intro ha hl hu hq
    have hh : (sqrt r - 1 / 2) * (sqrt r + 1 / 2) = 0 := by
      have : sqrt r * sqrt r = 1 / 4 := by rw [s2, hq]
      linear_combination this
    have hroot : sqrt r = 1 / 2 := by
      rcases mul_eq_zero.mp hh with h | h
      · linarith
      · linarith
    simp [LinearDistribution.sample, ha, hl, hu, hroot]

/-- Witness for C16: over the real numbers with the real square root, ascending on `[0, 1]`
with the draw `r = 1/4`: the sample is `1/2`. -/
theorem linear_sample_inverse_witness :
    linearState.m_lb < linearState.m_ub ∧
    LinearDistribution.sample Real.sqrt linearState (1 / 4 : ℝ) = 1 / 2 :=
  ⟨by norm_num [linearState],
    (linear_sample_inverse Real.sqrt linearState (1 / 4 : ℝ) (by norm_num [linearState])
      (by norm_num) (by norm_num)
      ⟨Real.sqrt_nonneg _, Real.mul_self_sqrt (by norm_num)⟩
      ⟨Real.sqrt_nonneg _, Real.mul_self_sqrt (by norm_num)⟩).2.2.2.2.2 rfl rfl rfl rfl⟩

/-! ## `defineResolution` -/

theorem removeRepeated_constant (z : List ℚ) (v : ℚ) (hne : z ≠ []) (hall : ∀ x ∈ z, x = v) :
    removeRepeated (z.insertionSort (· ≤ ·)) = [v] := by
  rw [removeRepeated_sort]
  have : z.toFinset = {v} := by
    ext x
    simp only [List.mem_toFinset, Finset.mem_singleton]
    constructor
    · exact hall x
    · rintro rfl
      obtain ⟨y, hy⟩ := List.exists_mem_of_ne_nil z hne
      rw [← hall y hy]; exact hy
  rw [this, Finset.sort_singleton]

/-- C18 (divergence): on the empty sequence `defineZ` faults, reading `z[0]` of an empty
vector, whatever the state.  On a sequence whose values all equal `v`, with
`DistMinInterval > 0` and a state whose PDF table does not have exactly one entry, it
returns: the grid and the PDF table are emptied, the sample count is `0` and the state is
the one `defineBoundaries(v, v)` produces from there, with `lowerBound < upperBound`. -/
theorem defineZ_empty_faults :
    (∀ (c : Constants) (fuel : Nat) (d : IDistribution),
      defineZ c fuel d [] = .error .outOfRange) ∧
    (∀ (c : Constants) (fuel : Nat) (d : IDistribution) (z : List ℚ) (v : ℚ),
      0 < c.DistMinInterval → z ≠ [] → (∀ x ∈ z, x = v) → d.m_pdf.length ≠ 1 →
      ∃ d', defineZ c fuel d z = .ok d' ∧
        defineBoundaries c fuel { d with m_pdf := [], m_z := [], m_nSamples := 0 } v v = .ok d' ∧
        d'.m_z = [] ∧ d'.m_pdf = [] ∧ d'.m_nSamples = 0 ∧ d'.m_lb < d'.m_ub ∧
        BoundsAsSpecified c v v d') := by
  refine ⟨fun c fuel d => ?_, fun c fuel d z v hc hne hall hp => ?_⟩
  · simp [defineZ, removeRepeated, QVector.read]
  · have hb := defineBoundaries_eq c fuel { d with m_pdf := [], m_z := [], m_nSamples := 0 }
      v v (Or.inl rfl)
    simp only [List.isEmpty_nil, if_true] at hb
    have hspec := widened_spec c v v
      (rescaled c { d with m_pdf := [], m_z := [], m_nSamples := 0 } v v) hc
      (rescaled_bounds c _ v v).1 (rescaled_bounds c _ v v).2
    refine ⟨rescaled c { d with m_pdf := [], m_z := [], m_nSamples := 0 } v v, ?_, hb,
      by simp [rescaled], by simp [rescaled], by simp [rescaled], hspec.1, hspec⟩
    unfold defineZ
    simp only [removeRepeated_constant z v hne hall, List.length_singleton, ne_eq, hp,
      not_false_eq_true, if_true, ge_iff_le, Nat.not_ofNat_le_one, if_false, QVector.read,
      List.getElem?_cons_zero, bind_ok]
    exact hb

/-! ## What the combinators leave of their operand -/

/-- A query `pdf(z)` at a point of the support leaves a populated grid. -/
theorem pdfAt_populates (k : Environment) (d : IDistribution) (z : ℚ) (h : Ready d)
    (hlo : d.m_lb ≤ z) (hhi : z ≤ d.m_ub) :
    ∀ p d', pdfAt k d z = .ok (p, d') → d'.m_z ≠ [] := by
  intro p d' hq
  unfold pdfAt at hq
  simp only [ite_bind] at hq
  obtain ⟨d1, h1, hq⟩ := bind_eq_ok hq
  have hpdf : pdf d = .ok d1 := by
    unfold pdf
    exact h1
  obtain ⟨e1, g1, r1, ⟨-, l1, u1⟩, -, -⟩ := pdf_of_ready d h
  rw [hpdf] at g1
  cases g1
  have hin : ¬ ((decide (z < d1.m_lb) || decide (z > d1.m_ub)) = true) := by
    rw [l1, u1]
    simp only [Bool.or_eq_true, decide_eq_true_eq, not_or, not_lt]
    exact ⟨hlo, hhi⟩
  rw [if_neg hin] at hq
  split at hq
  · obtain ⟨d2, h2, hq⟩ := bind_eq_ok hq
    obtain ⟨d3, h3, hq⟩ := bind_eq_ok hq
    simp only [pure_eq_ok, Except.ok.injEq, Prod.mk.injEq] at hq
    obtain ⟨-, rfl⟩ := hq
    obtain ⟨e2, g2, r2, -, hne2, -⟩ := zSamples_of_ready d1 r1
    rw [h2] at g2
    cases g2
    obtain ⟨e3, g3, -, -, f3, -⟩ := pdf_of_ready d2 r2
    rw [h3] at g3
    cases g3
    exact (f3 hne2).grid_ne_nil
  · obtain ⟨d2, h2, hq⟩ := bind_eq_ok hq
    obtain ⟨d3, h3, hq⟩ := bind_eq_ok hq
    simp only [pure_eq_ok, Except.ok.injEq, Prod.mk.injEq] at hq
    obtain ⟨-, rfl⟩ := hq
    obtain ⟨e2, g2, r2, -, -, -⟩ := pdf_of_ready d1 r1
    rw [h2] at g2
    cases g2
    obtain ⟨e3, g3, -, -, hne3, -⟩ := zSamples_of_ready d2 r2
    rw [h3] at g3
    cases g3
    exact hne3

/-- The resampling loops of `add(other)` on a ready state return a vector of the requested
length and keep the state up to lazily generated tables; when the last sampling point lies on
the support, the grid is populated afterwards. -/
theorem resample_kept (k : Environment) (d : IDistribution) (m : Nat) (hm : 1 ≤ m)
    (lb dz ub : ℚ) (h : Ready d) :
    ∃ v d', resample k d (m : Int) lb dz ub = .ok (v, d') ∧ v.length = m ∧ Kept d d' ∧
      (d.m_lb ≤ ub → ub ≤ d.m_ub → d'.m_z ≠ []) := by
  unfold resample
  have hcnt : ((m : Int) - 1).toNat = m - 1 := by omega
  simp only [create_eq, bind_ok, hcnt]
  obtain ⟨s, hs, hl, hk⟩ := forLoop_inv
    (fun i (s : List ℚ × ℚ × IDistribution) => do
      let (p, d') ← pdfAt k s.2.2 s.2.1
      let v ← QVector.write s.1 i p
      pure (v, s.2.1 + dz, d'))
    (fun _ (s : List ℚ × ℚ × IDistribution) => s.1.length = m ∧ Kept d s.2.2)
    (m - 1) 0 (List.replicate m 0, lb, d) ⟨by simp, kept_refl h⟩
    (by
      rintro j ⟨v, zz, s⟩ - hj ⟨hl, hk⟩
      simp only at hl hk
      obtain ⟨p, s', hq, hk'⟩ := pdfAt_kept k zz hk
      have h1 : j < v.length := by omega
      exact ⟨(v.set j p, zz + dz, s'), by simp only [hq, bind_ok, write_ok h1, pure_eq_ok],
        by simpa using hl, hk'⟩)
  simp only [hs, bind_ok]
  obtain ⟨v, zz, s⟩ := s
  simp only at hl hk ⊢
  obtain ⟨p, s', hq, hk'⟩ := pdfAt_kept k ub hk
  have h1 : m - 1 < v.length := by omega
  refine ⟨v.set (m - 1) p, s', by simp only [hq, bind_ok, write_ok h1, pure_eq_ok],
    by simpa using hl, hk', fun hlo hhi => ?_⟩
  have hb := kept_frame hk
  exact pdfAt_populates k s ub hk.2.1 (by rw [hb.2.2.1]; exact hlo)
    (by rw [hb.2.2.2.1]; exact hhi) p s' hq

/-- `add(other)` on ready operands returns, and leaves of `other` what the queries `pdf(z)`
keep, with a populated grid. -/
theorem addDistribution_kept (k : Environment) (c : Constants) (d other : IDistribution)
    (hconv : ∀ a b, (k.conv a b).length = a.length + b.length - 1)
    (hN : 1 ≤ c.DistConvNSamples) (hd : Ready d) (ho : Ready other) :
    ∃ d' o', (∀ fuel, addDistribution k c (fuel + 2) d other = .ok (d', o')) ∧
      Kept other o' ∧ o'.m_z ≠ [] := by
  have hstep := convStep_pos c d other hN hd.1
  have pT := sampleCount_pos (r := d.m_ub - d.m_lb) (by linarith [hd.1]) hstep
  have pO := sampleCount_pos (r := other.m_ub - other.m_lb) (by linarith [ho.1]) hstep
  have p2 := sampleCount_max c d other hN hd.1 ho.1
  obtain ⟨mT, hT⟩ : ∃ mT : Nat, sampleCount (d.m_ub - d.m_lb) (convStep c d other) = mT :=
    ⟨(sampleCount (d.m_ub - d.m_lb) (convStep c d other)).toNat, by omega⟩
  obtain ⟨mO, hO⟩ : ∃ mO : Nat,
      sampleCount (other.m_ub - other.m_lb) (convStep c d other) = mO :=
    ⟨(sampleCount (other.m_ub - other.m_lb) (convStep c d other)).toNat, by omega⟩
  obtain ⟨pdfT, pdfO, dT, oT, -, h2, hl1, hl2, hadd, l1, u1⟩ :=
    addDistribution_eq k c d other hN hd ho mT mO hT hO
  obtain ⟨v, o', h2', -, hk, hne⟩ := resample_kept k other mO (by omega) other.m_lb
    ((other.m_ub - other.m_lb) / ((mO : ℚ) - 1)) other.m_ub ho
  rw [h2] at h2'
  simp only [Except.ok.injEq, Prod.mk.injEq] at h2'
  obtain ⟨-, rfl⟩ := h2'
  have hlt : dT.m_lb + other.m_lb < dT.m_ub + other.m_ub := by
    rw [l1, u1]
    linarith [hd.1, ho.1]
  have hcl : (k.conv pdfT pdfO).length = mT + mO - 1 := by
    rw [hconv, hl1, hl2]
  refine ⟨normalisedState (regridded dT (k.conv pdfT pdfO) (dT.m_lb + other.m_lb)
    (dT.m_ub + other.m_ub) (mT + mO - 1)) (mT + mO - 1), oT, fun fuel => ?_, hk,
    hne (le_of_lt ho.1) le_rfl⟩
  rw [hadd]
  have e : convolved dT other (k.conv pdfT pdfO) (mT + mO - 1) =
      regridded dT (k.conv pdfT pdfO) (dT.m_lb + other.m_lb) (dT.m_ub + other.m_ub)
        (mT + mO - 1) := rfl
  rw [e, calculateCDF_regridded fuel dT _ _ _ _ (by omega) hcl hlt]
  rfl

/-- `negate` on a state that is ready and well formed returns a ready state. -/
theorem negate_ready (d : IDistribution) (hr : Ready d) (hw : WellFormed d) :
    ∃ d', (∀ fuel, negate (fuel + 2) d = .ok d') ∧ Ready d' := by
  obtain ⟨hb, hcase⟩ := hr
  have hb' : -d.m_ub < -d.m_lb := by linarith
  rcases hcase with ⟨hz, hp, hN, hdz⟩ | ⟨hN, hn, hp⟩
  · refine ⟨{ d with m_ub := -d.m_lb, m_lb := -d.m_ub }, fun fuel => ?_,
      ⟨hb', Or.inl ⟨hz, hp, hN, hdz⟩⟩⟩
    unfold negate
    simp only [hz, List.isEmpty_nil, if_true, pure_eq_ok]
  · have hN' : d.m_nSamples = (d.m_z.length : Int) := hN.symm
    rcases hp with hp | hp
    · refine ⟨{ d with m_ub := -d.m_lb, m_lb := -d.m_ub, m_z := negatedGrid d.m_z },
        fun fuel => ?_, ⟨hb', Or.inr ⟨by simpa [negatedGrid] using hN,
          by simpa [negatedGrid] using hn, Or.inl hp⟩⟩⟩
      unfold negate
      have he : d.m_z.isEmpty = false := isEmpty_eq_false_of_length hn
      have h1 := tabulateLoop_eq d.m_z (fun i => d.m_z.length - 1 - i) (fun x => -x)
        d.m_z.length (List.replicate d.m_z.length 0) (by simp)
        (by intro i hi; show d.m_z.length - 1 - i < d.m_z.length; omega)
      beta_reduce at h1
      simp only [he, hN', Int.toNat_ofNat, create_eq, Bool.false_eq_true, if_false, bind_ok,
        h1, hp, List.isEmpty_nil, if_true, pure_eq_ok, negatedGrid]
    · obtain ⟨-, hz, -⟩ := hw
      have hs : 2 ≤ d.m_z.length ∧ d.m_z.Sorted (· < ·) := by
        rcases hz with h0 | ⟨-, h2, h3⟩
        · rw [h0] at hn; simp at hn
        · exact ⟨h2, h3⟩
      have hsn := sorted_negatedGrid hs.2
      have hln : (negatedGrid d.m_z).length = d.m_z.length := by simp [negatedGrid]
      have hlp : (reversedTable d.m_pdf).length = d.m_z.length := by
        simp [reversedTable, hp]
      obtain ⟨-, -, f3, f4, f5, f6, -, -⟩ := normalisedState_frame (negated d) d.m_z.length
      have f9 := normalisedState_pdf_length (negated d) d.m_z.length hlp
      refine ⟨normalisedState (negated d) d.m_z.length, fun fuel => ?_, ?_⟩
      · rw [negate_eq _ d d.m_z.length hn hN' rfl hp]
        apply calculateCDF_eq fuel (negated d) d.m_z.length hs.1 hN'
          (le_of_eq hln.symm) hlp
        · exact ne_of_lt (nth_lt_of_sorted hsn (by omega) (by rw [hln]; omega))
        · exact ne_of_lt hb'
      · refine ⟨by rw [f3, f4]; exact hb', Or.inr ⟨?_, ?_, Or.inr ?_⟩⟩
        · rw [f5, f6]
          simpa [negated, negatedGrid] using hN
        · rw [f5]
          simpa [negated, negatedGrid] using hn
        · rw [f9, f5]
          simp [negated, negatedGrid]

/-- `subtract(other)` on ready operands returns and hands `other` back as it was. -/
theorem subtractDistribution_returns (k : Environment) (c : Constants)
    (d other : IDistribution)
    (hconv : ∀ a b, (k.conv a b).length = a.length + b.length - 1)
    (hN : 1 ≤ c.DistConvNSamples) (hd : Ready d) (ho : Ready other)
    (hwo : WellFormed other) :
    ∃ d', ∀ fuel, subtractDistribution k c (fuel + 2) d other = .ok (d', other) := by
  obtain ⟨mo, hneg, hmo⟩ := negate_ready other ho hwo
  obtain ⟨d', o', hadd, -, -⟩ := addDistribution_kept k c d mo hconv hN hd hmo
  refine ⟨d', fun fuel => ?_⟩
  unfold subtractDistribution
  simp only [hneg fuel, bind_ok, hadd fuel, pure_eq_ok]

/-- `multiply(other)` on ready operands returns, and leaves of `other` what the queries
`pdf(z)` keep. -/
theorem multiplyDistribution_kept (k : Environment) (c : Constants) (d other : IDistribution)
    (hM : 2 ≤ c.DistMultNSamples) (hd : Ready d) (ho : Ready other) :
    ∃ d' o', (∀ fuel, multiplyDistribution k c (fuel + 2) d other = .ok (d', o')) ∧
      Kept other o' := by
  obtain ⟨n, hn⟩ : ∃ n : Nat, c.DistMultNSamples = n := ⟨c.DistMultNSamples.toNat, by omega⟩
  obtain ⟨table, d1, o1, hl, -, kb, heq⟩ := multiplyDistribution_eq k c d other n (by omega) hn
    hd ho
  refine ⟨normalisedState (regridded d1 table (cornerMin d.m_lb d.m_ub other.m_lb other.m_ub)
    (cornerMax d.m_lb d.m_ub other.m_lb other.m_ub) n) n, o1, fun fuel => ?_, kb⟩
  rw [heq, calculateCDF_regridded fuel d1 table _ _ n (by omega) hl
    (cornerMin_lt_cornerMax hd.1 ho.1)]
  rfl

theorem quotientStep_inv (k : Environment) (lbT ubT : ℚ) (z zO : List ℚ) (i j : Nat)
    (d other : IDistribution) (n : Nat) (hi : i < n) (hj : j < n) (hz : z.length = n)
    (hzO : zO.length = n)
    (s : List ℚ × IDistribution × IDistribution) (hs : QuadratureInv d other n s) :
    ∃ s', quotientStep k lbT ubT z zO i j s = .ok s' ∧ QuadratureInv d other n s' := by
  obtain ⟨v, a, b⟩ := s
  obtain ⟨hl, ka, kb⟩ := hs
  simp only at hl ka kb
  unfold quotientStep
  simp only [read_ok (show j < zO.length by omega), read_ok (show i < z.length by omega),
    bind_ok]
  split
  · obtain ⟨q, b', hb, kb'⟩ := pdfAt_kept k (nth zO j) kb
    obtain ⟨p, a', ha, ka'⟩ := pdfAt_kept k (nth z i * nth zO j) ka
    have h1 : i < v.length := by omega
    simp only [ha, hb, bind_ok, read_ok h1, write_ok h1, pure_eq_ok]
    exact ⟨_, rfl, by simpa using hl, ka', kb'⟩
  · exact ⟨_, rfl, hl, ka, kb⟩

theorem quotientRow_inv (k : Environment) (lbT ubT dzO : ℚ) (z zO : List ℚ) (i : Nat)
    (d other : IDistribution) (n : Nat) (hi : i < n) (hz : z.length = n)
    (hzO : zO.length = n)
    (s : List ℚ × IDistribution × IDistribution) (hs : QuadratureInv d other n s) :
    ∃ s', quotientRow k lbT ubT dzO z zO n i s = .ok s' ∧ QuadratureInv d other n s' := by
  obtain ⟨t, ht, hl, ka, kb⟩ := forLoop_inv (quotientStep k lbT ubT z zO i)
    (fun _ s => QuadratureInv d other n s) n 0 s hs
    (fun j t _ hj ht => quotientStep_inv k lbT ubT z zO i j d other n hi (by omega) hz hzO
      t ht)
  have h1 : i < t.1.length := by omega
  unfold quotientRow
  simp only [ht, bind_ok, read_ok h1, write_ok h1, pure_eq_ok]
  exact ⟨_, rfl, by simpa using hl, ka, kb⟩

/-- The least of the four corner quotients of two proper supports, the second without zero
bounds, is strictly below the greatest. -/
theorem quotient_corners_lt {a b c d : ℚ} (hab : a < b) (hc : c ≠ 0) (hd : d ≠ 0)
    (hcd : c ≠ d) :
    min (a / c) (min (a / d) (min (b / c) (b / d))) <
      max (a / c) (max (a / d) (max (b / c) (b / d))) := by
  by_contra hne
  have hle := not_lt.mp hne
  have l1 : min (a / c) (min (a / d) (min (b / c) (b / d))) ≤ a / c := min_le_left _ _
  have l2 : min (a / c) (min (a / d) (min (b / c) (b / d))) ≤ a / d :=
    le_trans (min_le_right _ _) (min_le_left _ _)
  have l3 : min (a / c) (min (a / d) (min (b / c) (b / d))) ≤ b / c :=
    le_trans (min_le_right _ _) (le_trans (min_le_right _ _) (min_le_left _ _))
  have l4 : min (a / c) (min (a / d) (min (b / c) (b / d))) ≤ b / d :=
    le_trans (min_le_right _ _) (le_trans (min_le_right _ _) (min_le_right _ _))
  have u1 : a / c ≤ max (a / c) (max (a / d) (max (b / c) (b / d))) := le_max_left _ _
  have u2 : a / d ≤ max (a / c) (max (a / d) (max (b / c) (b / d))) :=
    le_trans (le_max_left _ _) (le_max_right _ _)
  have u3 : b / c ≤ max (a / c) (max (a / d) (max (b / c) (b / d))) :=
    le_trans (le_trans (le_max_left _ _) (le_max_right _ _)) (le_max_right _ _)
  have u4 : b / d ≤ max (a / c) (max (a / d) (max (b / c) (b / d))) :=
    le_trans (le_trans (le_max_right _ _) (le_max_right _ _)) (le_max_right _ _)
  have e1 : a / c = a / d := by linarith
  have e2 : b / c = b / d := by linarith
  rw [div_eq_div_iff hc hd] at e1 e2
  have hdc : d - c ≠ 0 := sub_ne_zero.mpr (Ne.symm hcd)
  have ha : a = 0 := by
    have : a * (d - c) = 0 := by linarith [mul_sub a d c]
    rcases mul_eq_zero.mp this with h | h
    · exact h
    · exact absurd h hdc
  have hb : b = 0 := by
    have : b * (d - c) = 0 := by linarith [mul_sub b d c]
    rcases mul_eq_zero.mp this with h | h
    · exact h
    · exact absurd h hdc
  linarith

/-- `divide(other)` on ready operands returns, and leaves of `other` what the queries
`pdf(z)` keep (`other` itself in the zero branch). -/
theorem divideDistribution_kept (k : Environment) (sgn : ℚ → Int) (c : Constants)
    (d other : IDistribution) (hM : 2 ≤ c.DistMultNSamples) (hL : c.Lowest < 0)
    (hH : 0 < c.Highest) (hd : Ready d) (hwd : WellFormed d) (hdz : 0 < d.m_dz)
    (ho : Ready other) :
    ∃ d' o', (∀ fuel, divideDistribution k sgn c (fuel + 2) d other = .ok (d', o')) ∧
      Kept other o' := by
  by_cases hcond : sgn other.m_lb ≠ sgn other.m_ub ∨ other.m_lb = 0 ∨ other.m_ub = 0
  · obtain ⟨lb, ub, hfb, hlt⟩ : ∃ lb ub,
        divideFallback sgn c d.m_lb d.m_ub other.m_lb other.m_ub = (lb, ub) ∧ lb < ub := by
      unfold divideFallback
      split_ifs
      · exact ⟨_, _, rfl, by linarith⟩
      · exact ⟨_, _, rfl, hH⟩
      · exact ⟨_, _, rfl, hL⟩
      · exact ⟨_, _, rfl, hL⟩
      · exact ⟨_, _, rfl, hH⟩
    obtain ⟨d', h, -⟩ := divideDistribution_fallback k sgn c d other lb ub hlt hcond hfb hwd hdz
    exact ⟨d', other, h, kept_refl ho⟩
  · obtain ⟨n, hn⟩ : ∃ n : Nat, c.DistMultNSamples = n :=
      ⟨c.DistMultNSamples.toNat, by omega⟩
    have hn1 : 1 ≤ n := by omega
    have hc : (decide (sgn other.m_lb ≠ sgn other.m_ub) || decide (other.m_lb = 0) ||
        decide (other.m_ub = 0)) = false := by
      simp only [not_or] at hcond
      obtain ⟨h1, h2, h3⟩ := hcond
      simp only [ne_eq, not_not] at h1
      simp [h1, h2, h3]
    simp only [not_or] at hcond
    have hlt := quotient_corners_lt hd.1 hcond.2.1 hcond.2.2 (ne_of_lt ho.1)
    obtain ⟨s, hs, hl, ka, kb⟩ := forLoop_inv
      (quotientRow k d.m_lb d.m_ub ((other.m_ub - other.m_lb) / ((n : ℚ) - 1))
        (equallySpaced
          (min (d.m_lb / other.m_lb) (min (d.m_lb / other.m_ub)
            (min (d.m_ub / other.m_lb) (d.m_ub / other.m_ub))))
          ((max (d.m_lb / other.m_lb) (max (d.m_lb / other.m_ub)
              (max (d.m_ub / other.m_lb) (d.m_ub / other.m_ub))) -
            min (d.m_lb / other.m_lb) (min (d.m_lb / other.m_ub)
              (min (d.m_ub / other.m_lb) (d.m_ub / other.m_ub)))) / ((n : ℚ) - 1))
          (max (d.m_lb / other.m_lb) (max (d.m_lb / other.m_ub)
            (max (d.m_ub / other.m_lb) (d.m_ub / other.m_ub)))) n)
        (equallySpaced other.m_lb ((other.m_ub - other.m_lb) / ((n : ℚ) - 1)) other.m_ub n) n)
      (fun _ s => QuadratureInv d other n s) n 0 (List.replicate n 0, d, other)
      ⟨by simp, kept_refl hd, kept_refl ho⟩
      (fun i s _ hi hs => quotientRow_inv k _ _ _ _ _ i d other n (by omega)
        (length_equallySpaced _ _ _ n hn1) (length_equallySpaced _ _ _ n hn1) s hs)
    obtain ⟨table, d1, o1⟩ := s
    simp only at hl ka kb
    refine ⟨normalisedState (regridded d1 table
      (min (d.m_lb / other.m_lb) (min (d.m_lb / other.m_ub)
        (min (d.m_ub / other.m_lb) (d.m_ub / other.m_ub))))
      (max (d.m_lb / other.m_lb) (max (d.m_lb / other.m_ub)
        (max (d.m_ub / other.m_lb) (d.m_ub / other.m_ub)))) n) n, o1, fun fuel => ?_, kb⟩
    have hnorm := calculateCDF_regridded fuel d1 table _ _ n (by omega) hl hlt
    unfold divideDistribution
    simp only [hc, Bool.false_eq_true, if_false, hn, Int.cast_natCast, evenSamples_eq n hn1,
      create_eq, bind_ok, Int.toNat_ofNat]
    simp only [hs, bind_ok]
    simp only [regridded] at hnorm
    simp only [hnorm, bind_ok, pure_eq_ok, regridded]

/-- Counterexample to C19 as stated: `add(other)` on the uniform three-point state with a
freshly constructed `other`, whose grid is empty, returns and leaves `other` with a populated
grid, hence in a state different from the one it had before the call. -/
theorem add_populates_operand :
    ∃ d' o', (∀ fuel, addDistribution (specified true) sampleConstants (fuel + 2)
        uniformState (new sampleConstants) = .ok (d', o')) ∧
      (new sampleConstants).m_z = [] ∧ o'.m_z ≠ [] ∧ o' ≠ new sampleConstants := by
  obtain ⟨d', o', h, -, hne⟩ := addDistribution_kept (specified true) sampleConstants
    uniformState (new sampleConstants) length_conv (by norm_num [sampleConstants])
    ready_uniformState (ready_new sampleConstants (by norm_num [sampleConstants]))
  refine ⟨d', o', h, rfl, hne, fun he => hne ?_⟩
  rw [he]
  rfl

/-- C19 (amended): for operands in ready, well-formed states (the receiver with a positive
resolution), with `DistConvNSamples ≥ 1`, `DistMultNSamples ≥ 2`, `Lowest < 0 < Highest` and
`conv` returning `|a| + |b| - 1` entries, each of `add(other)`, `subtract(other)`,
`multiply(other)` and `divide(other)` returns.  `subtract` leaves `other` as it was.  The
other three leave `other` as it was, or in the state in which its own accessor `zSamples()`,
or `zSamples()` followed by `pdf()`, leaves it: nothing of `other` changes but a grid or a
PDF table that was still to be generated, and the sample count with the grid. -/
theorem operand_kept (k : Environment) (sgn : ℚ → Int) (c : Constants)
    (d other : IDistribution)
    (hconv : ∀ a b, (k.conv a b).length = a.length + b.length - 1)
    (hN : 1 ≤ c.DistConvNSamples) (hM : 2 ≤ c.DistMultNSamples) (hL : c.Lowest < 0)
    (hH : 0 < c.Highest) (hd : Ready d) (hwd : WellFormed d) (hdz : 0 < d.m_dz)
    (ho : Ready other) (hwo : WellFormed other) :
    (∃ d' o', (∀ fuel, addDistribution k c (fuel + 2) d other = .ok (d', o')) ∧
      Kept other o') ∧
    (∃ d', ∀ fuel, subtractDistribution k c (fuel + 2) d other = .ok (d', other)) ∧
    (∃ d' o', (∀ fuel, multiplyDistribution k c (fuel + 2) d other = .ok (d', o')) ∧
      Kept other o') ∧
    (∃ d' o', (∀ fuel, divideDistribution k sgn c (fuel + 2) d other = .ok (d', o')) ∧
      Kept other o') := by
  refine ⟨?_, subtractDistribution_returns k c d other hconv hN hd ho hwo,
    multiplyDistribution_kept k c d other hM hd ho,
    divideDistribution_kept k sgn c d other hM hL hH hd hwd hdz ho⟩
  obtain ⟨d', o', h, hk, -⟩ := addDistribution_kept k c d other hconv hN hd ho
  exact ⟨d', o', h, hk⟩

/-- Witness for C19 (amended): the uniform three-point state as receiver and the three-point
grid state without density table as `other`, the interpolator arguments evaluated from right
to left. -/
theorem operand_kept_witness :
    Ready uniformState ∧ WellFormed uniformState ∧ Ready gridState ∧ WellFormed gridState ∧
    (∃ d' o', (∀ fuel, addDistribution (specified false) sampleConstants (fuel + 2)
        uniformState gridState = .ok (d', o')) ∧ Kept gridState o') ∧
    (∃ d', ∀ fuel, subtractDistribution (specified false) sampleConstants (fuel + 2)
        uniformState gridState = .ok (d', gridState)) ∧
    (∃ d' o', (∀ fuel, multiplyDistribution (specified false) sampleConstants (fuel + 2)
        uniformState gridState = .ok (d', o')) ∧ Kept gridState o') ∧
    (∃ d' o', (∀ fuel, divideDistribution (specified false) signum sampleConstants (fuel + 2)
        uniformState gridState = .ok (d', o')) ∧ Kept gridState o') :=
  ⟨ready_uniformState, wellFormed_uniformState, ready_gridState, wellFormed_gridState,
    operand_kept (specified false) signum sampleConstants uniformState gridState length_conv
      (by norm_num [sampleConstants]) (by norm_num [sampleConstants])
      (by norm_num [sampleConstants]) (by norm_num [sampleConstants]) ready_uniformState
      wellFormed_uniformState (by norm_num [uniformState]) ready_gridState
      wellFormed_gridState⟩

/-! ## Queries on a distribution without grid -/

/-- On an unpopulated generic distribution `calculateCDF` generates a PDF table of `0`
entries, fills the CDF table with `0` entries and reads its last entry. -/
theorem calculateCDF_unpopulated (fuel : Nat) (d : IDistribution) (h : Unpopulated d) :
    calculateCDF (fuel + 1) d = .error .outOfRange := by
  obtain ⟨ht, hz, hp, hc, hN⟩ := h
  unfold calculateCDF
  simp [hp, generatePDF, ht, generatePDFGeneric, hN, QVector.fill, forLoop, QVector.last]

/-- C20 (divergence): a freshly constructed generic distribution is unpopulated, and so is
the state `defineBoundaries(lb, ub)` leaves of it.  On every unpopulated state `pdf()`
returns the empty table and changes nothing, and each of `cdf()`, `mean()`,
`percentile(p)` and `cdf(z)` faults, reading the last entry of an empty CDF table.  With
`zSamples()` called first (`DistMinNSamples = 3`: the grid `0, 1/2, 1`), `pdf()` returns
three entries and `cdf()` returns the table `0, 1/2, 1`. -/
theorem lazy_queries_fault (k : Environment) (c : Constants) :
    Unpopulated (new c) ∧
    (∀ fuel lb ub, ∃ d1, defineBoundaries c fuel (new c) lb ub = .ok d1 ∧ Unpopulated d1 ∧
      (lb < ub → d1.m_lb = lb ∧ d1.m_ub = ub)) ∧
    (∀ d, Unpopulated d → pdf d = .ok d ∧
      ∀ fuel, cdf (fuel + 1) d = .error .outOfRange ∧
        mean (fuel + 1) d = .error .outOfRange ∧
        (∀ p, percentile k (fuel + 1) d p = .error .outOfRange) ∧
        (∀ z, cdfAt k (fuel + 1) d z = .error .outOfRange)) ∧
    (zSamples (new sampleConstants) = .ok gridState ∧
      pdf gridState = .ok { gridState with m_pdf := [1, 1, 1] } ∧
      ∀ fuel, cdf (fuel + 1) gridState = .ok uniformState) := by
  refine ⟨⟨rfl, rfl, rfl, rfl, rfl⟩, fun fuel lb ub => ?_, fun d h => ?_, ?_, ?_, ?_⟩
  · refine ⟨rescaled c (new c) lb ub, ?_, ⟨by simp [rescaled, new], by simp [rescaled, new],
      by simp [rescaled, new], by simp [rescaled, new], by simp [rescaled, new]⟩,
      fun hlt => ?_⟩
    · rw [defineBoundaries_eq c fuel (new c) lb ub (Or.inl rfl)]
      simp [new]
    · have hw : widened c lb ub = (lb, ub) := by simp [widened, not_le.mpr hlt]
      rw [(rescaled_bounds c _ lb ub).1, (rescaled_bounds c _ lb ub).2, hw]
      exact ⟨rfl, rfl⟩
  · have hcalc := fun fuel => calculateCDF_unpopulated fuel d h
    obtain ⟨ht, hz, hp, hc, hN⟩ := h
    refine ⟨?_, fun fuel => ⟨?_, ?_, fun p => ?_, fun z => ?_⟩⟩
    · unfold pdf generatePDF
      simp only [hp, List.isEmpty_nil, Bool.true_or, if_true, ht, generatePDFGeneric, hN,
        QVector.fill, pure_eq_ok]
      simp only [lt_self_iff_false, if_false, Int.toNat_zero, List.replicate_zero]
      congr 1
      cases d
      simp_all
    · unfold cdf
      simp only [hc, List.isEmpty_nil, Bool.true_or, if_true, hcalc fuel]
    · unfold mean
      simp only [hp, List.isEmpty_nil, if_true, hcalc fuel, bind_error]
    · unfold percentile
      simp only [hc, List.isEmpty_nil, Bool.true_or, if_true, hcalc fuel, bind_error]
    · unfold cdfAt
      simp only [hc, List.isEmpty_nil, Bool.true_or, if_true, hcalc fuel, bind_error]
  · have h := generateEquallySpacedZ_eq (new sampleConstants) 3 (by norm_num)
      (by
        have : ((new sampleConstants).m_ub - (new sampleConstants).m_lb) /
            (new sampleConstants).m_dz = ((2 : Int) : ℚ) := by
          norm_num [new, sampleConstants]
        rw [this, toInt_intCast 2 (by norm_num)]
        norm_num)
    unfold zSamples generateZ
    simp only [new, List.isEmpty_nil, if_true] at h ⊢
    rw [h]
    norm_num [gridState, sampleConstants, equallySpaced, List.range, List.range.loop]
  · simp [pdf, generatePDF, generatePDFGeneric, gridState, QVector.fill]
  · intro fuel
    norm_num [cdf, gridState, calculateCDF, generatePDF, generatePDFGeneric, QVector.fill,
      forLoop, cdfStep, QVector.read, QVector.write, QVector.last, uniformState,
      show (3 : Int).toNat = 3 from rfl]
    exact ⟨rfl, rfl⟩

/-! ## The resolution invariant -/

theorem Snapped.range_pos {d : IDistribution} (h : Snapped d) : 0 < d.m_ub - d.m_lb := by
  obtain ⟨hdz, m, hm, hq⟩ := h
  have hmq : (1 : ℚ) ≤ (m : ℚ) := by exact_mod_cast hm
  rw [div_eq_iff (ne_of_gt hdz)] at hq
  rw [hq]
  exact mul_pos (by linarith) hdz

/-- A state with the resolution and the range of a snapped state is snapped. -/
theorem snapped_of_eq {d d' : IDistribution} (h : Snapped d) (hdz : d'.m_dz = d.m_dz)
    (hr : d'.m_ub - d'.m_lb = d.m_ub - d.m_lb) : Snapped d' := by
  unfold Snapped
  rw [hdz, hr]
  exact h

/-- Whenever `calculateCDF` returns, the resolution is the one it was entered with. -/
theorem calculateCDF_dz :
    ∀ (fuel : Nat) (d d' : IDistribution), calculateCDF fuel d = .ok d' →
      d'.m_dz = d.m_dz := by
  intro fuel
  induction fuel with
  | zero => intro d d' h; simp [calculateCDF] at h
  | succ fuel ih =>
    intro d d' h
    unfold calculateCDF at h
    simp only [ite_bind] at h
    obtain ⟨d1, h1, h⟩ := bind_eq_ok h
    have hb1 : d1.m_dz = d.m_dz := by
      split at h1
      · exact (generatePDF_frame h1).2.1
      · simp only [pure_eq_ok, Except.ok.injEq] at h1
        subst h1
        rfl
    obtain ⟨cdf, -, h⟩ := bind_eq_ok h
    obtain ⟨factor, -, h⟩ := bind_eq_ok h
    split at h
    · simp only [pure_eq_ok, Except.ok.injEq] at h
      subst h
      exact hb1
    · split at h
      · obtain ⟨p, -, h⟩ := bind_eq_ok h
        exact (ih _ _ h).trans hb1
      · obtain ⟨s, -, h⟩ := bind_eq_ok h
        simp only [pure_eq_ok, Except.ok.injEq] at h
        subst h
        exact hb1

/-- Whenever `defineBoundaries` returns, the resolution is the one `defineResolution` snapped
from the rescaled resolution. -/
theorem dz_of_defineBoundaries_ok (c : Constants) (fuel : Nat) (d d' : IDistribution)
    (lb ub : ℚ) (h : defineBoundaries c fuel d lb ub = .ok d') :
    d'.m_dz = (rescaled c d lb ub).m_dz := by
  unfold defineBoundaries at h
  unfold rescaled
  generalize widened c lb ub = w at h ⊢
  obtain ⟨l, u⟩ := w
  simp only [ite_bind, defineResolution_m_pdf, defineResolution_m_lb,
    defineResolution_m_ub, defineResolution_m_z, defineResolution_m_nSamples] at h
  obtain ⟨z, -, h⟩ := bind_eq_ok h
  split at h
  · unfold normalise at h
    split at h
    · simp only [pure_eq_ok, Except.ok.injEq] at h
      subst h
      rfl
    · have e := calculateCDF_dz _ _ _ h
      exact e
  · simp only [pure_eq_ok, Except.ok.injEq] at h
    subst h
    rfl

/-- `defineBoundaries` rescales a snapped resolution to the one that divides the new range
into the same number of intervals. -/
theorem rescaled_snapped (c : Constants) (hc : 0 < c.DistMinInterval) (d : IDistribution)
    (lb ub : ℚ) (h : Snapped d) :
    0 < (rescaled c d lb ub).m_dz ∧
    ((widened c lb ub).2 - (widened c lb ub).1) / (rescaled c d lb ub).m_dz =
      (d.m_ub - d.m_lb) / d.m_dz := by
  have hR := h.range_pos
  obtain ⟨hdz, m, hm, hq⟩ := h
  have hw := widened_lt c hc lb ub
  have hR' : 0 < (widened c lb ub).2 - (widened c lb ub).1 := by linarith
  have hmq : (0 : ℚ) < (m : ℚ) := by exact_mod_cast (show 0 < m by omega)
  have hx : 0 < d.m_dz * (((widened c lb ub).2 - (widened c lb ub).1) / (d.m_ub - d.m_lb)) :=
    mul_pos hdz (div_pos hR' hR)
  have hquot : ((widened c lb ub).2 - (widened c lb ub).1) /
      (d.m_dz * (((widened c lb ub).2 - (widened c lb ub).1) / (d.m_ub - d.m_lb))) =
      (m : ℚ) := by
    rw [← hq]
    field_simp
    ring
  have e : (rescaled c d lb ub).m_dz =
      ((widened c lb ub).2 - (widened c lb ub).1) / (m : ℚ) := by
    simp only [rescaled, defineResolution]
    rw [if_pos hx]
    simp only [hquot, Int.ceil_intCast]
  rw [e, hq]
  refine ⟨div_pos hR' hmq, ?_⟩
  field_simp

/-- Whenever `negate` returns, the resolution is unchanged and the bounds are `(-ub, -lb)`. -/
theorem negate_frame {fuel : Nat} {d d' : IDistribution} (h : negate fuel d = .ok d') :
    d'.m_dz = d.m_dz ∧ d'.m_lb = -d.m_ub ∧ d'.m_ub = -d.m_lb := by
  unfold negate at h
  dsimp only at h
  split at h
  · simp only [pure_eq_ok, Except.ok.injEq] at h
    subst h
    exact ⟨rfl, rfl, rfl⟩
  · obtain ⟨z0, -, h⟩ := bind_eq_ok h
    obtain ⟨z1, -, h⟩ := bind_eq_ok h
    split at h
    · simp only [pure_eq_ok, Except.ok.injEq] at h
      subst h
      exact ⟨rfl, rfl, rfl⟩
    · obtain ⟨p0, -, h⟩ := bind_eq_ok h
      obtain ⟨p1, -, h⟩ := bind_eq_ok h
      have e1 := calculateCDF_dz _ _ _ h
      obtain ⟨e2, e3⟩ := calculateCDF_bounds _ _ _ h
      exact ⟨e1, e2, e3⟩

/-- Whenever `add(num)` returns, the resolution is unchanged and both bounds are shifted. -/
theorem add_frame {fuel : Nat} {d d' : IDistribution} {num : ℚ}
    (h : add fuel d num = .ok d') :
    d'.m_dz = d.m_dz ∧ d'.m_lb = d.m_lb + num ∧ d'.m_ub = d.m_ub + num := by
  unfold add at h
  dsimp only at h
  split at h
  · simp only [pure_eq_ok, Except.ok.injEq] at h
    subst h
    exact ⟨rfl, rfl, rfl⟩
  · obtain ⟨z1, -, h⟩ := bind_eq_ok h
    split at h
    · have e1 := calculateCDF_dz _ _ _ h
      obtain ⟨e2, e3⟩ := calculateCDF_bounds _ _ _ h
      exact ⟨e1, e2, e3⟩
    · simp only [pure_eq_ok, Except.ok.injEq] at h
      subst h
      exact ⟨rfl, rfl, rfl⟩

/-- Whenever `multiply(num)` returns for `num ≠ 0`, the resolution is unchanged and the
range is multiplied by `|num|`. -/
theorem multiply_frame {c : Constants} {fuel : Nat} {d d' : IDistribution} {num : ℚ}
    (hnum : num ≠ 0) (h : multiply c fuel d num = .ok d') :
    d'.m_dz = d.m_dz ∧ d'.m_ub - d'.m_lb = |num| * (d.m_ub - d.m_lb) := by
  unfold multiply at h
  rw [if_neg hnum] at h
  dsimp only at h
  by_cases hneg : num < 0
  · rw [if_pos hneg] at h
    obtain ⟨y, hy, h⟩ := bind_eq_ok h
    obtain ⟨d0, h0, hy⟩ := bind_eq_ok hy
    simp only [pure_eq_ok, Except.ok.injEq] at hy
    subst hy
    dsimp only at h
    obtain ⟨e1, e2, e3⟩ := negate_frame h0
    have key : ∀ e : IDistribution, e.m_dz = d0.m_dz → e.m_lb = d0.m_lb * -num →
        e.m_ub = d0.m_ub * -num →
        e.m_dz = d.m_dz ∧ e.m_ub - e.m_lb = |num| * (d.m_ub - d.m_lb) := by
      intro e h1 h2 h3
      rw [h1, h2, h3, e1, e2, e3, abs_of_neg hneg]
      exact ⟨rfl, by ring⟩
    split at h
    · simp only [pure_eq_ok, Except.ok.injEq] at h
      subst h
      exact key _ rfl rfl rfl
    · obtain ⟨z1, -, h⟩ := bind_eq_ok h
      split at h
      · have f1 := calculateCDF_dz _ _ _ h
        obtain ⟨f2, f3⟩ := calculateCDF_bounds _ _ _ h
        exact key _ f1 f2 f3
      · simp only [pure_eq_ok, Except.ok.injEq] at h
        subst h
        exact key _ rfl rfl rfl
  · rw [if_neg hneg] at h
    simp only [pure_eq_ok, bind_ok] at h
    have hpos : 0 < num := lt_of_le_of_ne (not_lt.mp hneg) (Ne.symm hnum)
    have key : ∀ e : IDistribution, e.m_dz = d.m_dz → e.m_lb = d.m_lb * num →
        e.m_ub = d.m_ub * num →
        e.m_dz = d.m_dz ∧ e.m_ub - e.m_lb = |num| * (d.m_ub - d.m_lb) := by
      intro e h1 h2 h3
      rw [h1, h2, h3, abs_of_pos hpos]
      exact ⟨rfl, by ring⟩
    split at h
    · simp only [Except.ok.injEq] at h
      subst h
      exact key _ rfl rfl rfl
    · obtain ⟨z1, -, h⟩ := bind_eq_ok h
      split at h
      · have f1 := calculateCDF_dz _ _ _ h
        obtain ⟨f2, f3⟩ := calculateCDF_bounds _ _ _ h
        exact key _ f1 f2 f3
      · simp only [Except.ok.injEq] at h
        subst h
        exact key _ rfl rfl rfl

/-- On a snapped state without grid `zSamples()` generates a strictly increasing grid from
the lower to the upper bound whose gaps are the resolution. -/
theorem zSamples_of_snapped (d : IDistribution) (h : Snapped d) (hz : d.m_z = []) :
    ∃ d', zSamples d = .ok d' ∧ d'.m_dz = d.m_dz ∧ d'.m_lb = d.m_lb ∧ d'.m_ub = d.m_ub ∧
      d'.m_z.Sorted (· < ·) ∧ nth d'.m_z 0 = d.m_lb ∧
      nth d'.m_z (d'.m_z.length - 1) = d.m_ub ∧
      (∀ i, i + 1 < d'.m_z.length → nth d'.m_z (i + 1) - nth d'.m_z i = d.m_dz) := by
  obtain ⟨hdz, m, hm, hq⟩ := h
  have hcount : toInt ((d.m_ub - d.m_lb) / d.m_dz) + 1 = ((m.toNat + 1 : Nat) : Int) := by
    rw [hq, toInt_intCast m (by omega)]
    push_cast
    omega
  have hgen := generateEquallySpacedZ_eq d (m.toNat + 1) (by omega) hcount
  have hub : d.m_ub = d.m_lb + ((m.toNat + 1 - 1 : Nat) : ℚ) * d.m_dz := by
    have h1 : ((m.toNat + 1 - 1 : Nat) : ℚ) = (m : ℚ) := by
      have h2 : m.toNat + 1 - 1 = m.toNat := by omega
      rw [h2]
      have h3 : ((m.toNat : Int) : ℚ) = (m : ℚ) := by rw [Int.toNat_of_nonneg (by omega)]
      exact_mod_cast h3
    rw [h1, ← hq]
    field_simp
  have hlen := length_equallySpaced d.m_lb d.m_dz d.m_ub (m.toNat + 1) (by omega)
  refine ⟨{ d with
      m_nSamples := ((m.toNat + 1 : Nat) : Int)
      m_z := equallySpaced d.m_lb d.m_dz d.m_ub (m.toNat + 1) }, ?_, rfl, rfl, rfl, ?_, ?_, ?_,
    ?_⟩
  · unfold zSamples generateZ
    simp only [hz, List.isEmpty_nil, if_true]
    split <;> exact hgen
  · exact sorted_equallySpaced _ _ _ _ (by omega) hdz hub
  · show nth (equallySpaced d.m_lb d.m_dz d.m_ub (m.toNat + 1)) 0 = d.m_lb
    rw [nth_equallySpaced_exact _ _ _ _ (by omega) hub 0 (by omega)]
    simp
  · show nth (equallySpaced d.m_lb d.m_dz d.m_ub (m.toNat + 1))
      ((equallySpaced d.m_lb d.m_dz d.m_ub (m.toNat + 1)).length - 1) = d.m_ub
    rw [hlen, nth_equallySpaced, if_neg (by omega), if_pos rfl]
  · intro i hi
    have hi' : i + 1 < m.toNat + 1 := by
      have : i + 1 < (equallySpaced d.m_lb d.m_dz d.m_ub (m.toNat + 1)).length := hi
      rw [hlen] at this
      exact this
    show nth (equallySpaced d.m_lb d.m_dz d.m_ub (m.toNat + 1)) (i + 1) -
      nth (equallySpaced d.m_lb d.m_dz d.m_ub (m.toNat + 1)) i = d.m_dz
    rw [nth_equallySpaced_exact _ _ _ _ (by omega) hub (i + 1) hi',
      nth_equallySpaced_exact _ _ _ _ (by omega) hub i (by omega)]
    push_cast
    ring

theorem snapped_new (c : Constants) (h : 2 ≤ c.DistMinNSamples) : Snapped (new c) := by
  have hq : (0 : ℚ) < (c.DistMinNSamples : ℚ) - 1 := by
    have : (2 : ℚ) ≤ (c.DistMinNSamples : ℚ) := by exact_mod_cast h
    linarith
  refine ⟨?_, c.DistMinNSamples - 1, by omega, ?_⟩
  · show 0 < (1 - 0) / ((c.DistMinNSamples : ℚ) - 1)
    exact div_pos (by norm_num) hq
  · show ((1 : ℚ) - 0) / ((1 - 0) / ((c.DistMinNSamples : ℚ) - 1)) =
      ((c.DistMinNSamples - 1 : Int) : ℚ)
    push_cast
    field_simp

theorem snapped_defineResolution (d : IDistribution) (dz : ℚ) (h : Snapped d) :
    Snapped (defineResolution d dz) := by
  have hR := h.range_pos
  unfold defineResolution
  split
  next hdz =>
    have hk : 1 ≤ ⌈(d.m_ub - d.m_lb) / dz⌉ := one_le_ceil_div hR hdz
    have hkq : (0 : ℚ) < (⌈(d.m_ub - d.m_lb) / dz⌉ : ℚ) := by
      exact_mod_cast (show 0 < ⌈(d.m_ub - d.m_lb) / dz⌉ by omega)
    refine ⟨div_pos hR hkq, _, hk, ?_⟩
    show (d.m_ub - d.m_lb) / ((d.m_ub - d.m_lb) / (⌈(d.m_ub - d.m_lb) / dz⌉ : ℚ)) = _
    field_simp
  next => exact h

/-- C21 (divergence): with `DistMinInterval > 0`, the resolution invariant (positive
resolution dividing the range into a positive whole number of intervals) holds after
construction when `DistMinNSamples ≥ 2`; it is preserved by `defineBoundaries`, which keeps
the interval count, by `defineResolution`, `negate`, `add(scalar)` and `subtract(scalar)`,
whenever they return, and they do return on a state without grid and tables; on a state
without grid that satisfies it, `zSamples()` generates a strictly increasing grid from the
lower to the upper bound with gaps equal to the resolution.  `multiply(k)` with `k ≠ 0`
scales the range by `|k|` and leaves the resolution as it was, so that the interval count
is multiplied by `|k|`: `multiply(1/3)` on a freshly constructed distribution
(`DistMinNSamples = 3`) leaves the range `1/3` with the resolution `1/2`, which breaks the
invariant, and the grid generated afterwards is the single point `1/3`. -/
theorem resolution_invariant (c : Constants) (hc : 0 < c.DistMinInterval) :
    (2 ≤ c.DistMinNSamples → Snapped (new c)) ∧
    (∀ fuel d d' lb ub, Snapped d → defineBoundaries c fuel d lb ub = .ok d' →
      Snapped d' ∧ (d'.m_ub - d'.m_lb) / d'.m_dz = (d.m_ub - d.m_lb) / d.m_dz) ∧
    (∀ d dz, Snapped d → Snapped (defineResolution d dz)) ∧
    (∀ fuel d d', Snapped d → negate fuel d = .ok d' → Snapped d') ∧
    (∀ fuel d d' k, Snapped d → add fuel d k = .ok d' → Snapped d') ∧
    (∀ fuel d d' k, Snapped d → subtract fuel d k = .ok d' → Snapped d') ∧
    (∀ fuel d lb ub k, d.m_z = [] → d.m_pdf = [] →
      (∃ d', defineBoundaries c fuel d lb ub = .ok d') ∧ (∃ d', negate fuel d = .ok d') ∧
      (∃ d', add fuel d k = .ok d') ∧ (∃ d', subtract fuel d k = .ok d') ∧
      (k ≠ 0 → ∃ d', multiply c fuel d k = .ok d')) ∧
    (∀ d, Snapped d → d.m_z = [] →
      ∃ d', zSamples d = .ok d' ∧ d'.m_dz = d.m_dz ∧ d'.m_lb = d.m_lb ∧ d'.m_ub = d.m_ub ∧
        d'.m_z.Sorted (· < ·) ∧ nth d'.m_z 0 = d.m_lb ∧
        nth d'.m_z (d'.m_z.length - 1) = d.m_ub ∧
        (∀ i, i + 1 < d'.m_z.length → nth d'.m_z (i + 1) - nth d'.m_z i = d.m_dz)) ∧
    (∀ fuel d d' k, k ≠ 0 → Snapped d → multiply c fuel d k = .ok d' →
      d'.m_dz = d.m_dz ∧
      (d'.m_ub - d'.m_lb) / d'.m_dz = |k| * ((d.m_ub - d.m_lb) / d.m_dz)) ∧
    (Snapped (new sampleConstants) ∧
      (∀ fuel, multiply sampleConstants fuel (new sampleConstants) (1 / 3) = .ok thirdState) ∧
      thirdState.m_dz = 1 / 2 ∧ thirdState.m_ub - thirdState.m_lb = 1 / 3 ∧
      ¬ Snapped thirdState ∧
      zSamples thirdState = .ok { thirdState with m_nSamples := 1, m_z := [1 / 3] }) := by
  refine ⟨snapped_new c, ?_, snapped_defineResolution, ?_, ?_, ?_, ?_, zSamples_of_snapped,
    ?_, snapped_new sampleConstants (by norm_num [sampleConstants]), ?_, ?_, ?_, ?_, ?_⟩
  · intro fuel d d' lb ub hs h
    obtain ⟨e1, e2⟩ := bounds_of_defineBoundaries_ok c fuel d d' lb ub h
    have e3 := dz_of_defineBoundaries_ok c fuel d d' lb ub h
    obtain ⟨r1, r2⟩ := rescaled_snapped c hc d lb ub hs
    obtain ⟨hdz, m, hm, hq⟩ := hs
    rw [← e1, ← e2, ← e3] at r2
    rw [← e3] at r1
    exact ⟨⟨r1, m, hm, by rw [r2, hq]⟩, r2⟩
  · intro fuel d d' hs h
    obtain ⟨e1, e2, e3⟩ := negate_frame h
    exact snapped_of_eq hs e1 (by rw [e2, e3]; ring)
  · intro fuel d d' k hs h
    obtain ⟨e1, e2, e3⟩ := add_frame h
    exact snapped_of_eq hs e1 (by rw [e2, e3]; ring)
  · intro fuel d d' k hs h
    obtain ⟨e1, e2, e3⟩ := add_frame h
    exact snapped_of_eq hs e1 (by rw [e2, e3]; ring)
  · intro fuel d lb ub k hz hp
    refine ⟨⟨rescaled c d lb ub,
        by rw [defineBoundaries_eq c fuel d lb ub (Or.inl hz)]; simp [hp]⟩,
      ⟨{ d with m_ub := -d.m_lb, m_lb := -d.m_ub }, by simp [negate, hz]⟩,
      ⟨{ d with m_ub := d.m_ub + k, m_lb := d.m_lb + k }, by simp [add, hz]⟩,
      ⟨{ d with m_ub := d.m_ub + -k, m_lb := d.m_lb + -k }, by simp [subtract, add, hz]⟩,
      fun hk => ?_⟩
    by_cases hneg : k < 0
    · exact ⟨{ d with m_ub := -d.m_lb * -k, m_lb := -d.m_ub * -k },
        by simp [multiply, hk, hneg, negate, hz]⟩
    · exact ⟨{ d with m_ub := d.m_ub * k, m_lb := d.m_lb * k },
        by simp [multiply, hk, hneg, hz]⟩
  · intro fuel d d' k hk hs h
    obtain ⟨e1, e2⟩ := multiply_frame hk h
    refine ⟨e1, ?_⟩
    rw [e1, e2, mul_div_assoc]
  · intro fuel
    simp [multiply, new, thirdState]
  · norm_num [thirdState, new, sampleConstants]
  · norm_num [thirdState, new, sampleConstants]
  · rintro ⟨-, m, hm, hq⟩
    have hmq : (1 : ℚ) ≤ (m : ℚ) := by exact_mod_cast hm
    have : (thirdState.m_ub - thirdState.m_lb) / thirdState.m_dz = 2 / 3 := by
      norm_num [thirdState, new, sampleConstants]
    rw [this] at hq
    linarith
  · have h := generateEquallySpacedZ_eq thirdState 1 (by norm_num)
      (by
        have : (thirdState.m_ub - thirdState.m_lb) / thirdState.m_dz = 2 / 3 := by
          norm_num [thirdState, new, sampleConstants]
        rw [this]
        have hf : toInt (2 / 3 : ℚ) = 0 := by
          unfold toInt
          rw [if_pos (by norm_num), Int.floor_eq_iff]
          norm_num
        rw [hf]
        norm_num)
    unfold zSamples generateZ
    have hz : thirdState.m_z = [] := rfl
    simp only [hz, List.isEmpty_nil, if_true]
    have ht : thirdState.m_type = .GenericDistType := rfl
    rw [ht]
    simp only
    rw [h]
    norm_num [equallySpaced, thirdState, new]

/-- Witness for C21: on a freshly constructed distribution with `DistMinInterval = 1/1000`
and `DistMinNSamples = 3`, `defineBoundaries(2, 6)` returns and keeps the invariant and the
interval count. -/
theorem resolution_invariant_witness :
    0 < sampleConstants.DistMinInterval ∧ Snapped (new sampleConstants) ∧
    ∃ d', defineBoundaries sampleConstants 0 (new sampleConstants) 2 6 = .ok d' ∧
      Snapped d' ∧ (d'.m_ub - d'.m_lb) / d'.m_dz =
        ((new sampleConstants).m_ub - (new sampleConstants).m_lb) /
          (new sampleConstants).m_dz := by
  have h := resolution_invariant sampleConstants (by norm_num [sampleConstants])
  have hs := h.1 (by norm_num [sampleConstants])
  obtain ⟨⟨d', hd'⟩, -⟩ := h.2.2.2.2.2.2.1 0 (new sampleConstants) 2 6 0 rfl rfl
  exact ⟨by norm_num [sampleConstants], hs, d', hd',
    h.2.1 0 (new sampleConstants) d' 2 6 hs hd'⟩

/-! ## Toggling the direction of a linear distribution -/

/-- C22 (divergence): on a linear distribution whose grid, PDF table and CDF table are
populated and aligned with the sample count, `defineAscend` with the unchanged flag changes
nothing; with the other flag it returns, stores the flag and replaces the PDF table by the
triangular density of the new direction, which `pdf()` then returns; but it leaves the CDF
table as it was, and `cdf()` returns that table without recomputing it.  On the ascending
ramp over the grid `0, 1/2, 1`, whose CDF table `0, 1/4, 1` is the cumulative integral of
its PDF table, `defineAscend(false)` gives the PDF table `2, 1, 0`, of cumulative integral
`0, 3/4, 1`, while `cdf()` still returns `0, 1/4, 1`. -/
theorem defineAscend_stale_cdf (d : IDistribution) (n : Nat) (a : Bool)
    (ht : d.m_type = .LinearDistType) (hn : 1 ≤ n) (hN : d.m_nSamples = n)
    (hz : d.m_z.length = n) (hp : d.m_pdf.length = n) (hc : d.m_cdf.length = n) :
    LinearDistribution.defineAscend d d.m_ascend = .ok d ∧
    (a ≠ d.m_ascend →
      LinearDistribution.defineAscend d a = .ok { d with
        m_ascend := a
        m_pdf := (List.range n).map
          (fun i => triangularDensity d.m_lb d.m_ub a (nth d.m_z i)) } ∧
      pdf { d with
        m_ascend := a
        m_pdf := (List.range n).map
          (fun i => triangularDensity d.m_lb d.m_ub a (nth d.m_z i)) } = .ok { d with
        m_ascend := a
        m_pdf := (List.range n).map
          (fun i => triangularDensity d.m_lb d.m_ub a (nth d.m_z i)) } ∧
      ∀ fuel, cdf fuel { d with
        m_ascend := a
        m_pdf := (List.range n).map
          (fun i => triangularDensity d.m_lb d.m_ub a (nth d.m_z i)) } = .ok { d with
        m_ascend := a
        m_pdf := (List.range n).map
          (fun i => triangularDensity d.m_lb d.m_ub a (nth d.m_z i)) }) ∧
    (rampState.m_cdf = (List.range 3).map (trapz rampState.m_z rampState.m_pdf) ∧
      ∃ d', LinearDistribution.defineAscend rampState false = .ok d' ∧
        d'.m_pdf = [2, 1, 0] ∧ (∀ fuel, cdf fuel d' = .ok d') ∧ d'.m_cdf = [0, 1 / 4, 1] ∧
        (List.range 3).map (trapz d'.m_z d'.m_pdf) = [0, 3 / 4, 1]) := by
  have hpe : d.m_pdf.isEmpty = false := isEmpty_eq_false_of_length (by omega)
  have hce : d.m_cdf.isEmpty = false := isEmpty_eq_false_of_length (by omega)
  refine ⟨?_, fun ha => ⟨?_, ?_, fun fuel => ?_⟩, ?_, ?_⟩
  · simp [LinearDistribution.defineAscend]
  · have hgen := generatePDFLinear_eq { d with m_ascend := a } n hn hN hz
    unfold LinearDistribution.defineAscend
    simp only [ne_eq, ha, not_false_eq_true, decide_True, hpe, Bool.not_false, Bool.and_self,
      if_true]
    unfold generatePDF
    split
    next h0 =>
      have : d.m_type = .GenericDistType := h0
      rw [ht] at this
      cases this
    next => exact hgen
  · unfold pdf
    have he : ((List.range n).map
        (fun i => triangularDensity d.m_lb d.m_ub a (nth d.m_z i))).isEmpty = false :=
      isEmpty_eq_false_of_length (by simp; omega)
    simp [he, hN]
  · unfold cdf
    simp [hce, hN, hc]
  · norm_num [rampState, trapz, nth, List.range, List.range.loop]
  · refine ⟨{ rampState with m_ascend := false, m_pdf := [2, 1, 0] }, ?_, rfl, fun fuel => ?_,
      rfl, ?_⟩
    · norm_num [LinearDistribution.defineAscend, rampState, generatePDF, generatePDFLinear,
        QVector.create, forLoop, QVector.read, QVector.write,
        show (3 : Int).toNat = 3 from rfl]
      rfl
    · simp [cdf, rampState]
    · norm_num [rampState, trapz, nth, List.range, List.range.loop]

/-- Witness for C22: the ascending ramp over the grid `0, 1/2, 1`, toggled to descending. -/
theorem defineAscend_stale_cdf_witness :
    rampState.m_type = .LinearDistType ∧
    LinearDistribution.defineAscend rampState rampState.m_ascend = .ok rampState :=
  ⟨rfl, (defineAscend_stale_cdf rampState 3 false rfl (by norm_num) rfl rfl rfl rfl).1⟩

/-! ## The parameter vector of a linear distribution -/

/-- On a state without grid and without PDF table `defineBoundaries` returns the state with
the widened bounds and the resolution snapped to them. -/
theorem defineBoundaries_bare (c : Constants) (fuel : Nat) (d : IDistribution) (lb ub : ℚ)
    (hz : d.m_z = []) (hp : d.m_pdf = []) :
    defineBoundaries c fuel d lb ub = .ok (rescaled c d lb ub) := by
  rw [defineBoundaries_eq c fuel d lb ub (Or.inl hz), hp]
  rfl

theorem rescaled_fields (c : Constants) (d : IDistribution) (lb ub : ℚ) :
    (rescaled c d lb ub).m_type = d.m_type ∧ (rescaled c d lb ub).m_ascend = d.m_ascend ∧
    (rescaled c d lb ub).m_lb = (widened c lb ub).1 ∧
    (rescaled c d lb ub).m_ub = (widened c lb ub).2 := by
  simp [rescaled]

/-- The vector constructor on at least three parameters whose second exceeds the first. -/
theorem ofParameters_three (c : Constants) (fuel : Nat) (p0 p1 p2 : ℚ) (rest : List ℚ)
    (h : p0 < p1) :
    LinearDistribution.ofParameters c fuel (p0 :: p1 :: p2 :: rest) =
      .ok (rescaled c { IDistribution.new c with m_type := .LinearDistType, m_ascend := true }
        p0 p1) := by
  unfold LinearDistribution.ofParameters
  simp [QVector.read, h]
  exact defineBoundaries_bare c fuel _ p0 p1 rfl rfl

/-- The vector constructor on parameters whose second does not exceed the first. -/
theorem ofParameters_narrow (c : Constants) (fuel : Nat) (p0 p1 : ℚ) (rest : List ℚ)
    (h : p1 ≤ p0) :
    LinearDistribution.ofParameters c fuel (p0 :: p1 :: rest) =
      .ok (rescaled c { IDistribution.new c with m_type := .LinearDistType, m_ascend := true }
        p0 (p0 + c.DistMinInterval)) := by
  unfold LinearDistribution.ofParameters
  simp [QVector.read, not_lt.mpr h]
  exact defineBoundaries_bare c fuel _ p0 (p0 + c.DistMinInterval) rfl rfl

/-- The vector constructor on a single parameter. -/
theorem ofParameters_one (c : Constants) (fuel : Nat) (p0 : ℚ) :
    LinearDistribution.ofParameters c fuel [p0] =
      .ok (rescaled c { IDistribution.new c with m_type := .LinearDistType, m_ascend := true }
        p0 (p0 + c.DistMinInterval)) := by
  unfold LinearDistribution.ofParameters
  simp [QVector.read]
  exact defineBoundaries_bare c fuel _ p0 (p0 + c.DistMinInterval) rfl rfl

/-- The vector constructor on the empty vector. -/
theorem ofParameters_none (c : Constants) (fuel : Nat) :
    LinearDistribution.ofParameters c fuel [] =
      .ok (rescaled c { IDistribution.new c with m_type := .LinearDistType, m_ascend := true }
        0 1) := by
  unfold LinearDistribution.ofParameters
  simp
  exact defineBoundaries_bare c fuel _ 0 1 rfl rfl

/-- The vector constructor on two parameters of which the second exceeds the first reads
the third element. -/
theorem ofParameters_two (c : Constants) (fuel : Nat) (p0 p1 : ℚ) (h : p0 < p1) :
    LinearDistribution.ofParameters c fuel [p0, p1] = .error .outOfRange := by
  unfold LinearDistribution.ofParameters
  simp [QVector.read, h]

/-- C23 (divergence): for a linear distribution `d` with `lowerBound < upperBound` the
constructor on `d.parameters()` returns a linear distribution with the bounds of `d` and
the ascending flag set, so that the parameters of the copy are those of `d` when `d` is
ascending and differ from them when `d` is descending; whatever the vector, a distribution
that the constructor returns is ascending.  On a vector of length 0, 1 or 3, and on a
vector of length 2 whose second element does not exceed the first, the constructor
returns; on a vector of length 2 whose second element exceeds the first it reads the
element of index 2 and faults. -/
theorem linear_parameters_round_trip (c : Constants) (fuel : Nat) (d : IDistribution)
    (hlt : d.m_lb < d.m_ub) :
    (∃ d', LinearDistribution.ofParameters c fuel (LinearDistribution.parameters d) = .ok d' ∧
      d'.m_type = .LinearDistType ∧ d'.m_lb = d.m_lb ∧ d'.m_ub = d.m_ub ∧
      d'.m_ascend = true ∧
      (d.m_ascend = true → LinearDistribution.parameters d' = LinearDistribution.parameters d) ∧
      (d.m_ascend = false →
        LinearDistribution.parameters d' ≠ LinearDistribution.parameters d)) ∧
    (∀ ps d', LinearDistribution.ofParameters c fuel ps = .ok d' → d'.m_ascend = true) ∧
    (∃ d', LinearDistribution.ofParameters c fuel [] = .ok d') ∧
    (∀ p0, ∃ d', LinearDistribution.ofParameters c fuel [p0] = .ok d') ∧
    (∀ p0 p1 p2, ∃ d', LinearDistribution.ofParameters c fuel [p0, p1, p2] = .ok d') ∧
    (∀ p0 p1, p1 ≤ p0 → ∃ d', LinearDistribution.ofParameters c fuel [p0, p1] = .ok d') ∧
    (∀ p0 p1, p0 < p1 →
      LinearDistribution.ofParameters c fuel [p0, p1] = .error .outOfRange) := by
  have hw : widened c d.m_lb d.m_ub = (d.m_lb, d.m_ub) := by
    simp [widened, not_le.mpr hlt]
  refine ⟨?_, ?_, ⟨_, ofParameters_none c fuel⟩, fun p0 => ⟨_, ofParameters_one c fuel p0⟩,
    fun p0 p1 p2 => ?_, fun p0 p1 h => ⟨_, ofParameters_narrow c fuel p0 p1 [] h⟩,
    fun p0 p1 h => ofParameters_two c fuel p0 p1 h⟩
  · refine ⟨_, ofParameters_three c fuel d.m_lb d.m_ub _ [] hlt, ?_⟩
    obtain ⟨h1, h2, h3, h4⟩ := rescaled_fields c
      { IDistribution.new c with m_type := .LinearDistType, m_ascend := true } d.m_lb d.m_ub
    rw [hw] at h3 h4
    refine ⟨h1, h3, h4, h2, fun ha => ?_, fun ha => ?_⟩
    · simp only [LinearDistribution.parameters, h3, h4, h2, ha]
    · simp only [LinearDistribution.parameters, h3, h4, h2, ha]
      simp
  · intro ps d' h
    have key : ∀ lb ub, d' = rescaled c
        { IDistribution.new c with m_type := .LinearDistType, m_ascend := true } lb ub →
        d'.m_ascend = true := by
      intro lb ub e
      rw [e]
      exact (rescaled_fields c _ lb ub).2.1
    match ps, h with
    | [], h =>
      rw [ofParameters_none] at h
      exact key _ _ (Except.ok.inj h).symm
    | [p0], h =>
      rw [ofParameters_one] at h
      exact key _ _ (Except.ok.inj h).symm
    | p0 :: p1 :: rest, h =>
      by_cases h01 : p0 < p1
      · match rest, h with
        | [], h =>
          rw [ofParameters_two c fuel p0 p1 h01] at h
          cases h
        | p2 :: rest, h =>
          rw [ofParameters_three c fuel p0 p1 p2 rest h01] at h
          exact key _ _ (Except.ok.inj h).symm
      · rw [ofParameters_narrow c fuel p0 p1 rest (not_lt.mp h01)] at h
        exact key _ _ (Except.ok.inj h).symm
  · by_cases h01 : p0 < p1
    · exact ⟨_, ofParameters_three c fuel p0 p1 p2 [] h01⟩
    · exact ⟨_, ofParameters_narrow c fuel p0 p1 [p2] (not_lt.mp h01)⟩

/-- Witness for C23: the ramp on `[0, 1]`, and the constructor on the vector `0, 1`. -/
theorem linear_parameters_round_trip_witness :
    rampState.m_lb < rampState.m_ub ∧
    LinearDistribution.ofParameters sampleConstants 0 [0, 1] = .error .outOfRange :=
  ⟨by norm_num [rampState],
    (linear_parameters_round_trip sampleConstants 0 rampState
      (by norm_num [rampState])).2.2.2.2.2.2 0 1 (by norm_num)⟩

/-! ## Grid generation in binary64 -/

/-- C2 (divergence): in binary64 with `int` of 32 bits, on a freshly constructed
distribution, which `defineBoundaries(0, 1)` leaves as it is.  After `defineResolution(1/4)`
the query `zSamples()` returns the five points `0, 1/4, 1/2, 3/4, 1`.  After
`defineResolution(89/8192)`, for which `ceil((ub-lb)/dz) + 1 = 94`, the stored resolution is
the `double` nearest to `1/93`, at most `dz`, and `zSamples()` returns 93 points, strictly
increasing from `0` to `1`: the last but one is the `double` about `91/93` and the last gap
is more than twice the resolution.  After `defineResolution(2^-31)` the sample count
overflows `int` and `zSamples()` faults on the negative size. -/
theorem zSamples_count_truncated :
    (∀ fuel, defineBoundaries sampleConstants fuel (new sampleConstants) 0 1 =
      .ok (new sampleConstants)) ∧
    (∃ d3, Binary64.zSamples (Binary64.defineResolution (new sampleConstants) (1 / 4)) =
        .ok d3 ∧
      d3.m_dz = 1 / 4 ∧ d3.m_nSamples = 5 ∧ d3.m_z = [0, 1 / 4, 1 / 2, 3 / 4, 1]) ∧
    ⌈((1 : ℚ) - 0) / (89 / 8192)⌉ + 1 = 94 ∧
    (∃ d3, Binary64.zSamples (Binary64.defineResolution (new sampleConstants) (89 / 8192)) =
        .ok d3 ∧
      d3.m_dz = 3099251356470019 / 288230376151711744 ∧ d3.m_dz ≤ 89 / 8192 ∧
      d3.m_nSamples = 93 ∧ d3.m_z.length = 93 ∧ d3.m_z.Sorted (· < ·) ∧
      nth d3.m_z 0 = 0 ∧ nth d3.m_z 92 = 1 ∧
      nth d3.m_z 91 = 4406748022480805 / 4503599627370496 ∧
      2 * d3.m_dz < nth d3.m_z 92 - nth d3.m_z 91) ∧
    Binary64.zSamples (Binary64.defineResolution (new sampleConstants) (1 / 2147483648)) =
      .error .outOfRange := by
  refine ⟨fun fuel => ?_, ?_, by decide!, ?_, ?_⟩
  · rw [defineBoundaries_eq sampleConstants fuel (new sampleConstants) 0 1 (Or.inl rfl)]
    norm_num [new, sampleConstants, rescaled, widened, defineResolution]
  · obtain ⟨d3, h, hp⟩ := of_returnsWith
      (show returnsWith
        (Binary64.zSamples (Binary64.defineResolution (new sampleConstants) (1 / 4)))
        (fun d3 => decide (d3.m_dz = 1 / 4 ∧ d3.m_nSamples = 5 ∧
          d3.m_z = [0, 1 / 4, 1 / 2, 3 / 4, 1])) = true by decide!)
    exact ⟨d3, h, of_decide_eq_true hp⟩
  · obtain ⟨d3, h, hp⟩ := of_returnsWith
      (show returnsWith
        (Binary64.zSamples (Binary64.defineResolution (new sampleConstants) (89 / 8192)))
        (fun d3 => decide (d3.m_dz = 3099251356470019 / 288230376151711744 ∧
          d3.m_dz ≤ 89 / 8192 ∧
          d3.m_nSamples = 93 ∧ d3.m_z.length = 93 ∧ d3.m_z.Sorted (· < ·) ∧
          nth d3.m_z 0 = 0 ∧ nth d3.m_z 92 = 1 ∧
          nth d3.m_z 91 = 4406748022480805 / 4503599627370496 ∧
          2 * d3.m_dz < nth d3.m_z 92 - nth d3.m_z 91)) = true by decide!)
    exact ⟨d3, h, of_decide_eq_true hp⟩
  · exact of_faultOf (by decide!)

/-! ## The convolution scenario and the order of the interpolator arguments -/

theorem eq_of_sameState {a b : IDistribution} (h : sameState a b = true) : a = b := by
  have h' := of_decide_eq_true h
  cases a
  cases b
  simp only at h'
  simp only [IDistribution.mk.injEq]
  tauto

/-- Resampling a freshly constructed distribution at five points of `[0, 1]`, the
interpolator arguments evaluated from right to left: the first query meets an empty PDF
table and yields `0`. -/
theorem resample_fresh_reversed :
    resample (specified false) (new sampleConstants) ((5 : Nat) : Int)
      (new sampleConstants).m_lb
      (((new sampleConstants).m_ub - (new sampleConstants).m_lb) / (((5 : Nat) : ℚ) - 1))
      (new sampleConstants).m_ub = .ok ([0, 1, 1, 1, 1], { uniformState with m_cdf := [] }) := by
  obtain ⟨a, ha, hp⟩ := of_returnsWith
    (show returnsWith
      (resample (specified false) (new sampleConstants) ((5 : Nat) : Int)
        (new sampleConstants).m_lb
        (((new sampleConstants).m_ub - (new sampleConstants).m_lb) / (((5 : Nat) : ℚ) - 1))
        (new sampleConstants).m_ub)
      (fun p => decide (p.1 = [0, 1, 1, 1, 1]) && sameState p.2 { uniformState with m_cdf := [] })
      = true by decide!)
  rw [ha]
  obtain ⟨v, s⟩ := a
  simp only [Bool.and_eq_true, decide_eq_true_eq] at hp
  rw [hp.1, eq_of_sameState hp.2]

/-- Resampling the uniform three-point state at five points of `[0, 1]`. -/
theorem resample_uniformState :
    resample (specified false) uniformState ((5 : Nat) : Int) uniformState.m_lb
      ((uniformState.m_ub - uniformState.m_lb) / (((5 : Nat) : ℚ) - 1))
      uniformState.m_ub = .ok ([1, 1, 1, 1, 1], uniformState) := by
  obtain ⟨a, ha, hp⟩ := of_returnsWith
    (show returnsWith
      (resample (specified false) uniformState ((5 : Nat) : Int) uniformState.m_lb
        ((uniformState.m_ub - uniformState.m_lb) / (((5 : Nat) : ℚ) - 1))
        uniformState.m_ub)
      (fun p => decide (p.1 = [1, 1, 1, 1, 1]) && sameState p.2 uniformState)
      = true by decide!)
  rw [ha]
  obtain ⟨v, s⟩ := a
  simp only [Bool.and_eq_true, decide_eq_true_eq] at hp
  rw [hp.1, eq_of_sameState hp.2]

/-- `a.add(b)` on two freshly constructed distributions, the interpolator arguments
evaluated from right to left: the resulting PDF table starts with two zeros and peaks at
`z = 5/4`. -/
theorem add_fresh_reversed :
    ∃ a' b', (∀ fuel, addDistribution (specified false) sampleConstants (fuel + 2)
        (new sampleConstants) (new sampleConstants) = .ok (a', b')) ∧
      a'.m_z = [0, 1 / 4, 1 / 2, 3 / 4, 1, 5 / 4, 3 / 2, 7 / 4, 2] ∧
      a'.m_pdf = [0, 0, 8 / 31, 16 / 31, 24 / 31, 32 / 31, 24 / 31, 16 / 31, 8 / 31] := by
  have hr := ready_new sampleConstants (by norm_num [sampleConstants])
  obtain ⟨pdfT, pdfO, dT, oT, h1, h2, -, -, hadd, -, -⟩ :=
    addDistribution_eq (specified false) sampleConstants (new sampleConstants)
      (new sampleConstants) (by norm_num [sampleConstants]) hr hr 5 5 (by decide!) (by decide!)
  rw [resample_fresh_reversed] at h1 h2
  simp only [Except.ok.injEq, Prod.mk.injEq] at h1 h2
  obtain ⟨rfl, rfl⟩ := h1
  obtain ⟨rfl, rfl⟩ := h2
  refine ⟨normalisedState (convolved { uniformState with m_cdf := [] } (new sampleConstants)
    ((specified false).conv [0, 1, 1, 1, 1] [0, 1, 1, 1, 1]) (5 + 5 - 1)) 9,
    { uniformState with m_cdf := [] }, fun fuel => ?_,
    by decide!, by decide!⟩
  rw [hadd (fuel + 2)]
  unfold normalise
  rw [if_neg (by decide!), calculateCDF_eq fuel _ 9 (by norm_num) (by decide!) (by decide!)
    (by decide!) (by decide!) (by decide!)]
  rfl

/-- `a.add(b)` on the uniform three-point state and a freshly constructed distribution, the
interpolator arguments evaluated from right to left. -/
theorem add_populated_fresh_reversed :
    ∃ a' b', (∀ fuel, addDistribution (specified false) sampleConstants (fuel + 2)
        uniformState (new sampleConstants) = .ok (a', b')) ∧
      a'.m_z = [0, 1 / 4, 1 / 2, 3 / 4, 1, 5 / 4, 3 / 2, 7 / 4, 2] ∧
      a'.m_pdf = [0, 8 / 39, 16 / 39, 8 / 13, 32 / 39, 32 / 39, 8 / 13, 16 / 39, 8 / 39] := by
  have hr := ready_new sampleConstants (by norm_num [sampleConstants])
  obtain ⟨pdfT, pdfO, dT, oT, h1, h2, -, -, hadd, -, -⟩ :=
    addDistribution_eq (specified false) sampleConstants uniformState
      (new sampleConstants) (by norm_num [sampleConstants]) ready_uniformState hr 5 5
      (by decide!) (by decide!)
  rw [resample_uniformState] at h1
  rw [resample_fresh_reversed] at h2
  simp only [Except.ok.injEq, Prod.mk.injEq] at h1 h2
  obtain ⟨rfl, rfl⟩ := h1
  obtain ⟨rfl, rfl⟩ := h2
  refine ⟨normalisedState (convolved uniformState (new sampleConstants)
    ((specified false).conv [1, 1, 1, 1, 1] [0, 1, 1, 1, 1]) (5 + 5 - 1)) 9,
    { uniformState with m_cdf := [] }, fun fuel => ?_,
    by decide!, by decide!⟩
  rw [hadd (fuel + 2)]
  unfold normalise
  rw [if_neg (by decide!), calculateCDF_eq fuel _ 9 (by norm_num) (by decide!) (by decide!)
    (by decide!) (by decide!) (by decide!)]
  rfl

/-- C7 (divergence): with `conv` the discrete convolution and the interpolator piecewise
linear.  For two generic distributions on `[0, 1]` whose tables are absent or uniform, and
whose grids are populated unless the interpolator arguments are evaluated in written order,
`a.add(b)` returns; the receiver has support `[0, 2]` and `2N + 1` grid points `k/N`
(`N = DistConvNSamples`); its PDF table is symmetric about the grid point `z = 1`, strictly
increasing on the grid points in `[0, 1]`, strictly decreasing on those in `[1, 2]`, of
trapezoidal integral `1`, and it peaks at `z = 1` with the value `(N+1)/(N+2)`, which is
within `1/(N+2)` of `1`.  With the arguments evaluated from right to left and `N = 4`, on two
freshly constructed distributions `a.add(b)` returns the table
`0, 0, 8/31, 16/31, 24/31, 32/31, 24/31, 16/31, 8/31` over the grid `0, 1/4, ..., 2`, which
is not symmetric and peaks at `z = 5/4`; on a populated receiver and a freshly constructed
`b` it returns `0, 8/39, 16/39, 8/13, 32/39, 32/39, 8/13, 16/39, 8/39`. -/
theorem add_uniform_triangular (o : Bool) (c : Constants) (N : Nat) (hN1 : 1 ≤ N)
    (hN : c.DistConvNSamples = N) (a b : IDistribution)
    (ha : UniformOnUnit a) (hb : UniformOnUnit b)
    (hord : o = true ∨ (a.m_z ≠ [] ∧ b.m_z ≠ [])) :
    (∃ a' b', (∀ fuel, addDistribution (specified o) c (fuel + 2) a b = .ok (a', b')) ∧
      a'.m_lb = 0 ∧ a'.m_ub = 2 ∧
      a'.m_z.length = 2 * N + 1 ∧ a'.m_pdf.length = 2 * N + 1 ∧
      (∀ k, k ≤ 2 * N → nth a'.m_z k = (k : ℚ) / (N : ℚ)) ∧
      nth a'.m_z N = 1 ∧
      (∀ k, k ≤ 2 * N → nth a'.m_pdf (2 * N - k) = nth a'.m_pdf k) ∧
      (∀ i j, i < j → j ≤ 2 * N → nth a'.m_z j ≤ 1 → nth a'.m_pdf i < nth a'.m_pdf j) ∧
      (∀ i j, i < j → j ≤ 2 * N → 1 ≤ nth a'.m_z i → nth a'.m_pdf j < nth a'.m_pdf i) ∧
      integral a'.m_z a'.m_pdf = 1 ∧
      nth a'.m_pdf N = ((N : ℚ) + 1) / ((N : ℚ) + 2) ∧
      (∀ k, nth a'.m_pdf k ≤ nth a'.m_pdf N) ∧
      |nth a'.m_pdf N - 1| ≤ 1 / ((N : ℚ) + 2)) ∧
    (∃ a' b', (∀ fuel, addDistribution (specified false) sampleConstants (fuel + 2)
        (new sampleConstants) (new sampleConstants) = .ok (a', b')) ∧
      a'.m_z = [0, 1 / 4, 1 / 2, 3 / 4, 1, 5 / 4, 3 / 2, 7 / 4, 2] ∧
      a'.m_pdf = [0, 0, 8 / 31, 16 / 31, 24 / 31, 32 / 31, 24 / 31, 16 / 31, 8 / 31]) ∧
    (∃ a' b', (∀ fuel, addDistribution (specified false) sampleConstants (fuel + 2)
        uniformState (new sampleConstants) = .ok (a', b')) ∧
      a'.m_z = [0, 1 / 4, 1 / 2, 3 / 4, 1, 5 / 4, 3 / 2, 7 / 4, 2] ∧
      a'.m_pdf = [0, 8 / 39, 16 / 39, 8 / 13, 32 / 39, 32 / 39, 8 / 13, 16 / 39, 8 / 39]) :=
  ⟨add_uniform_tent o c N hN1 hN a b ha hb hord, add_fresh_reversed,
    add_populated_fresh_reversed⟩

/-- Witness for C7: `DistConvNSamples = 4` and two populated uniform operands, the
interpolator arguments evaluated from right to left. -/
theorem add_uniform_triangular_witness :
    1 ≤ 4 ∧ sampleConstants.DistConvNSamples = (4 : Nat) ∧ UniformOnUnit uniformState ∧
    (false = true ∨ (uniformState.m_z ≠ [] ∧ uniformState.m_z ≠ [])) ∧
    ∃ a' b', (∀ fuel, addDistribution (specified false) sampleConstants (fuel + 2) uniformState
        uniformState = .ok (a', b')) ∧
      a'.m_lb = 0 ∧ a'.m_ub = 2 ∧
      a'.m_z.length = 2 * 4 + 1 ∧ a'.m_pdf.length = 2 * 4 + 1 ∧
      (∀ k, k ≤ 2 * 4 → nth a'.m_z k = (k : ℚ) / ((4 : Nat) : ℚ)) ∧
      nth a'.m_z 4 = 1 ∧
      (∀ k, k ≤ 2 * 4 → nth a'.m_pdf (2 * 4 - k) = nth a'.m_pdf k) ∧
      (∀ i j, i < j → j ≤ 2 * 4 → nth a'.m_z j ≤ 1 → nth a'.m_pdf i < nth a'.m_pdf j) ∧
      (∀ i j, i < j → j ≤ 2 * 4 → 1 ≤ nth a'.m_z i → nth a'.m_pdf j < nth a'.m_pdf i) ∧
      integral a'.m_z a'.m_pdf = 1 ∧
      nth a'.m_pdf 4 = (((4 : Nat) : ℚ) + 1) / (((4 : Nat) : ℚ) + 2) ∧
      (∀ k, nth a'.m_pdf k ≤ nth a'.m_pdf 4) ∧
      |nth a'.m_pdf 4 - 1| ≤ 1 / (((4 : Nat) : ℚ) + 2) :=
  ⟨by norm_num, rfl, uniformOnUnit_uniformState,
    Or.inr ⟨by simp [uniformState], by simp [uniformState]⟩,
    (add_uniform_triangular false sampleConstants 4 (by norm_num) rfl uniformState
      uniformState uniformOnUnit_uniformState uniformOnUnit_uniformState
      (Or.inr ⟨by simp [uniformState], by simp [uniformState]⟩)).1⟩

end Tigon
